import Mathlib

/-!
Formal model of the JSON table viewer (`src/app/page.tsx`).

JSON values are embedded as the inductive `Json` below; JavaScript numbers are
modelled as integers (every number appearing in the development is integral).
JavaScript objects are modelled as ordered association lists, which is how they
behave after `JSON.parse` (insertion order, unique keys).  `undefined` cells
(absent properties) are modelled with `Option Json`, `none` standing for
`undefined`.

Each definition mirrors one function of the source file; the comments name the
source function and lines.
-/

/-- The JSON data model: `null`, booleans, numbers (modelled as integers),
strings, arrays, and objects as ordered key/value lists. -/
inductive Json where
  | null : Json
  | bool : Bool → Json
  | num : Int → Json
  | str : String → Json
  | arr : List Json → Json
  | obj : List (String × Json) → Json
deriving Repr

mutual

def Json.decEq : (a b : Json) → Decidable (a = b)
  | .null, .null => isTrue rfl
  | .null, .bool _ => isFalse (fun h => Json.noConfusion h)
  | .null, .num _ => isFalse (fun h => Json.noConfusion h)
  | .null, .str _ => isFalse (fun h => Json.noConfusion h)
  | .null, .arr _ => isFalse (fun h => Json.noConfusion h)
  | .null, .obj _ => isFalse (fun h => Json.noConfusion h)
  | .bool _, .null => isFalse (fun h => Json.noConfusion h)
  | .bool x, .bool y =>
    if h : x = y then isTrue (by rw [h]) else
      isFalse (by intro hh; injection hh; exact h ‹_›)
  | .bool _, .num _ => isFalse (fun h => Json.noConfusion h)
  | .bool _, .str _ => isFalse (fun h => Json.noConfusion h)
  | .bool _, .arr _ => isFalse (fun h => Json.noConfusion h)
  | .bool _, .obj _ => isFalse (fun h => Json.noConfusion h)
  | .num _, .null => isFalse (fun h => Json.noConfusion h)
  | .num _, .bool _ => isFalse (fun h => Json.noConfusion h)
  | .num x, .num y =>
    if h : x = y then isTrue (by rw [h]) else
      isFalse (by intro hh; injection hh; exact h ‹_›)
  | .num _, .str _ => isFalse (fun h => Json.noConfusion h)
  | .num _, .arr _ => isFalse (fun h => Json.noConfusion h)
  | .num _, .obj _ => isFalse (fun h => Json.noConfusion h)
  | .str _, .null => isFalse (fun h => Json.noConfusion h)
  | .str _, .bool _ => isFalse (fun h => Json.noConfusion h)
  | .str _, .num _ => isFalse (fun h => Json.noConfusion h)
  | .str x, .str y =>
    if h : x = y then isTrue (by rw [h]) else
      isFalse (by intro hh; injection hh; exact h ‹_›)
  | .str _, .arr _ => isFalse (fun h => Json.noConfusion h)
  | .str _, .obj _ => isFalse (fun h => Json.noConfusion h)
  | .arr _, .null => isFalse (fun h => Json.noConfusion h)
  | .arr _, .bool _ => isFalse (fun h => Json.noConfusion h)
  | .arr _, .num _ => isFalse (fun h => Json.noConfusion h)
  | .arr _, .str _ => isFalse (fun h => Json.noConfusion h)
  | .arr xs, .arr ys =>
    match Json.decEqList xs ys with
    | isTrue h => isTrue (by rw [h])
    | isFalse h => isFalse (by intro hh; injection hh; exact h ‹_›)
  | .arr _, .obj _ => isFalse (fun h => Json.noConfusion h)
  | .obj _, .null => isFalse (fun h => Json.noConfusion h)
  | .obj _, .bool _ => isFalse (fun h => Json.noConfusion h)
  | .obj _, .num _ => isFalse (fun h => Json.noConfusion h)
  | .obj _, .str _ => isFalse (fun h => Json.noConfusion h)
  | .obj _, .arr _ => isFalse (fun h => Json.noConfusion h)
  | .obj fs, .obj gs =>
    match Json.decEqFields fs gs with
    | isTrue h => isTrue (by rw [h])
    | isFalse h => isFalse (by intro hh; injection hh; exact h ‹_›)

def Json.decEqList : (xs ys : List Json) → Decidable (xs = ys)
  | [], [] => isTrue rfl
  | [], _ :: _ => isFalse (fun h => List.noConfusion h)
  | _ :: _, [] => isFalse (fun h => List.noConfusion h)
  | x :: xs, y :: ys =>
    match Json.decEq x y, Json.decEqList xs ys with
    | isTrue h1, isTrue h2 => isTrue (by rw [h1, h2])
    | isFalse h1, _ => isFalse (by intro hh; injection hh; exact h1 ‹_›)
    | isTrue _, isFalse h2 => isFalse (by intro hh; injection hh; exact h2 ‹_›)

def Json.decEqFields : (fs gs : List (String × Json)) → Decidable (fs = gs)
  | [], [] => isTrue rfl
  | [], _ :: _ => isFalse (fun h => List.noConfusion h)
  | _ :: _, [] => isFalse (fun h => List.noConfusion h)
  | (k, v) :: fs, (l, w) :: gs =>
    if hk : k = l then
      match Json.decEq v w, Json.decEqFields fs gs with
      | isTrue h1, isTrue h2 => isTrue (by rw [hk, h1, h2])
      | isFalse h1, _ => isFalse (by
          intro hh; injection hh with hp _; injection hp; exact h1 ‹_›)
      | isTrue _, isFalse h2 => isFalse (by intro hh; injection hh; exact h2 ‹_›)
    else
      isFalse (by intro hh; injection hh with hp _; injection hp; exact hk ‹_›)

end

instance : DecidableEq Json := Json.decEq

/-- `typeof v === 'object' && v !== null` in JavaScript: true for both objects
and arrays. -/
def isObjLike : Json → Bool
  | .arr _ => true
  | .obj _ => true
  | _ => false

/-- A strict (non-array) object, i.e.
`typeof v === 'object' && v !== null && !Array.isArray(v)`. -/
def isStrictObj : Json → Bool
  | .obj _ => true
  | _ => false

/-- A primitive value (null, boolean, number or string). -/
def isPrim : Json → Bool
  | .null => true
  | .bool _ => true
  | .num _ => true
  | .str _ => true
  | _ => false

/-- `canDisplayAsTable` (page.tsx lines 89-98): any array or object can be
displayed; scalars and `null` cannot (`!data` is true for `null`, and the
remaining scalar cases fail both the array and the object test). -/
def canDisplayAsTable : Json → Bool
  | .arr _ => true
  | .obj _ => true
  | _ => false

/-- `isNestedStructure` (page.tsx lines 143-148).  Note that the array branch
tests `typeof item === 'object' && item !== null` on each element, which is
true for arrays as well as for objects. -/
def isNestedStructure : Json → Bool
  | .arr xs => decide (xs.length > 0) && xs.all isObjLike
  | .obj fs => decide (fs.length > 0)
  | _ => false

/-- The result of `getTableStructure`: a header list and a grid of cells.
A cell is `none` when the looked-up property is absent (`undefined`). -/
structure TableGrid where
  headers : List String
  rows : List (List (Option Json))
deriving Repr, DecidableEq

/-- The insertion-ordered de-duplicating `Set.add` of JavaScript. -/
def insertKey (acc : List String) (k : String) : List String :=
  if acc.contains k then acc else acc ++ [k]

/-- One iteration of the key-collection loop of `getTableStructure`
(page.tsx lines 110-116): add each key of the record that is not excluded. -/
def addKeys (excludeKeys : List String) (acc : List String) :
    List (String × Json) → List String
  | [] => acc
  | (k, _) :: rest =>
    addKeys excludeKeys (if excludeKeys.contains k then acc else insertKey acc k) rest

/-- The full key-collection loop over all records of the array. -/
def collectKeys (excludeKeys : List String) (acc : List String) :
    List Json → List String
  | [] => acc
  | item :: rest =>
    collectKeys excludeKeys
      (match item with
       | .obj fs => addKeys excludeKeys acc fs
       | _ => acc) rest

/-- Lexicographic comparison of character lists by code point, the order used
by JavaScript's default string comparison. -/
def lexLe : List Char → List Char → Bool
  | [], _ => true
  | _ :: _, [] => false
  | c :: cs, d :: ds =>
    if c.toNat < d.toNat then true
    else if d.toNat < c.toNat then false
    else lexLe cs ds

/-- The string order of `Array.prototype.sort()` as a proposition. -/
def StrLe (a b : String) : Prop := lexLe a.data b.data = true

instance : DecidableRel StrLe := fun a b => by
  unfold StrLe; infer_instance

/-- `Array.prototype.sort()` on strings: lexicographic ascending. -/
def sortKeys (ks : List String) : List String :=
  ks.insertionSort StrLe

/-- `getTableStructure` (page.tsx lines 101-140). -/
def getTableStructure (data : Json) (excludeKeys : List String) : TableGrid :=
  match data with
  | .arr items =>
    if items.length = 0 then
      { headers := ["Index", "Value"], rows := [] }
    else if items.all isStrictObj then
      let headers := sortKeys (collectKeys excludeKeys [] items)
      { headers := headers
        rows := items.map fun item =>
          headers.map fun header =>
            match item with
            | .obj fs => fs.lookup header
            | _ => none }
    else
      { headers := ["Index", "Value"]
        rows := items.enum.map fun p => [some (.num p.1), some p.2] }
  | .obj fs =>
    { headers := ["Key", "Value"]
      rows := (fs.filter fun p => !excludeKeys.contains p.1).map fun p =>
        [some (.str p.1), some p.2] }
  | v => { headers := ["Value"], rows := [[some v]] }

/-- The exclusion set used by `renderNestedTable` (page.tsx lines 152-155): a
table rendered for the parent key `Results` excludes the `Packages` and
`Vulnerabilities` keys from its columns; every other parent key excludes
nothing. -/
def renderNestedExcludeKeys (key : String) : List String :=
  if key = "Results" then ["Packages", "Vulnerabilities"] else []

/-- Decimal digit character. -/
def digitChar (d : Nat) : Char := Char.ofNat (48 + d)

/-- Lowercase hexadecimal digit character, as emitted by `JSON.stringify`
unicode escapes. -/
def hexDigit (d : Nat) : Char :=
  if d < 10 then Char.ofNat (48 + d) else Char.ofNat (87 + d)

/-- Decimal digits of `n`, least significant first; the first argument is
fuel (`n` itself suffices, see `natDigitsAux_val`). -/
def natDigitsAux : Nat → Nat → List Char
  | _, 0 => []
  | 0, _ + 1 => []
  | fuel + 1, n + 1 => digitChar ((n + 1) % 10) :: natDigitsAux fuel ((n + 1) / 10)

/-- Decimal rendering of a natural number. -/
def natRepr (n : Nat) : String :=
  if n = 0 then "0" else String.mk (natDigitsAux n n).reverse

/-- `String(n)` for an integral JavaScript number. -/
def intRepr : Int → String
  | .ofNat n => natRepr n
  | .negSucc n => "-" ++ natRepr (n + 1)

mutual

/-- JavaScript `String(v)`: `null`/booleans/numbers/strings render as usual,
an array renders as its elements joined by commas (`Array.prototype.join`,
which renders a `null` element as the empty string), and a plain object
renders as `[object Object]`. -/
def jsToString : Json → String
  | .null => "null"
  | .bool b => if b then "true" else "false"
  | .num n => intRepr n
  | .str s => s
  | .arr xs => jsJoinComma xs
  | .obj _ => "[object Object]"

/-- `Array.prototype.join(',')` with the `null → ""` element rule. -/
def jsJoinComma : List Json → String
  | [] => ""
  | [x] => if x = Json.null then "" else jsToString x
  | x :: y :: rest =>
    (if x = Json.null then "" else jsToString x) ++ "," ++ jsJoinComma (y :: rest)

end

/-- JSON string escaping as performed by `JSON.stringify`: `"` and `\` are
backslash-escaped, the control characters with short escapes use them, any
other control character becomes a `\u00XX` escape. -/
def escapeJsonString : List Char → List Char
  | [] => []
  | c :: cs =>
    (if c = '"' then ['\\', '"']
     else if c = '\\' then ['\\', '\\']
     else if c = '\n' then ['\\', 'n']
     else if c = '\r' then ['\\', 'r']
     else if c = '\t' then ['\\', 't']
     else if c.toNat = 8 then ['\\', 'b']
     else if c.toNat = 12 then ['\\', 'f']
     else if c.toNat < 32 then
       ['\\', 'u', '0', '0', hexDigit (c.toNat / 16), hexDigit (c.toNat % 16)]
     else [c]) ++ escapeJsonString cs

/-- A JSON string literal: quotes around the escaped text. -/
def quoteJson (s : String) : String :=
  String.mk ('"' :: escapeJsonString s.data ++ ['"'])

mutual

/-- Compact `JSON.stringify(v)` (no spacing argument). -/
def stringifyCompact : Json → String
  | .null => "null"
  | .bool b => if b then "true" else "false"
  | .num n => intRepr n
  | .str s => quoteJson s
  | .arr xs => "[" ++ stringifyList xs ++ "]"
  | .obj fs => "\x7b" ++ stringifyFields fs ++ "\x7d"

def stringifyList : List Json → String
  | [] => ""
  | [x] => stringifyCompact x
  | x :: y :: rest => stringifyCompact x ++ "," ++ stringifyList (y :: rest)

def stringifyFields : List (String × Json) → String
  | [] => ""
  | [(k, v)] => quoteJson k ++ ":" ++ stringifyCompact v
  | (k, v) :: p :: rest =>
    quoteJson k ++ ":" ++ stringifyCompact v ++ "," ++ stringifyFields (p :: rest)

end

mutual

/-- The entry loop of `flattenObject` (page.tsx lines 312-333): each entry is
flattened under the extended dot path in order. -/
def flattenFields : List (String × Json) → String → List (String × String)
  | [], _ => []
  | (k, v) :: rest, pre =>
    flattenEntry (if pre = "" then k else pre ++ "." ++ k) v ++ flattenFields rest pre

/-- One entry of `flattenObject`: null becomes the empty string, an empty
array the literal `[]`, an array of objects its compact JSON serialization, a
non-empty array that is not all objects its `String(v)` elements joined with
`"; "`, a nested object recurses, and any other scalar its string form. -/
def flattenEntry (path : String) : Json → List (String × String)
  | .null => [(path, "")]
  | .arr xs =>
    if xs.isEmpty then [(path, "[]")]
    else if xs.all isObjLike then [(path, stringifyCompact (.arr xs))]
    else [(path, String.intercalate "; " (xs.map jsToString))]
  | .obj fs => flattenFields fs path
  | .bool b => [(path, jsToString (.bool b))]
  | .num n => [(path, jsToString (.num n))]
  | .str s => [(path, jsToString (.str s))]

end

/-- `flattenObject` (page.tsx lines 309-336), as the ordered list of
assignments it performs; `Object.entries` of a non-object is empty.  A later
assignment to the same path overwrites an earlier one, which `flattenLookup`
models by returning the last binding. -/
def flattenObject (j : Json) (pre : String) : List (String × String) :=
  match j with
  | .obj fs => flattenFields fs pre
  | _ => []

/-- Reading `flattened[header]`: the last write to a path wins. -/
def flattenLookup (flat : List (String × String)) (k : String) : Option String :=
  flat.reverse.lookup k

/-- `Object.keys(flattened).forEach(key => allKeys.add(key))`. -/
def addFlatKeys (acc : List String) : List (String × String) → List String
  | [] => acc
  | p :: rest => addFlatKeys (insertKey acc p.1) rest

/-- The key-union loop of `exportToCSV` (page.tsx lines 339-343). -/
def collectFlatKeys (acc : List String) : List Json → List String
  | [] => acc
  | item :: rest => collectFlatKeys (addFlatKeys acc (flattenObject item "")) rest

/-- `value.replace(/"/g, '""')`. -/
def escapeCSVQuotes : List Char → List Char
  | [] => []
  | c :: cs => (if c = '"' then ['"', '"'] else [c]) ++ escapeCSVQuotes cs

/-- One CSV cell (page.tsx lines 353-359): double every `"`, then wrap the
text in quotes if it contains a comma, a double quote, or a newline. -/
def csvCell (s : String) : String :=
  if (escapeCSVQuotes s.data).contains ',' || (escapeCSVQuotes s.data).contains '"'
      || (escapeCSVQuotes s.data).contains '\n' then
    String.mk ('"' :: escapeCSVQuotes s.data ++ ['"'])
  else String.mk (escapeCSVQuotes s.data)

/-- `exportToCSV` (page.tsx lines 305-364), up to the produced CSV text:
`none` models the silent early return, `some s` the emitted document. -/
def exportToCSV (data : List Json) : Option String :=
  if data.isEmpty then none
  else
    let headers := sortKeys (collectFlatKeys [] data)
    some (String.intercalate "\n"
      (String.intercalate "," headers ::
        data.map fun item =>
          String.intercalate ","
            (headers.map fun h =>
              csvCell ((flattenLookup (flattenObject item "") h).getD ""))))

mutual

/-- Well-formedness of the keys reachable in a value: in every reachable object
the keys are pairwise distinct (as `JSON.parse` guarantees), non-empty, and
contain no dot. -/
def keysOK : Json → Bool
  | .arr xs => keysOKList xs
  | .obj fs => decide ((fs.map Prod.fst).Nodup) && keysOKFields fs
  | _ => true

def keysOKList : List Json → Bool
  | [] => true
  | x :: xs => keysOK x && keysOKList xs

def keysOKFields : List (String × Json) → Bool
  | [] => true
  | (k, v) :: fs =>
    decide (k ≠ "") && !(k.data.contains '.') && keysOK v && keysOKFields fs

end

mutual

/-- The key chains of the paths produced by `flattenFields`, one chain per
produced path, in production order. -/
def chains : List (String × Json) → List (List String)
  | [] => []
  | (k, v) :: fs => (chainsEntry v).map (fun c => k :: c) ++ chains fs

def chainsEntry : Json → List (List String)
  | .obj fs => chains fs
  | _ => [[]]

end

/-- Folding a chain onto a prefix exactly as `flattenFields` extends paths. -/
def joinChain (pre : String) (c : List String) : String :=
  c.foldl (fun acc k => if acc = "" then k else acc ++ "." ++ k) pre

/-- The dot-prefixed concatenation of a chain. -/
def dotConcat : List String → String
  | [] => ""
  | k :: c => "." ++ k ++ dotConcat c

/-- `Option`-valued map, used to thread the fuel-exhaustion failure of the
fueled render functions through lists. -/
def mapO {α β : Type} (f : α → Option β) : List α → Option (List β)
  | [] => some []
  | x :: xs => do
    let y ← f x
    let ys ← mapO f xs
    pure (y :: ys)

/-- `Array.isArray(v) && v.length > 0 && v.every(item => typeof item === 'object'
&& item !== null)` — the qualifying test used throughout the source for
rendering an array as a nested table. -/
def isQualArray : Json → Bool
  | .arr ys => !ys.isEmpty && ys.all isObjLike
  | _ => false

/-- `parentKey || 'Array'` (page.tsx line 518): JavaScript falsiness makes the
empty string fall back to `Array` too. -/
def keyOrArray : Option String → String
  | none => "Array"
  | some k => if k = "" then "Array" else k

/-- The view-model tree produced by the render functions.  Nodes that the
source builds from one original subtree carry that subtree in a `src` field
(the source keeps the same reference for its copy buttons). -/
inductive RenderNode where
  | scalar (v : Json)
  | undef
  | emptyArr
  | message (s : String)
  | badges (items : List RenderNode)
  | bulleted (label : String) (items : List RenderNode)
  | labeled (label : String) (node : RenderNode)
  | labeledScalar (label : String) (node : RenderNode)
  | row (src : Json) (cells : List RenderNode) (extras : List RenderNode)
  | table (title : String) (src : Json) (headers : List String)
      (rows : List RenderNode)
  | collapsibleTable (title : String) (sortIndex : Nat) (src : List Json)
      (headers : List String) (rows : List RenderNode)
  | panel (src : Json) (children : List RenderNode)
  | kvGrid (title : String) (src : Json) (headers : List String)
      (rows : List RenderNode)
  | section (src : Json) (children : List RenderNode)
deriving Repr

/-- The original subtree a node was built from, when there is one. -/
def RenderNode.srcOf : RenderNode → Option Json
  | .scalar v => some v
  | .row src _ _ => some src
  | .table _ src _ _ => some src
  | .collapsibleTable _ _ src _ _ => some (.arr src)
  | .panel src _ => some src
  | .kvGrid _ src _ _ => some src
  | .section src _ => some src
  | _ => none

/-- The direct child nodes of a node. -/
def RenderNode.children : RenderNode → List RenderNode
  | .badges items => items
  | .bulleted _ items => items
  | .labeled _ n => [n]
  | .labeledScalar _ n => [n]
  | .row _ cells extras => cells ++ extras
  | .table _ _ _ rows => rows
  | .collapsibleTable _ _ _ _ rows => rows
  | .panel _ cs => cs
  | .kvGrid _ _ _ rows => rows
  | .section _ cs => cs
  | _ => []

mutual

/-- All nodes of a tree, the root included. -/
def RenderNode.nodes : RenderNode → List RenderNode
  | .scalar v => [.scalar v]
  | .undef => [.undef]
  | .emptyArr => [.emptyArr]
  | .message s => [.message s]
  | .badges items => .badges items :: RenderNode.nodesList items
  | .bulleted l items => .bulleted l items :: RenderNode.nodesList items
  | .labeled l n => .labeled l n :: RenderNode.nodes n
  | .labeledScalar l n => .labeledScalar l n :: RenderNode.nodes n
  | .row src cells extras =>
    .row src cells extras :: (RenderNode.nodesList cells ++ RenderNode.nodesList extras)
  | .table t src hs rows => .table t src hs rows :: RenderNode.nodesList rows
  | .collapsibleTable t i src hs rows =>
    .collapsibleTable t i src hs rows :: RenderNode.nodesList rows
  | .panel src cs => .panel src cs :: RenderNode.nodesList cs
  | .kvGrid t src hs rows => .kvGrid t src hs rows :: RenderNode.nodesList rows
  | .section src cs => .section src cs :: RenderNode.nodesList cs

def RenderNode.nodesList : List RenderNode → List RenderNode
  | [] => []
  | n :: ns => RenderNode.nodes n ++ RenderNode.nodesList ns

end

/-- A subtree `w` of the input is shown by the view model `r` when some node
of `r` was built from `w`. -/
def Shows (r : RenderNode) (w : Json) : Prop :=
  ∃ n ∈ r.nodes, n.srcOf = some w

/-- The stable sort of the Packages/Vulnerabilities table entries
(page.tsx lines 590-595): Vulnerabilities (order 1) before Packages (order 2). -/
def sortPV (l : List (String × Json)) : List (String × Json) :=
  l.filter (fun p => p.1 == "Vulnerabilities") ++ l.filter (fun p => p.1 == "Packages")

/-- `Object.fromEntries(headers.map((h, idx) => [h, row[idx]]))`, the synthetic
copy record built for rows of a key/value grid (page.tsx lines 876-878 and
995-997).  Cells of such grids are always present; an absent cell is modelled
as `null`. -/
def synthRow (headers : List String) (row : List (Option Json)) : Json :=
  .obj ((headers.zip row).map (fun p => (p.1, p.2.getD .null)))

/-- `originalRow?.<key>` on a possibly non-object row value. -/
def pvLookup (item : Json) (key : String) : Option Json :=
  match item with
  | .obj fs => fs.lookup key
  | _ => none

mutual

/-- The page-level rendering of the parsed value (page.tsx lines 811-1051):
an object with nested structures becomes a section of per-key blocks, any
other array or object becomes the standard table, and a scalar is reported
as not displayable.  The first argument is fuel; `none` means the fuel ran
out (`viewFuel` below always suffices). -/
def renderTop : Nat → Json → Option RenderNode
  | 0, _ => none
  | fuel + 1, v =>
    if canDisplayAsTable v then
      match v with
      | .obj fs =>
        if fs.any (fun p => isNestedStructure p.2) then do
          let sections ← mapO (renderTopEntry fuel) fs
          pure (.section (.obj fs) sections)
        else do
          let rows ← mapO
            (fun row => renderCollRow fuel (getTableStructure (.obj fs) []).headers
              (synthRow (getTableStructure (.obj fs) []).headers row) row)
            (getTableStructure (.obj fs) []).rows
          pure (.kvGrid "Table" (.obj fs) (getTableStructure (.obj fs) []).headers rows)
      | .arr xs => do
        let rows ← mapO
          (fun p => renderCollRow fuel (getTableStructure (.arr xs) []).headers p.1 p.2)
          (xs.zip (getTableStructure (.arr xs) []).rows)
        pure (.table "Table" (.arr xs) (getTableStructure (.arr xs) []).headers rows)
      | _ => pure (.message "Cannot display as table")
    else pure (.message "Cannot display as table")

/-- One entry of the top-level object display (page.tsx lines 821-936): a
nested-structure value becomes its nested table or its key/value grid, any
other value a labeled cell. -/
def renderTopEntry : Nat → String × Json → Option RenderNode
  | 0, _ => none
  | fuel + 1, (k, v) =>
    if isNestedStructure v then do
      let t ← renderNestedTable fuel k v
      match t with
      | some node => pure node
      | none =>
        match v with
        | .obj gs => do
          let rows ← mapO
            (fun row => renderCollRow fuel (getTableStructure (.obj gs) []).headers
              (synthRow (getTableStructure (.obj gs) []).headers row) row)
            (getTableStructure (.obj gs) []).rows
          pure (.kvGrid k (.obj gs) (getTableStructure (.obj gs) []).headers rows)
        | _ => (RenderNode.labeled k) <$> renderCell fuel v (some k)
    else (RenderNode.labeled k) <$> renderCell fuel v (some k)

/-- `renderNestedTable` (page.tsx lines 151-276).  `some none` models the
function returning `null` for a non-qualifying value. -/
def renderNestedTable : Nat → String → Json → Option (Option RenderNode)
  | 0, _, _ => none
  | fuel + 1, key, value =>
    match value with
    | .arr xs =>
      if !xs.isEmpty && xs.all isObjLike then do
        let rows ← mapO
          (fun p => renderTableRow fuel
            (getTableStructure (.arr xs) (renderNestedExcludeKeys key)).headers p.1 p.2)
          (xs.zip (getTableStructure (.arr xs) (renderNestedExcludeKeys key)).rows)
        pure (some (.table key (.arr xs)
          (getTableStructure (.arr xs) (renderNestedExcludeKeys key)).headers rows))
      else pure none
    | _ => pure none

/-- One row of a nested table (page.tsx lines 207-268): cells rendered with
`renderCellValue`, followed by the collapsible Vulnerabilities/Packages tables
of the original record when those fields are non-empty arrays. -/
def renderTableRow : Nat → List String → Json → List (Option Json) → Option RenderNode
  | 0, _, _, _ => none
  | fuel + 1, headers, item, rowCells => do
    let cells ← mapO (fun p => renderCellValueOpt fuel p.2 (some p.1))
      (headers.zip rowCells)
    let extras ← pvExtras fuel item
    pure (.row item cells extras)

/-- The `hasVulnerabilities`/`hasPackages` sub-tables below a nested-table row
(page.tsx lines 209-210 and 246-265), Vulnerabilities (index 1) first. -/
def pvExtras : Nat → Json → Option (List RenderNode)
  | 0, _ => none
  | fuel + 1, item => do
    let e1 ← pvCollapsible fuel "Vulnerabilities" 1 (pvLookup item "Vulnerabilities")
    let e2 ← pvCollapsible fuel "Packages" 2 (pvLookup item "Packages")
    pure (e1 ++ e2)

/-- `originalRow?.Packages && Array.isArray(...) && length > 0` guarding one
collapsible sub-table (page.tsx lines 209-210, 255-260). -/
def pvCollapsible : Nat → String → Nat → Option Json → Option (List RenderNode)
  | 0, _, _, _ => none
  | fuel + 1, key, idx, c =>
    match c with
    | some (.arr vs) =>
      if !vs.isEmpty then
        (fun n => [n]) <$> renderCollapsibleTable fuel key idx vs
      else pure []
    | _ => pure []

/-- `renderCollapsibleTable` (page.tsx lines 379-503).  The node always
carries its grid; the collapse flag only hides it in the UI. -/
def renderCollapsibleTable : Nat → String → Nat → List Json → Option RenderNode
  | 0, _, _, _ => none
  | fuel + 1, key, sortIdx, xs => do
    let rows ← mapO
      (fun p => renderCollRow fuel (getTableStructure (.arr xs) []).headers p.1 p.2)
      (xs.zip (getTableStructure (.arr xs) []).rows)
    pure (.collapsibleTable key sortIdx xs (getTableStructure (.arr xs) []).headers rows)

/-- One row of a collapsible or standard table (page.tsx lines 455-496 and
994-1039): cells rendered with `renderCellWithNestedArrays`, no extras. -/
def renderCollRow : Nat → List String → Json → List (Option Json) → Option RenderNode
  | 0, _, _, _ => none
  | fuel + 1, headers, item, rowCells => do
    let cells ← mapO (fun p => renderCellOpt fuel p.2 (some p.1)) (headers.zip rowCells)
    pure (.row item cells [])

/-- `renderCellWithNestedArrays` (page.tsx lines 507-696). -/
def renderCell : Nat → Json → Option String → Option RenderNode
  | 0, _, _ => none
  | fuel + 1, value, pk =>
    match value with
    | .arr xs =>
      if !xs.isEmpty && xs.all isObjLike then
        if pk = some "Packages" then renderCollapsibleTable fuel "Packages" 2 xs
        else if pk = some "Vulnerabilities" then
          renderCollapsibleTable fuel "Vulnerabilities" 1 xs
        else do
          let t ← renderNestedTable fuel (keyOrArray pk) (.arr xs)
          pure (t.getD (.message "null"))
      else if !xs.isEmpty then do
        let items ← mapO (fun x => renderCellValue fuel x pk) xs
        pure (.badges items)
      else pure .emptyArr
    | .obj fs =>
      if fs.any (fun p => isQualArray p.2) then
        if fs.any (fun p => p.1 == "Packages" || p.1 == "Vulnerabilities") then do
          let others ← mapO (renderOtherEntry fuel)
            (fs.filter (fun p => !(p.1 == "Packages") && !(p.1 == "Vulnerabilities")))
          let tables ← mapO (renderPVEntry fuel)
            (sortPV (fs.filter
              (fun p => (p.1 == "Packages" || p.1 == "Vulnerabilities")
                && isQualArray p.2)))
          pure (.panel (.obj fs) (others ++ tables))
        else do
          let children ← mapO (renderGenEntry fuel) fs
          pure (.panel (.obj fs) children)
      else do
        let children ← mapO (renderSimpleEntry fuel) fs
        pure (.panel (.obj fs) children)
    | _ => renderCellValue fuel value pk

/-- A Packages/Vulnerabilities table entry (page.tsx lines 596-600). -/
def renderPVEntry : Nat → String × Json → Option RenderNode
  | 0, _ => none
  | fuel + 1, (k, v) =>
    renderCollapsibleTable fuel k (if k = "Vulnerabilities" then 1 else 2)
      (match v with | .arr ys => ys | _ => [])

/-- A non-Packages/Vulnerabilities entry of an object that contains qualifying
nested arrays and a Packages/Vulnerabilities key (page.tsx lines 564-581). -/
def renderOtherEntry : Nat → String × Json → Option RenderNode
  | 0, _ => none
  | fuel + 1, (k, v) =>
    if isQualArray v then do
      let t ← renderNestedTable fuel k v
      pure (t.getD (.message "null"))
    else
      match v with
      | .obj _ => (RenderNode.labeled k) <$> renderCell fuel v (some k)
      | _ => (RenderNode.labeledScalar k) <$> renderCellValue fuel v (some k)

/-- An entry of an object with qualifying nested arrays but no
Packages/Vulnerabilities key (page.tsx lines 610-650). -/
def renderGenEntry : Nat → String × Json → Option RenderNode
  | 0, _ => none
  | fuel + 1, (k, v) =>
    match v with
    | .arr ys =>
      if isQualArray (.arr ys) then do
        let t ← renderNestedTable fuel k (.arr ys)
        pure (t.getD (.message "null"))
      else if !ys.isEmpty then do
        let items ← mapO (fun x => renderCellValue fuel x (some k)) ys
        pure (.bulleted k items)
      else pure (.labeledScalar k .emptyArr)
    | .obj gs => (RenderNode.labeled k) <$> renderCell fuel (.obj gs) (some k)
    | _ => (RenderNode.labeledScalar k) <$> renderCellValue fuel v none

/-- An entry of an object without qualifying nested arrays
(page.tsx lines 657-689). -/
def renderSimpleEntry : Nat → String × Json → Option RenderNode
  | 0, _ => none
  | fuel + 1, (k, v) =>
    match v with
    | .obj gs =>
      if gs.isEmpty then
        (RenderNode.labeledScalar k) <$> renderCellValue fuel (.obj gs) none
      else (RenderNode.labeled k) <$> renderCell fuel (.obj gs) (some k)
    | .arr ys =>
      if isQualArray (.arr ys) then do
        let t ← renderNestedTable fuel k (.arr ys)
        pure (t.getD (.message "null"))
      else if !ys.isEmpty then do
        let items ← mapO (fun x => renderCellValue fuel x (some k)) ys
        pure (.bulleted k items)
      else (RenderNode.labeledScalar k) <$> renderCellValue fuel (.arr ys) none
    | _ => (RenderNode.labeledScalar k) <$> renderCellValue fuel v none

/-- A table cell that may be `undefined` (a sparse record looked up at a
header it does not carry), rendered with `renderCellWithNestedArrays`. -/
def renderCellOpt : Nat → Option Json → Option String → Option RenderNode
  | 0, _, _ => none
  | fuel + 1, none, _ => pure .undef
  | fuel + 1, some v, pk => renderCell fuel v pk

/-- `renderCellValue` (page.tsx lines 699-720): scalars render inline, objects
and arrays are expanded through `renderCellWithNestedArrays`. -/
def renderCellValue : Nat → Json → Option String → Option RenderNode
  | 0, _, _ => none
  | fuel + 1, .null, _ => pure (.scalar .null)
  | fuel + 1, .bool b, _ => pure (.scalar (.bool b))
  | fuel + 1, .num n, _ => pure (.scalar (.num n))
  | fuel + 1, .str s, _ => pure (.scalar (.str s))
  | fuel + 1, .arr xs, pk => renderCell fuel (.arr xs) pk
  | fuel + 1, .obj fs, pk => renderCell fuel (.obj fs) pk

/-- A possibly-`undefined` cell rendered with `renderCellValue`
(page.tsx line 222: `undefined` renders as the `undefined` marker). -/
def renderCellValueOpt : Nat → Option Json → Option String → Option RenderNode
  | 0, _, _ => none
  | fuel + 1, none, _ => pure .undef
  | fuel + 1, some v, pk => renderCellValue fuel v pk

end

mutual

/-- A structural weight of a value: every constructor counts one, string and
number contents count nothing.  The recursion depth of the render functions is
bounded by a multiple of it. -/
def jweight : Json → Nat
  | .null => 1
  | .bool _ => 1
  | .num _ => 1
  | .str _ => 1
  | .arr xs => 1 + jweightList xs
  | .obj fs => 1 + jweightFields fs

def jweightList : List Json → Nat
  | [] => 1
  | x :: xs => 1 + jweight x + jweightList xs

def jweightFields : List (String × Json) → Nat
  | [] => 1
  | (_, v) :: fs => 1 + jweight v + jweightFields fs

end

/-- Fuel that always suffices for `renderTop` (theorem `renderTop_total`). -/
def viewFuel (v : Json) : Nat := 3 * jweight v + 6

/-- `buildViewModel`: the full view model of a parsed value — the composition
of the page-level render functions, run with sufficient fuel. -/
def buildViewModel (v : Json) : RenderNode :=
  (renderTop (viewFuel v) v).getD (.message "")

/-- A value with no displayable content: a scalar, `null`, the empty array or
the empty object. -/
def inertVal : Json → Bool
  | .null => true
  | .bool _ => true
  | .num _ => true
  | .str _ => true
  | .arr [] => true
  | .obj [] => true
  | _ => false

/-- An acceptable value for a `Packages`/`Vulnerabilities` field: a qualifying
array (which the renderers special-case) or an inert value (which carries
nothing to show). -/
def pvOK (v : Json) : Bool := isQualArray v || inertVal v

mutual

/-- No reachable object gives its `Packages` or `Vulnerabilities` field a
value that is neither a qualifying array nor inert.  Outside this condition
the source drops such fields from the display (see
`no_hide_counterexample`). -/
def goodPV : Json → Bool
  | .arr xs => goodPVList xs
  | .obj fs => goodPVFields fs
  | _ => true

def goodPVList : List Json → Bool
  | [] => true
  | x :: xs => goodPV x && goodPVList xs

def goodPVFields : List (String × Json) → Bool
  | [] => true
  | (k, v) :: fs =>
    (if k = "Packages" ∨ k = "Vulnerabilities" then pvOK v else true)
      && goodPV v && goodPVFields fs

end

mutual

/-- Every reachable object has pairwise-distinct keys, as `JSON.parse`
guarantees. -/
def wfKeys : Json → Bool
  | .arr xs => wfKeysList xs
  | .obj fs => decide ((fs.map Prod.fst).Nodup) && wfKeysFields fs
  | _ => true

def wfKeysList : List Json → Bool
  | [] => true
  | x :: xs => wfKeys x && wfKeysList xs

def wfKeysFields : List (String × Json) → Bool
  | [] => true
  | (_, v) :: fs => wfKeys v && wfKeysFields fs

end

/-- `w` is a subtree of `v` (through array elements and object field values). -/
inductive Occurs : Json → Json → Prop where
  | refl (v : Json) : Occurs v v
  | arrMem {w x : Json} {xs : List Json} :
      x ∈ xs → Occurs w x → Occurs w (.arr xs)
  | objMem {w x : Json} {k : String} {fs : List (String × Json)} :
      (k, x) ∈ fs → Occurs w x → Occurs w (.obj fs)

/-- A nested array-of-objects in the sense of the data model: non-empty, every
element a (non-array) object. -/
def TargetAOO (w : Json) : Prop :=
  ∃ xs, w = Json.arr xs ∧ xs ≠ [] ∧ xs.all isStrictObj = true

/-- A non-empty nested object. -/
def TargetObj (w : Json) : Prop := ∃ fs, w = Json.obj fs ∧ fs ≠ []

/-- The no-hide property of a view model `r` for an input `v`: every reachable
nested array-of-objects and non-empty object is shown, and every element of a
reachable non-empty array of primitives is shown. -/
def Covers (r : RenderNode) (v : Json) : Prop :=
  (∀ w, Occurs w v → TargetAOO w ∨ TargetObj w → Shows r w)
  ∧ (∀ xs x, Occurs (.arr xs) v → xs ≠ [] → xs.all isPrim = true → x ∈ xs →
      Shows r x)

/-- The nested object that the display loses in `no_hide_counterexample`:
the value of a `Packages` field of a `Results` row that is an object rather
than an array. -/
def hiddenObj : Json := .obj [("a", .num 1)]

/-- A parsed input whose `Results` row gives `Packages` an object value. -/
def badInput : Json :=
  .obj [("Results", .arr [.obj [("Packages", hiddenObj)]])]

/-- A typical well-formed report: `Packages` holds a qualifying array of
objects. -/
def okInput : Json :=
  .obj [("Results", .arr [.obj [("Name", .str "pkg"),
    ("Packages", .arr [.obj [("Id", .num 1)]])]])]

instance (r : RenderNode) (w : Json) : Decidable (Shows r w) :=
  show Decidable (∃ n ∈ r.nodes, n.srcOf = some w) from inferInstance

mutual

/-- `JSON.stringify(record, null, 2)` (the payload of `copyRecord`,
page.tsx lines 292-302), as a character list at nesting depth `d`: each
nesting level indents its entries by two further spaces, `[]` and `\x7b\x7d`
stay on one line, and a key is followed by a colon and one space. -/
def ppJson (d : Nat) : Json → List Char
  | .null => ("null" : String).data
  | .bool true => ("true" : String).data
  | .bool false => ("false" : String).data
  | .num n => (intRepr n).data
  | .str s => '"' :: escapeJsonString s.data ++ ['"']
  | .arr [] => ['[', ']']
  | .arr (x :: xs) =>
    '[' :: '\n' :: (List.replicate (2 * (d + 1)) ' ' ++ ppJson (d + 1) x
      ++ ppList (d + 1) xs ++ '\n' :: (List.replicate (2 * d) ' ' ++ [']']))
  | .obj [] => ['\x7b', '\x7d']
  | .obj (f :: fs) =>
    '\x7b' :: '\n' :: (List.replicate (2 * (d + 1)) ' ' ++ ppField (d + 1) f
      ++ ppFields (d + 1) fs ++ '\n' :: (List.replicate (2 * d) ' ' ++ ['\x7d']))

def ppList (d : Nat) : List Json → List Char
  | [] => []
  | x :: xs =>
    ',' :: '\n' :: (List.replicate (2 * d) ' ' ++ ppJson d x ++ ppList d xs)

def ppField (d : Nat) : String × Json → List Char
  | (k, v) => '"' :: escapeJsonString k.data ++ '"' :: ':' :: ' ' :: ppJson d v

def ppFields (d : Nat) : List (String × Json) → List Char
  | [] => []
  | f :: fs =>
    ',' :: '\n' :: (List.replicate (2 * d) ' ' ++ ppField d f ++ ppFields d fs)

end

/-- The 2-space-indented pretty-printed JSON of a value,
`JSON.stringify(v, null, 2)`. -/
def stringifyIndent (v : Json) : String := String.mk (ppJson 0 v)

/-- The string `copyRecord` writes to the clipboard (page.tsx line 294). -/
def copyPayload (r : Json) : String := stringifyIndent r

/-- JSON whitespace. -/
def isWs (c : Char) : Bool := c == ' ' || c == '\n' || c == '\t' || c == '\r'

/-- Drop leading JSON whitespace. -/
def skipWs : List Char → List Char
  | [] => []
  | c :: cs => if isWs c then skipWs cs else c :: cs

/-- Value of one hexadecimal digit character. -/
def hexVal (c : Char) : Option Nat :=
  if 48 ≤ c.toNat ∧ c.toNat ≤ 57 then some (c.toNat - 48)
  else if 97 ≤ c.toNat ∧ c.toNat ≤ 102 then some (c.toNat - 87)
  else if 65 ≤ c.toNat ∧ c.toNat ≤ 70 then some (c.toNat - 55)
  else none

/-- Decimal digit character test. -/
def isDigitChar (c : Char) : Bool := 48 ≤ c.toNat && c.toNat ≤ 57

/-- Longest digit prefix and the remainder. -/
def takeDigits : List Char → List Char × List Char
  | [] => ([], [])
  | c :: cs =>
    if isDigitChar c then (c :: (takeDigits cs).1, (takeDigits cs).2)
    else ([], c :: cs)

/-- Numeric value of a digit string. -/
def digitsVal (ds : List Char) : Nat :=
  ds.foldl (fun a c => a * 10 + (c.toNat - 48)) 0

/-- The remainder must not continue a number literal. -/
def numSafe : List Char → Bool
  | [] => true
  | c :: _ => !isDigitChar c

/-- Value of four hexadecimal digit characters. -/
def hexQuad (h1 h2 h3 h4 : Char) : Option Nat :=
  match hexVal h1, hexVal h2, hexVal h3, hexVal h4 with
  | some a1, some a2, some a3, some a4 =>
    some (((a1 * 16 + a2) * 16 + a3) * 16 + a4)
  | _, _, _, _ => none

mutual

/-- Modelled from the spec: the body of a JSON string literal as read by
`JSON.parse` — characters up to the closing quote, with the backslash escapes
that `JSON.stringify` emits (including `\u00XX`) decoded. Returns the decoded
characters and the input after the closing quote. -/
def parseStrBody : List Char → Option (List Char × List Char)
  | [] => none
  | c :: cs =>
    if c = '"' then some ([], cs)
    else if c = '\\' then parseEsc cs
    else (fun p => (c :: p.1, p.2)) <$> parseStrBody cs

/-- One escape sequence after the backslash. -/
def parseEsc : List Char → Option (List Char × List Char)
  | [] => none
  | e :: cs2 =>
    if e = '"' then (fun p => ('"' :: p.1, p.2)) <$> parseStrBody cs2
    else if e = '\\' then (fun p => ('\\' :: p.1, p.2)) <$> parseStrBody cs2
    else if e = 'n' then (fun p => ('\n' :: p.1, p.2)) <$> parseStrBody cs2
    else if e = 'r' then (fun p => ('\r' :: p.1, p.2)) <$> parseStrBody cs2
    else if e = 't' then (fun p => ('\t' :: p.1, p.2)) <$> parseStrBody cs2
    else if e = 'b' then (fun p => ('\x08' :: p.1, p.2)) <$> parseStrBody cs2
    else if e = 'f' then (fun p => ('\x0c' :: p.1, p.2)) <$> parseStrBody cs2
    else if e = 'u' then parseHex4 cs2
    else none

/-- Four hexadecimal digits of a `\u00XX` escape. -/
def parseHex4 : List Char → Option (List Char × List Char)
  | h1 :: h2 :: h3 :: h4 :: cs3 =>
    (hexQuad h1 h2 h3 h4).bind (fun m =>
      (fun p => (Char.ofNat m :: p.1, p.2)) <$> parseStrBody cs3)
  | _ => none

end

mutual

/-- Modelled from the spec: a recursive-descent `JSON.parse` for the grammar
`JSON.stringify` emits — whitespace-insensitive, with `null`, booleans,
integral numbers, escaped strings, arrays and objects.  The first argument is
fuel; `parseJson` below supplies more than the nesting ever needs. -/
def parseValue : Nat → List Char → Option (Json × List Char)
  | 0, _ => none
  | fuel + 1, s =>
    match skipWs s with
    | [] => none
    | c :: cs =>
      if c = 'n' then
        match cs with
        | 'u' :: 'l' :: 'l' :: rest => some (.null, rest)
        | _ => none
      else if c = 't' then
        match cs with
        | 'r' :: 'u' :: 'e' :: rest => some (.bool true, rest)
        | _ => none
      else if c = 'f' then
        match cs with
        | 'a' :: 'l' :: 's' :: 'e' :: rest => some (.bool false, rest)
        | _ => none
      else if c = '"' then
        (fun p => (Json.str (String.mk p.1), p.2)) <$> parseStrBody cs
      else if c = '[' then parseArr fuel cs
      else if c = '\x7b' then parseObj fuel cs
      else if c = '-' then
        if (takeDigits cs).1 = [] then none
        else some (.num (-(Int.ofNat (digitsVal (takeDigits cs).1))), (takeDigits cs).2)
      else if isDigitChar c then
        if (takeDigits (c :: cs)).1 = [] then none
        else some (.num (Int.ofNat (digitsVal (takeDigits (c :: cs)).1)),
          (takeDigits (c :: cs)).2)
      else none

/-- The contents of an array after the opening bracket. -/
def parseArr : Nat → List Char → Option (Json × List Char)
  | 0, _ => none
  | fuel + 1, s =>
    match skipWs s with
    | [] => none
    | c :: cs =>
      if c = ']' then some (.arr [], cs)
      else do
        let p1 ← parseValue fuel (c :: cs)
        let p2 ← parseItems fuel p1.2
        pure (.arr (p1.1 :: p2.1), p2.2)

/-- The contents of an object after the opening brace. -/
def parseObj : Nat → List Char → Option (Json × List Char)
  | 0, _ => none
  | fuel + 1, s =>
    match skipWs s with
    | [] => none
    | c :: cs =>
      if c = '\x7d' then some (.obj [], cs)
      else do
        let p1 ← parseField fuel (c :: cs)
        let p2 ← parseFields fuel p1.2
        pure (.obj (p1.1 :: p2.1), p2.2)

/-- The remaining array elements: a comma and a value, repeatedly, then the
closing bracket. -/
def parseItems : Nat → List Char → Option (List Json × List Char)
  | 0, _ => none
  | fuel + 1, s =>
    match skipWs s with
    | [] => none
    | c :: cs =>
      if c = ']' then some ([], cs)
      else if c = ',' then do
        let p1 ← parseValue fuel cs
        let p2 ← parseItems fuel p1.2
        pure (p1.1 :: p2.1, p2.2)
      else none

/-- One `"key": value` member. -/
def parseField : Nat → List Char → Option ((String × Json) × List Char)
  | 0, _ => none
  | fuel + 1, s =>
    match skipWs s with
    | [] => none
    | c :: cs =>
      if c = '"' then do
        let pk ← parseStrBody cs
        match skipWs pk.2 with
        | [] => none
        | c2 :: cs2 =>
          if c2 = ':' then do
            let pv ← parseValue fuel cs2
            pure ((String.mk pk.1, pv.1), pv.2)
          else none
      else none

/-- The remaining object members, then the closing brace. -/
def parseFields : Nat → List Char → Option (List (String × Json) × List Char)
  | 0, _ => none
  | fuel + 1, s =>
    match skipWs s with
    | [] => none
    | c :: cs =>
      if c = '\x7d' then some ([], cs)
      else if c = ',' then do
        let p1 ← parseField fuel cs
        let p2 ← parseFields fuel p1.2
        pure (p1.1 :: p2.1, p2.2)
      else none

end

/-- Modelled from the spec: `JSON.parse` on a whole string — one value with
nothing but whitespace after it.  The fuel `length + 1` is more than one unit
per character, which the nesting can never exhaust. -/
def parseJson (s : String) : Option Json :=
  match parseValue (s.data.length + 1) s.data with
  | some (v, rest) => if skipWs rest = [] then some v else none
  | none => none

/-- A sample record with spaces, escapes, a negative number, a nested array
and an empty object, exercising the copy round trip. -/
def sampleRec : Json :=
  .obj [("Name", .str "pkg one"), ("Ver", .num 3),
    ("Deps", .arr [.str "a\nb", .num (-2)]), ("Meta", .obj [])]

-- ===== Theorems =====

theorem char_eq_of_toNat_eq {a b : Char} (h : a.toNat = b.toNat) : a = b :=
  Char.ext (UInt32.toNat.inj h)

theorem lexLe_cons_iff {c d : Char} {cs ds : List Char} :
    lexLe (c :: cs) (d :: ds) = true ↔
      c.toNat < d.toNat ∨ (c.toNat = d.toNat ∧ lexLe cs ds = true) := by
  simp only [lexLe]
  rcases Nat.lt_trichotomy c.toNat d.toNat with h | h | h
  · simp [h]
  · simp [h, Nat.lt_irrefl]
  · have h1 : ¬ c.toNat < d.toNat := by omega
    have h2 : c.toNat ≠ d.toNat := by omega
    simp [h, h1, h2]

theorem lexLe_total : ∀ xs ys : List Char, lexLe xs ys = true ∨ lexLe ys xs = true := by
  intro xs
  induction xs with
  | nil => intro ys; left; rfl
  | cons c cs ih =>
    intro ys
    cases ys with
    | nil => right; rfl
    | cons d ds =>
      rw [lexLe_cons_iff, lexLe_cons_iff]
      rcases Nat.lt_trichotomy c.toNat d.toNat with h | h | h
      · exact Or.inl (Or.inl h)
      · rcases ih ds with h' | h'
        · exact Or.inl (Or.inr ⟨h, h'⟩)
        · exact Or.inr (Or.inr ⟨h.symm, h'⟩)
      · exact Or.inr (Or.inl h)

theorem lexLe_trans : ∀ xs ys zs : List Char, lexLe xs ys = true →
    lexLe ys zs = true → lexLe xs zs = true := by
  intro xs
  induction xs with
  | nil => intro ys zs _ _; rfl
  | cons c cs ih =>
    intro ys zs h1 h2
    cases ys with
    | nil => simp [lexLe] at h1
    | cons d ds =>
      cases zs with
      | nil => simp [lexLe] at h2
      | cons e es =>
        rw [lexLe_cons_iff] at h1 h2 ⊢
        rcases h1 with h1 | ⟨h1, h1'⟩ <;> rcases h2 with h2 | ⟨h2, h2'⟩
        · exact Or.inl (by omega)
        · exact Or.inl (by omega)
        · exact Or.inl (by omega)
        · exact Or.inr ⟨by omega, ih ds es h1' h2'⟩

theorem lexLe_antisymm : ∀ xs ys : List Char, lexLe xs ys = true →
    lexLe ys xs = true → xs = ys := by
  intro xs
  induction xs with
  | nil =>
    intro ys h1 h2
    cases ys with
    | nil => rfl
    | cons d ds => simp [lexLe] at h2
  | cons c cs ih =>
    intro ys h1 h2
    cases ys with
    | nil => simp [lexLe] at h1
    | cons d ds =>
      rw [lexLe_cons_iff] at h1 h2
      rcases h1 with h1 | ⟨h1, h1'⟩ <;> rcases h2 with h2 | ⟨h2, h2'⟩
      · omega
      · omega
      · omega
      · rw [char_eq_of_toNat_eq h1, ih ds h1' h2']

instance : IsTotal String StrLe := ⟨fun a b => lexLe_total a.data b.data⟩

instance : IsTrans String StrLe :=
  ⟨fun a b c h1 h2 => lexLe_trans a.data b.data c.data h1 h2⟩

instance : IsAntisymm String StrLe :=
  ⟨fun a b h1 h2 => String.ext (lexLe_antisymm a.data b.data h1 h2)⟩

theorem sortKeys_sorted (ks : List String) : (sortKeys ks).Sorted StrLe :=
  List.sorted_insertionSort StrLe ks

theorem sortKeys_perm (ks : List String) : (sortKeys ks).Perm ks :=
  List.perm_insertionSort StrLe ks

theorem mem_sortKeys {a : String} {ks : List String} : a ∈ sortKeys ks ↔ a ∈ ks :=
  (sortKeys_perm ks).mem_iff

theorem sortKeys_nodup {ks : List String} (h : ks.Nodup) : (sortKeys ks).Nodup :=
  (sortKeys_perm ks).nodup_iff.mpr h

theorem sortKeys_eq_of_mem_iff {ks ks' : List String} (h1 : ks.Nodup)
    (h2 : ks'.Nodup) (h : ∀ a, a ∈ ks ↔ a ∈ ks') : sortKeys ks = sortKeys ks' := by
  have p1 := sortKeys_perm ks
  have p2 := (List.perm_ext_iff_of_nodup h1 h2).mpr h
  have p3 := (sortKeys_perm ks').symm
  exact List.eq_of_perm_of_sorted ((p1.trans p2).trans p3)
    (sortKeys_sorted ks) (sortKeys_sorted ks')

theorem mem_insertKey {a k : String} {acc : List String} :
    a ∈ insertKey acc k ↔ a ∈ acc ∨ a = k := by
  unfold insertKey
  by_cases h : k ∈ acc
  · rw [if_pos (by simpa using h)]
    constructor
    · exact Or.inl
    · rintro (ha | rfl)
      · exact ha
      · exact h
  · rw [if_neg (by simpa using h)]
    simp

theorem nodup_insertKey {k : String} {acc : List String} (h : acc.Nodup) :
    (insertKey acc k).Nodup := by
  unfold insertKey
  by_cases hc : k ∈ acc
  · rw [if_pos (by simpa using hc)]
    exact h
  · rw [if_neg (by simpa using hc)]
    simp [List.nodup_append, h, hc]

theorem mem_addKeys {E : List String} : ∀ (fs : List (String × Json))
    (acc : List String) (a : String),
    a ∈ addKeys E acc fs ↔ a ∈ acc ∨ (a ∈ fs.map Prod.fst ∧ a ∉ E)
  | [], acc, a => by simp [addKeys]
  | (k, v) :: fs, acc, a => by
    rw [addKeys, mem_addKeys fs _ a]
    by_cases hk : k ∈ E
    · rw [if_pos (by simpa using hk)]
      simp only [List.map_cons, List.mem_cons]
      constructor
      · rintro (h | ⟨h, hE⟩)
        · exact Or.inl h
        · exact Or.inr ⟨Or.inr h, hE⟩
      · rintro (h | ⟨h | h, hE⟩)
        · exact Or.inl h
        · subst h; exact absurd hk hE
        · exact Or.inr ⟨h, hE⟩
    · rw [if_neg (by simpa using hk)]
      simp only [mem_insertKey, List.map_cons, List.mem_cons]
      constructor
      · rintro ((h | h) | ⟨h, hE⟩)
        · exact Or.inl h
        · subst h; exact Or.inr ⟨Or.inl rfl, hk⟩
        · exact Or.inr ⟨Or.inr h, hE⟩
      · rintro (h | ⟨h | h, hE⟩)
        · exact Or.inl (Or.inl h)
        · subst h; exact Or.inl (Or.inr rfl)
        · exact Or.inr ⟨h, hE⟩

theorem nodup_addKeys {E : List String} : ∀ (fs : List (String × Json))
    (acc : List String), acc.Nodup → (addKeys E acc fs).Nodup
  | [], acc, h => h
  | (k, v) :: fs, acc, h => by
    rw [addKeys]
    apply nodup_addKeys fs
    by_cases hk : E.contains k = true
    · rw [if_pos hk]; exact h
    · rw [if_neg hk]; exact nodup_insertKey h

theorem mem_collectKeys {E : List String} : ∀ (items : List Json)
    (acc : List String) (a : String),
    a ∈ collectKeys E acc items ↔
      a ∈ acc ∨ ∃ fs, Json.obj fs ∈ items ∧ a ∈ fs.map Prod.fst ∧ a ∉ E
  | [], acc, a => by simp [collectKeys]
  | item :: items, acc, a => by
    cases item with
    | obj fs =>
      rw [show collectKeys E acc (Json.obj fs :: items)
            = collectKeys E (addKeys E acc fs) items from rfl,
        mem_collectKeys items _ a, mem_addKeys]
      constructor
      · rintro ((h | ⟨h, hE⟩) | ⟨gs, hg, ha, hE⟩)
        · exact Or.inl h
        · exact Or.inr ⟨fs, List.mem_cons_self _ _, h, hE⟩
        · exact Or.inr ⟨gs, List.mem_cons_of_mem _ hg, ha, hE⟩
      · rintro (h | ⟨gs, hg, ha, hE⟩)
        · exact Or.inl (Or.inl h)
        · rcases List.mem_cons.mp hg with h' | h'
          · injection h' with h''
            subst h''
            exact Or.inl (Or.inr ⟨ha, hE⟩)
          · exact Or.inr ⟨gs, h', ha, hE⟩
    | null =>
      rw [show collectKeys E acc (Json.null :: items) = collectKeys E acc items from rfl,
        mem_collectKeys items _ a]
      simp [List.mem_cons]
    | bool b =>
      rw [show collectKeys E acc (Json.bool b :: items) = collectKeys E acc items from rfl,
        mem_collectKeys items _ a]
      simp [List.mem_cons]
    | num n =>
      rw [show collectKeys E acc (Json.num n :: items) = collectKeys E acc items from rfl,
        mem_collectKeys items _ a]
      simp [List.mem_cons]
    | str s =>
      rw [show collectKeys E acc (Json.str s :: items) = collectKeys E acc items from rfl,
        mem_collectKeys items _ a]
      simp [List.mem_cons]
    | arr xs =>
      rw [show collectKeys E acc (Json.arr xs :: items) = collectKeys E acc items from rfl,
        mem_collectKeys items _ a]
      simp [List.mem_cons]

theorem nodup_collectKeys {E : List String} : ∀ (items : List Json)
    (acc : List String), acc.Nodup → (collectKeys E acc items).Nodup
  | [], _, h => h
  | item :: items, acc, h => by
    cases item <;>
      exact nodup_collectKeys items _ (by first
        | exact h
        | exact nodup_addKeys _ _ h)

theorem getTableStructure_objArray {items : List Json} {E : List String}
    (hne : items ≠ []) (hobj : items.all isStrictObj = true) :
    getTableStructure (.arr items) E =
      { headers := sortKeys (collectKeys E [] items)
        rows := items.map fun item =>
          (sortKeys (collectKeys E [] items)).map fun header =>
            match item with
            | .obj fs => fs.lookup header
            | _ => none } := by
  rw [getTableStructure]
  rw [if_neg (by simpa using hne), if_pos hobj]

/-- C1 (amended: the array must be non-empty; the source returns the
`Index`/`Value` headers for `[]`).  For a non-empty array whose elements are all
non-array objects, `getTableStructure` returns headers equal to the
lexicographically sorted, duplicate-free union of the element keys minus the
excluded keys — determined by that key-set union alone, hence identical however
the keys are ordered inside elements and whichever sparse record carries which
key — and one row per element in input order, each row listing for every header
the element's value at that key, with `none` (undefined) when absent; no record
is dropped and no error is raised. -/
theorem buildTable_arrayOfObjects (items : List Json) (E : List String)
    (hne : items ≠ []) (hobj : items.all isStrictObj = true) :
    (getTableStructure (.arr items) E).rows
        = items.map (fun item => (getTableStructure (.arr items) E).headers.map
            (fun h => match item with | .obj fs => fs.lookup h | _ => none))
    ∧ (getTableStructure (.arr items) E).headers.Sorted StrLe
    ∧ (getTableStructure (.arr items) E).headers.Nodup
    ∧ (∀ k, k ∈ (getTableStructure (.arr items) E).headers ↔
        ((∃ fs, Json.obj fs ∈ items ∧ k ∈ fs.map Prod.fst) ∧ k ∉ E))
    ∧ (∀ items', items' ≠ [] → items'.all isStrictObj = true →
        (∀ k, (∃ fs, Json.obj fs ∈ items ∧ k ∈ fs.map Prod.fst) ↔
              (∃ fs, Json.obj fs ∈ items' ∧ k ∈ fs.map Prod.fst)) →
        (getTableStructure (.arr items') E).headers
          = (getTableStructure (.arr items) E).headers) := by
  rw [getTableStructure_objArray hne hobj]
  refine ⟨rfl, sortKeys_sorted _,
    sortKeys_nodup (nodup_collectKeys _ _ List.nodup_nil), ?_, ?_⟩
  · intro k
    rw [mem_sortKeys, mem_collectKeys]
    simp only [List.not_mem_nil, false_or]
    constructor
    · rintro ⟨fs, hf, hk, hE⟩
      exact ⟨⟨fs, hf, hk⟩, hE⟩
    · rintro ⟨⟨fs, hf, hk⟩, hE⟩
      exact ⟨fs, hf, hk, hE⟩
  · intro items' hne' hobj' hsame
    rw [getTableStructure_objArray hne' hobj']
    apply sortKeys_eq_of_mem_iff (nodup_collectKeys _ _ List.nodup_nil)
      (nodup_collectKeys _ _ List.nodup_nil)
    intro a
    rw [mem_collectKeys, mem_collectKeys]
    simp only [List.not_mem_nil, false_or]
    constructor
    · rintro ⟨fs, hf, ha, hE⟩
      obtain ⟨gs, hg, ha'⟩ := (hsame a).mpr ⟨fs, hf, ha⟩
      exact ⟨gs, hg, ha', hE⟩
    · rintro ⟨fs, hf, ha, hE⟩
      obtain ⟨gs, hg, ha'⟩ := (hsame a).mp ⟨fs, hf, ha⟩
      exact ⟨gs, hg, ha', hE⟩

/-- C1, counterexample to the claim as stated: the empty array — all of whose
elements are vacuously objects — yields headers `["Index", "Value"]`, not the
empty sorted key union. -/
theorem buildTable_empty_array_counterexample :
    (getTableStructure (.arr []) []).headers = ["Index", "Value"]
    ∧ sortKeys (collectKeys [] [] []) = [] := ⟨rfl, rfl⟩

/-- C1 witness: `[{a:1},{b:2}]` yields headers `["a","b"]` and rows
`[1, undefined]`, `[undefined, 2]`. -/
theorem buildTable_arrayOfObjects_witness :
    (getTableStructure
        (.arr [.obj [("a", .num 1)], .obj [("b", .num 2)]]) []).headers = ["a", "b"]
    ∧ (getTableStructure
        (.arr [.obj [("a", .num 1)], .obj [("b", .num 2)]]) []).rows
        = [[some (.num 1), none], [none, some (.num 2)]]
    ∧ (getTableStructure
        (.arr [.obj [("a", .num 1)], .obj [("b", .num 2)]]) []).headers.Nodup :=
  ⟨rfl, rfl,
    (buildTable_arrayOfObjects [.obj [("a", .num 1)], .obj [("b", .num 2)]] []
      (by decide) (by decide)).2.2.1⟩

/-- C3, counterexample to the claim as stated: `[[1]]` is a non-empty array
whose single element is an array, not an object — the claim says the predicate
must be false — yet `isNestedStructure` returns true, because the source tests
`typeof item === 'object'`, which is true for arrays. -/
theorem isNestedStructure_counterexample :
    isNestedStructure (.arr [.arr [.num 1]]) = true
    ∧ isStrictObj (.arr [.num 1]) = false
    ∧ isStrictObj (.arr [.arr [.num 1]]) = false := ⟨rfl, rfl, rfl⟩

/-- C3 (amended: the array elements may be objects **or arrays**, since the
source tests `typeof item === 'object' && item !== null`): `isNestedStructure v`
is true iff `v` is a non-empty array all of whose elements are objects or
arrays, or `v` is an object with at least one key; for every scalar, for null,
and for the empty array it returns false. -/
theorem isNestedStructure_iff (v : Json) :
    isNestedStructure v = true ↔
      (∃ xs, v = .arr xs ∧ xs ≠ [] ∧ ∀ x ∈ xs, isObjLike x = true)
      ∨ (∃ fs, v = .obj fs ∧ fs ≠ []) := by
  cases v <;>
    simp [isNestedStructure, List.all_eq_true, List.length_pos, List.isEmpty_iff]

/-- C7: when a nested table is rendered under the parent key `Results`, the
keys `Packages` and `Vulnerabilities` are excluded from that grid's headers;
under every other parent key no key is excluded (the headers coincide with the
unexcluded ones). -/
theorem results_excludes_packages_vulnerabilities (key : String)
    (items : List Json) (hne : items ≠ []) (hobj : items.all isStrictObj = true) :
    (key = "Results" →
      "Packages" ∉ (getTableStructure (.arr items) (renderNestedExcludeKeys key)).headers
      ∧ "Vulnerabilities" ∉
          (getTableStructure (.arr items) (renderNestedExcludeKeys key)).headers)
    ∧ (key ≠ "Results" →
      (getTableStructure (.arr items) (renderNestedExcludeKeys key)).headers
        = (getTableStructure (.arr items) []).headers) := by
  constructor
  · intro hk
    subst hk
    have hc := (buildTable_arrayOfObjects items (renderNestedExcludeKeys "Results")
      hne hobj).2.2.2.1
    constructor <;> intro hmem
    · have := ((hc _).mp hmem).2
      simp [renderNestedExcludeKeys] at this
    · have := ((hc _).mp hmem).2
      simp [renderNestedExcludeKeys] at this
  · intro hk
    simp [renderNestedExcludeKeys, hk]

/-- C7 witness: the spec's example — a `Results` array whose record carries
`Name`, `Packages` and `Vulnerabilities` — keeps only `Name` in the headers,
while a table for another key excludes nothing. -/
theorem results_excludes_packages_vulnerabilities_witness :
    "Packages" ∉ (getTableStructure
        (.arr [.obj [("Name", .str "x"), ("Packages", .arr [.obj [("n", .num 1)]]),
          ("Vulnerabilities", .arr [.obj [("id", .num 1)]])]])
        (renderNestedExcludeKeys "Results")).headers
    ∧ "Vulnerabilities" ∉ (getTableStructure
        (.arr [.obj [("Name", .str "x"), ("Packages", .arr [.obj [("n", .num 1)]]),
          ("Vulnerabilities", .arr [.obj [("id", .num 1)]])]])
        (renderNestedExcludeKeys "Results")).headers
    ∧ (getTableStructure
        (.arr [.obj [("Name", .str "x"), ("Packages", .arr [.obj [("n", .num 1)]]),
          ("Vulnerabilities", .arr [.obj [("id", .num 1)]])]])
        (renderNestedExcludeKeys "Results")).headers = ["Name"]
    ∧ (getTableStructure
        (.arr [.obj [("Name", .str "x")]])
        (renderNestedExcludeKeys "Other")).headers
      = (getTableStructure (.arr [.obj [("Name", .str "x")]]) []).headers :=
  ⟨((results_excludes_packages_vulnerabilities "Results" _ (by decide) (by decide)).1
      rfl).1,
   ((results_excludes_packages_vulnerabilities "Results"
      [.obj [("Name", .str "x"), ("Packages", .arr [.obj [("n", .num 1)]]),
        ("Vulnerabilities", .arr [.obj [("id", .num 1)]])]]
      (by decide) (by decide)).1 rfl).2,
   rfl,
   (results_excludes_packages_vulnerabilities "Other" [.obj [("Name", .str "x")]]
      (by decide) (by decide)).2 (by decide)⟩

/-- C4 (amended): the CSV export is a silent no-op — no document, no error —
exactly for empty input; a non-empty value that is not an array of objects
still produces a (degenerate) CSV document. -/
theorem exportToCSV_none_iff (data : List Json) :
    exportToCSV data = none ↔ data = [] := by
  unfold exportToCSV
  cases data <;> simp

/-- C4, counterexample to the claim as stated: the non-empty array `[1]` is not
an array of objects, yet exporting it is not a no-op — it produces a CSV
document consisting of an empty header row and one empty data row. -/
theorem exportToCSV_nonempty_scalar_counterexample :
    exportToCSV [Json.num 1] = some "\n" ∧ ([Json.num 1] : List Json) ≠ [] :=
  ⟨rfl, by decide⟩

theorem mem_escapeCSVQuotes {a : Char} : ∀ {cs : List Char},
    a ∈ escapeCSVQuotes cs ↔ a ∈ cs
  | [] => Iff.rfl
  | c :: cs => by
    rw [escapeCSVQuotes]
    have ih : a ∈ escapeCSVQuotes cs ↔ a ∈ cs := mem_escapeCSVQuotes
    by_cases h : c = '"'
    · subst h
      simp [ih]
    · simp [h, ih]

theorem escapeCSVQuotes_eq_self : ∀ {cs : List Char}, '"' ∉ cs →
    escapeCSVQuotes cs = cs
  | [], _ => rfl
  | c :: cs, h => by
    rw [escapeCSVQuotes]
    rw [if_neg (by rintro rfl; exact h (List.mem_cons_self _ _))]
    rw [escapeCSVQuotes_eq_self (fun hc => h (List.mem_cons_of_mem _ hc))]
    rfl

/-- C5: in the produced CSV a cell is wrapped in double quotes, with each
internal double quote doubled, if and only if the cell's flattened string
contains a comma, a double quote, or a newline; otherwise the cell is emitted
bare.  Rows are comma-separated and LF-joined with the header row first: in
particular exporting `[{a:"x,y",b:2}]` produces the document `a,b` / `"x,y",2`. -/
theorem csv_quoting (s : String) :
    csvCell s = (if ',' ∈ s.data ∨ '"' ∈ s.data ∨ '\n' ∈ s.data
        then String.mk ('"' :: escapeCSVQuotes s.data ++ ['"'])
        else s)
    ∧ exportToCSV [.obj [("a", .str "x,y"), ("b", .num 2)]]
        = some "a,b\n\"x,y\",2" := by
  refine ⟨?_, rfl⟩
  unfold csvCell
  have hcond : ((escapeCSVQuotes s.data).contains ','
        || (escapeCSVQuotes s.data).contains '"'
        || (escapeCSVQuotes s.data).contains '\n') = true
      ↔ (',' ∈ s.data ∨ '"' ∈ s.data ∨ '\n' ∈ s.data) := by
    simp [mem_escapeCSVQuotes, or_assoc]
  by_cases h : ',' ∈ s.data ∨ '"' ∈ s.data ∨ '\n' ∈ s.data
  · rw [if_pos h, if_pos (hcond.mpr h)]
  · rw [if_neg h, if_neg (fun hh => h (hcond.mp hh))]
    rw [escapeCSVQuotes_eq_self (fun hq => h (Or.inr (Or.inl hq)))]

/-- C6: each entry of a record is flattened at the dot-extended path as the
claim describes — null becomes the empty string, the empty array the literal
`[]`, an array of objects its single compact JSON serialization, any other
non-empty array its stringified elements joined with `"; "`, a nested object
recurses under the extended path, and any other scalar its string form — and
the spec's two examples hold: `[{a:{b:1,c:2}}]` exports as `a.b,a.c` / `1,2`,
and `[{a:[{x:1}]}]` flattens its `a` column to the compact JSON text. -/
theorem flatten_entry_cases :
    (∀ (fs : List (String × Json)) (pre : String),
      flattenFields fs pre = fs.flatMap fun p =>
        flattenEntry (if pre = "" then p.1 else pre ++ "." ++ p.1) p.2)
    ∧ (∀ path,
        flattenEntry path .null = [(path, "")]
        ∧ flattenEntry path (.arr []) = [(path, "[]")]
        ∧ (∀ xs, xs ≠ [] → xs.all isObjLike = true →
            flattenEntry path (.arr xs) = [(path, stringifyCompact (.arr xs))])
        ∧ (∀ xs, xs ≠ [] → xs.all isObjLike = false →
            flattenEntry path (.arr xs)
              = [(path, String.intercalate "; " (xs.map jsToString))])
        ∧ (∀ fs, flattenEntry path (.obj fs) = flattenFields fs path)
        ∧ (∀ b, flattenEntry path (.bool b) = [(path, jsToString (.bool b))])
        ∧ (∀ n, flattenEntry path (.num n) = [(path, jsToString (.num n))])
        ∧ (∀ s, flattenEntry path (.str s) = [(path, jsToString (.str s))]))
    ∧ exportToCSV [.obj [("a", .obj [("b", .num 1), ("c", .num 2)])]]
        = some "a.b,a.c\n1,2"
    ∧ flattenLookup (flattenObject (.obj [("a", .arr [.obj [("x", .num 1)]])]) "") "a"
        = some "[\x7b\"x\":1\x7d]" := by
  refine ⟨?_, ?_, rfl, rfl⟩
  · intro fs pre
    induction fs with
    | nil => rfl
    | cons p rest ih =>
      rw [List.flatMap_cons, ← ih]
      rfl
  · intro path
    refine ⟨rfl, rfl, ?_, ?_, fun _ => rfl, fun _ => rfl, fun _ => rfl, fun _ => rfl⟩
    · intro xs hne hall
      rw [flattenEntry, if_neg (by simpa using hne), if_pos hall]
    · intro xs hne hall
      rw [flattenEntry, if_neg (by simpa using hne), if_neg (by simp [hall])]

/-- C6 witness: the array-of-objects branch at a concrete input, discharging
its hypotheses. -/
theorem flatten_entry_cases_witness :
    flattenEntry "a" (.arr [.obj [("x", .num 1)]])
      = [("a", "[\x7b\"x\":1\x7d]")] :=
  (flatten_entry_cases.2.1 "a").2.2.1 [.obj [("x", .num 1)]] (by decide) rfl

mutual

theorem flattenFields_paths : ∀ (fs : List (String × Json)) (pre : String),
    (flattenFields fs pre).map Prod.fst = (chains fs).map (joinChain pre)
  | [], _ => rfl
  | (k, v) :: rest, pre => by
    rw [flattenFields, List.map_append, flattenEntry_paths _ v,
      flattenFields_paths rest pre, chains, List.map_append, List.map_map]
    congr 1

theorem flattenEntry_paths : ∀ (path : String) (v : Json),
    (flattenEntry path v).map Prod.fst = (chainsEntry v).map (joinChain path)
  | _, .null => rfl
  | path, .arr xs => by
    rw [show chainsEntry (Json.arr xs) = [[]] from rfl, flattenEntry]
    by_cases h : xs.isEmpty
    · rw [if_pos h]; rfl
    · rw [if_neg h]
      by_cases h2 : xs.all isObjLike = true
      · rw [if_pos h2]; rfl
      · rw [if_neg h2]; rfl
  | path, .obj fs => flattenFields_paths fs path
  | _, .bool _ => rfl
  | _, .num _ => rfl
  | _, .str _ => rfl

end

theorem str_ne_empty_of_data {s : String} (h : s.data ≠ []) : s ≠ "" :=
  fun hh => h (by rw [hh])

theorem dot_append_ne_empty (p k : String) : p ++ "." ++ k ≠ "" :=
  str_ne_empty_of_data (by simp [String.data_append])

theorem joinChain_eq_append : ∀ (c : List String) (p : String), p ≠ "" →
    joinChain p c = p ++ dotConcat c
  | [], p, _ => by
    show p = p ++ ""
    rw [String.append_empty]
  | k :: c, p, hp => by
    rw [show joinChain p (k :: c)
        = joinChain (if p = "" then k else p ++ "." ++ k) c from rfl]
    rw [if_neg hp, joinChain_eq_append c _ (dot_append_ne_empty p k), dotConcat]
    simp [String.append_assoc]

theorem chains_head : ∀ (fs : List (String × Json)), ∀ c ∈ chains fs,
    ∃ k c', c = k :: c' ∧ k ∈ fs.map Prod.fst
  | [], c, hc => by simp [chains] at hc
  | (k, v) :: rest, c, hc => by
    rw [chains] at hc
    rcases List.mem_append.mp hc with h | h
    · obtain ⟨c', _, rfl⟩ := List.mem_map.mp h
      exact ⟨k, c', rfl, by simp⟩
    · obtain ⟨k', c', rfl, hk⟩ := chains_head rest c h
      exact ⟨k', c', rfl, by simp [hk]⟩

mutual

theorem chains_shape : ∀ (fs : List (String × Json)),
    keysOKFields fs = true → ∀ c ∈ chains fs, ∀ k ∈ c, k ≠ "" ∧ '.' ∉ k.data
  | [], _, c, hc => by simp [chains] at hc
  | (k, v) :: rest, h, c, hc => by
    rw [keysOKFields] at h
    simp only [Bool.and_eq_true, decide_eq_true_eq, Bool.not_eq_true'] at h
    obtain ⟨⟨⟨hk1, hk2⟩, hv⟩, hrest⟩ := h
    rw [chains] at hc
    rcases List.mem_append.mp hc with hm | hm
    · obtain ⟨c', hc', rfl⟩ := List.mem_map.mp hm
      intro k' hk'
      rcases List.mem_cons.mp hk' with rfl | hk'
      · exact ⟨hk1, by simpa using hk2⟩
      · exact chainsEntry_shape v hv c' hc' k' hk'
    · exact chains_shape rest hrest c hm

theorem chainsEntry_shape : ∀ (v : Json), keysOK v = true →
    ∀ c ∈ chainsEntry v, ∀ k ∈ c, k ≠ "" ∧ '.' ∉ k.data
  | .obj fs, h, c, hc => by
    rw [keysOK] at h
    simp only [Bool.and_eq_true] at h
    exact chains_shape fs h.2 c hc
  | .null, _, c, hc => by
    simp only [chainsEntry, List.mem_singleton] at hc
    subst hc; intro k hk; simp at hk
  | .bool _, _, c, hc => by
    simp only [chainsEntry, List.mem_singleton] at hc
    subst hc; intro k hk; simp at hk
  | .num _, _, c, hc => by
    simp only [chainsEntry, List.mem_singleton] at hc
    subst hc; intro k hk; simp at hk
  | .str _, _, c, hc => by
    simp only [chainsEntry, List.mem_singleton] at hc
    subst hc; intro k hk; simp at hk
  | .arr _, _, c, hc => by
    simp only [chainsEntry, List.mem_singleton] at hc
    subst hc; intro k hk; simp at hk

end

mutual

theorem chains_nodup : ∀ (fs : List (String × Json)),
    (fs.map Prod.fst).Nodup → keysOKFields fs = true → (chains fs).Nodup
  | [], _, _ => List.nodup_nil
  | (k, v) :: rest, hn, h => by
    rw [keysOKFields] at h
    simp only [Bool.and_eq_true, decide_eq_true_eq, Bool.not_eq_true'] at h
    obtain ⟨⟨⟨hk1, hk2⟩, hv⟩, hrest⟩ := h
    rw [List.map_cons, List.nodup_cons] at hn
    rw [chains]
    rw [List.nodup_append]
    refine ⟨(chainsEntry_nodup v hv).map (fun a b hab => by simpa using hab), 
      chains_nodup rest hn.2 hrest, ?_⟩
    intro c hc1 hc2
    obtain ⟨c', _, rfl⟩ := List.mem_map.mp hc1
    obtain ⟨k', c'', heq, hk'⟩ := chains_head rest _ hc2
    rw [List.cons.injEq] at heq
    exact hn.1 (heq.1 ▸ hk')

theorem chainsEntry_nodup : ∀ (v : Json), keysOK v = true → (chainsEntry v).Nodup
  | .obj fs, h => by
    rw [keysOK] at h
    simp only [Bool.and_eq_true, decide_eq_true_eq] at h
    exact chains_nodup fs h.1 h.2
  | .null, _ => List.nodup_singleton _
  | .bool _, _ => List.nodup_singleton _
  | .num _, _ => List.nodup_singleton _
  | .str _, _ => List.nodup_singleton _
  | .arr _, _ => List.nodup_singleton _

end

theorem append_inj_dotfree : ∀ (a1 a2 b1 b2 : List Char),
    '.' ∉ a1 → '.' ∉ a2 →
    (b1 = [] ∨ ∃ t, b1 = '.' :: t) → (b2 = [] ∨ ∃ t, b2 = '.' :: t) →
    a1 ++ b1 = a2 ++ b2 → a1 = a2 ∧ b1 = b2
  | [], [], b1, b2, _, _, _, _, h => ⟨rfl, h⟩
  | [], d :: a2, b1, b2, _, ha2, hb1, _, h => by
    simp only [List.nil_append, List.cons_append] at h
    rcases hb1 with rfl | ⟨t, rfl⟩
    · exact absurd h (by simp)
    · injection h with h1 _
      exact absurd (by rw [h1]; exact List.mem_cons_self d a2 : '.' ∈ d :: a2) ha2
  | c :: a1, [], b1, b2, ha1, _, _, hb2, h => by
    simp only [List.nil_append, List.cons_append] at h
    rcases hb2 with rfl | ⟨t, rfl⟩
    · exact absurd h.symm (by simp)
    · injection h with h1 _
      exact absurd (by rw [← h1]; exact List.mem_cons_self c a1 : '.' ∈ c :: a1) ha1
  | c :: a1, d :: a2, b1, b2, ha1, ha2, hb1, hb2, h => by
    simp only [List.cons_append] at h
    injection h with h1 h2
    obtain ⟨hA, hB⟩ := append_inj_dotfree a1 a2 b1 b2
      (fun hm => ha1 (List.mem_cons_of_mem _ hm))
      (fun hm => ha2 (List.mem_cons_of_mem _ hm)) hb1 hb2 h2
    exact ⟨by rw [h1, hA], hB⟩

theorem dotConcat_shape : ∀ (c : List String),
    (dotConcat c).data = [] ∨ ∃ t, (dotConcat c).data = '.' :: t
  | [] => Or.inl rfl
  | k :: c => Or.inr ⟨k.data ++ (dotConcat c).data, by
      simp [dotConcat, String.data_append, show ("." : String).data = ['.'] from rfl]⟩

theorem dotConcat_inj : ∀ (c1 c2 : List String),
    (∀ k ∈ c1, k ≠ "" ∧ '.' ∉ k.data) → (∀ k ∈ c2, k ≠ "" ∧ '.' ∉ k.data) →
    dotConcat c1 = dotConcat c2 → c1 = c2
  | [], [], _, _, _ => rfl
  | [], k :: c2, _, _, h => by
    have hd := congrArg String.data h
    simp [dotConcat, String.data_append,
      show ("." : String).data = ['.'] from rfl] at hd
  | k :: c1, [], _, _, h => by
    have hd := congrArg String.data h
    simp [dotConcat, String.data_append,
      show ("." : String).data = ['.'] from rfl] at hd
  | k1 :: c1, k2 :: c2, h1, h2, h => by
    have hd := congrArg String.data h
    simp only [dotConcat, String.data_append,
      show ("." : String).data = ['.'] from rfl, List.cons_append, List.nil_append,
      List.cons.injEq, true_and] at hd
    obtain ⟨hk, hrest⟩ := append_inj_dotfree _ _ _ _
      (h1 k1 (List.mem_cons_self _ _)).2 (h2 k2 (List.mem_cons_self _ _)).2
      (dotConcat_shape c1) (dotConcat_shape c2) hd
    rw [String.ext hk,
      dotConcat_inj c1 c2 (fun k hk => h1 k (List.mem_cons_of_mem _ hk))
        (fun k hk => h2 k (List.mem_cons_of_mem _ hk)) (String.ext hrest)]

/-- C2 (amended: provided every key reachable in the object is non-empty,
contains no dot, and keys are unique within each object — as `JSON.parse`
guarantees for the last condition): the dot-joined paths produced by the CSV
flattening function are pairwise distinct, so merging a recursively flattened
nested object never overwrites a value already written at the same path. -/
theorem flatten_unique_paths (v : Json) (h : keysOK v = true) :
    ((flattenObject v "").map Prod.fst).Nodup := by
  cases v with
  | obj fs =>
    rw [keysOK] at h
    simp only [Bool.and_eq_true, decide_eq_true_eq] at h
    rw [show flattenObject (Json.obj fs) "" = flattenFields fs "" from rfl,
      flattenFields_paths]
    apply List.Nodup.map_on ?_ (chains_nodup fs h.1 h.2)
    intro c1 hc1 c2 hc2 heq
    obtain ⟨k1, c1', rfl, _⟩ := chains_head fs c1 hc1
    obtain ⟨k2, c2', rfl, _⟩ := chains_head fs c2 hc2
    have s1 := chains_shape fs h.2 _ hc1
    have s2 := chains_shape fs h.2 _ hc2
    have e1 : joinChain "" (k1 :: c1') = k1 ++ dotConcat c1' := by
      rw [show joinChain "" (k1 :: c1') = joinChain k1 c1' from rfl]
      exact joinChain_eq_append c1' k1 (s1 k1 (List.mem_cons_self _ _)).1
    have e2 : joinChain "" (k2 :: c2') = k2 ++ dotConcat c2' := by
      rw [show joinChain "" (k2 :: c2') = joinChain k2 c2' from rfl]
      exact joinChain_eq_append c2' k2 (s2 k2 (List.mem_cons_self _ _)).1
    rw [e1, e2] at heq
    have hd := congrArg String.data heq
    rw [String.data_append, String.data_append] at hd
    obtain ⟨hk, hrest⟩ := append_inj_dotfree _ _ _ _
      (s1 k1 (List.mem_cons_self _ _)).2 (s2 k2 (List.mem_cons_self _ _)).2
      (dotConcat_shape c1') (dotConcat_shape c2') hd
    rw [String.ext hk,
      dotConcat_inj c1' c2' (fun k hk => s1 k (List.mem_cons_of_mem _ hk))
        (fun k hk => s2 k (List.mem_cons_of_mem _ hk)) (String.ext hrest)]
  | null => exact List.nodup_nil
  | bool b => exact List.nodup_nil
  | num n => exact List.nodup_nil
  | str s => exact List.nodup_nil
  | arr xs => exact List.nodup_nil

/-- C2, counterexample to the claim as stated: in `{a:{b:1},"a.b":2}` the
nested entry `a.b` and the top-level key `a.b` flatten to the same path, so the
merge overwrites the earlier value `1` with `2`. -/
theorem flatten_paths_collision_counterexample :
    ((flattenObject (.obj [("a", .obj [("b", .num 1)]), ("a.b", .num 2)]) "").map
        Prod.fst) = ["a.b", "a.b"]
    ∧ ¬ ((flattenObject (.obj [("a", .obj [("b", .num 1)]), ("a.b", .num 2)]) "").map
        Prod.fst).Nodup
    ∧ flattenLookup
        (flattenObject (.obj [("a", .obj [("b", .num 1)]), ("a.b", .num 2)]) "") "a.b"
      = some "2" :=
  ⟨rfl, by decide, rfl⟩

/-- C2 witness: a well-formed nested record, with the hypothesis discharged by
computation. -/
theorem flatten_unique_paths_witness :
    keysOK (.obj [("a", .obj [("b", .num 1)]), ("c", .num 2)]) = true
    ∧ ((flattenObject (.obj [("a", .obj [("b", .num 1)]), ("c", .num 2)]) "").map
        Prod.fst).Nodup :=
  ⟨by decide, flatten_unique_paths _ (by decide)⟩

theorem mapO_mem {α β : Type} {f : α → Option β} : ∀ {l : List α} {out : List β},
    mapO f l = some out → ∀ a ∈ l, ∃ r ∈ out, f a = some r
  | [], _, _, a, ha => absurd ha (List.not_mem_nil a)
  | x :: xs, out, h, a, ha => by
    rw [mapO] at h
    cases hf : f x with
    | none => rw [hf] at h; simp at h
    | some y =>
      rw [hf] at h
      cases hm : mapO f xs with
      | none => rw [hm] at h; simp at h
      | some ys =>
        rw [hm] at h
        have hout : y :: ys = out := by simpa using h
        subst hout
        rcases List.mem_cons.mp ha with rfl | ha'
        · exact ⟨y, List.mem_cons_self _ _, hf⟩
        · obtain ⟨r, hr, hfr⟩ := mapO_mem hm a ha'
          exact ⟨r, List.mem_cons_of_mem _ hr, hfr⟩

theorem mapO_isSome {α β : Type} {f : α → Option β} : ∀ {l : List α},
    (∀ a ∈ l, (f a).isSome = true) → (mapO f l).isSome = true
  | [], _ => rfl
  | x :: xs, h => by
    rw [mapO]
    obtain ⟨y, hy⟩ := Option.isSome_iff_exists.mp (h x (List.mem_cons_self _ _))
    obtain ⟨ys, hys⟩ := Option.isSome_iff_exists.mp
      (mapO_isSome (fun a ha => h a (List.mem_cons_of_mem _ ha)))
    rw [hy, hys]
    rfl

theorem zip_mem_left {α β : Type} : ∀ {xs : List α} {ys : List β},
    ys.length = xs.length → ∀ {x}, x ∈ xs → ∃ y, (x, y) ∈ xs.zip ys
  | [], _, _, x, hx => absurd hx (List.not_mem_nil x)
  | _ :: _, [], h, _, _ => by simp at h
  | a :: xs, b :: ys, h, x, hx => by
    rcases List.mem_cons.mp hx with rfl | hx'
    · exact ⟨b, List.mem_cons_self _ _⟩
    · obtain ⟨y, hy⟩ := zip_mem_left (by simpa using h) hx'
      exact ⟨y, List.mem_cons_of_mem _ hy⟩

theorem zip_map_eq {α β : Type} (f : α → β) : ∀ {xs : List α} {x : α} {y : β},
    (x, y) ∈ xs.zip (xs.map f) → y = f x
  | [], x, y, h => absurd h (List.not_mem_nil _)
  | a :: xs, x, y, h => by
    rw [List.map_cons, List.zip_cons_cons] at h
    rcases List.mem_cons.mp h with h' | h'
    · injection h' with h1 h2
      subst h1
      exact h2
    · exact zip_map_eq f h'

theorem zip_enumFrom_map_eq {α β : Type} (f : Nat × α → β) : ∀ {n : Nat}
    {xs : List α} {x : α} {y : β},
    (x, y) ∈ xs.zip ((xs.enumFrom n).map f) → ∃ i, y = f (i, x)
  | _, [], x, y, h => absurd h (List.not_mem_nil _)
  | n, a :: xs, x, y, h => by
    rw [List.enumFrom_cons, List.map_cons, List.zip_cons_cons] at h
    rcases List.mem_cons.mp h with h' | h'
    · injection h' with h1 h2
      subst h1
      exact ⟨n, h2⟩
    · exact zip_enumFrom_map_eq f h'

theorem nodesList_append : ∀ (l1 l2 : List RenderNode),
    RenderNode.nodesList (l1 ++ l2)
      = RenderNode.nodesList l1 ++ RenderNode.nodesList l2
  | [], l2 => rfl
  | n :: l1, l2 => by
    rw [List.cons_append, RenderNode.nodesList, RenderNode.nodesList,
      nodesList_append l1 l2, List.append_assoc]

theorem nodes_eq (r : RenderNode) :
    r.nodes = r :: RenderNode.nodesList r.children := by
  cases r <;>
    simp [RenderNode.nodes, RenderNode.nodesList, RenderNode.children,
      nodesList_append]

theorem self_mem_nodes (r : RenderNode) : r ∈ r.nodes := by
  rw [nodes_eq]
  exact List.mem_cons_self _ _

theorem mem_nodesList {n : RenderNode} : ∀ {l : List RenderNode},
    n ∈ RenderNode.nodesList l ↔ ∃ m ∈ l, n ∈ m.nodes
  | [] => by simp [RenderNode.nodesList]
  | m :: l => by
    rw [RenderNode.nodesList, List.mem_append, mem_nodesList]
    constructor
    · rintro (h | ⟨m', hm', hn⟩)
      · exact ⟨m, List.mem_cons_self _ _, h⟩
      · exact ⟨m', List.mem_cons_of_mem _ hm', hn⟩
    · rintro ⟨m', hm', hn⟩
      rcases List.mem_cons.mp hm' with rfl | hm''
      · exact Or.inl hn
      · exact Or.inr ⟨m', hm'', hn⟩

theorem shows_self {r : RenderNode} {w : Json} (h : r.srcOf = some w) :
    Shows r w := ⟨r, self_mem_nodes r, h⟩

theorem shows_of_child {r c : RenderNode} {w : Json} (hc : c ∈ r.children)
    (h : Shows c w) : Shows r w := by
  obtain ⟨n, hn, hsrc⟩ := h
  refine ⟨n, ?_, hsrc⟩
  rw [nodes_eq]
  exact List.mem_cons_of_mem _ (mem_nodesList.mpr ⟨c, hc, hn⟩)

theorem covers_of_child {r c : RenderNode} {v : Json} (hc : c ∈ r.children)
    (h : Covers c v) : Covers r v :=
  ⟨fun w ho ht => shows_of_child hc (h.1 w ho ht),
   fun xs x ho hne hp hx => shows_of_child hc (h.2 xs x ho hne hp hx)⟩

theorem inert_covers (r : RenderNode) (v : Json) (h : inertVal v = true) :
    Covers r v := by
  constructor
  · intro w ho ht
    exfalso
    cases v with
    | null => cases ho; rcases ht with ⟨xs, h', _⟩ | ⟨fs, h', _⟩ <;> cases h'
    | bool b => cases ho; rcases ht with ⟨xs, h', _⟩ | ⟨fs, h', _⟩ <;> cases h'
    | num n => cases ho; rcases ht with ⟨xs, h', _⟩ | ⟨fs, h', _⟩ <;> cases h'
    | str s => cases ho; rcases ht with ⟨xs, h', _⟩ | ⟨fs, h', _⟩ <;> cases h'
    | arr xs =>
      cases xs with
      | nil =>
        cases ho with
        | refl =>
          rcases ht with ⟨ys, h', hne, _⟩ | ⟨fs, h', _⟩
          · injection h' with h''; exact hne h''.symm
          · cases h'
        | arrMem hm _ => exact List.not_mem_nil _ hm
      | cons a as => simp [inertVal] at h
    | obj fs =>
      cases fs with
      | nil =>
        cases ho with
        | refl =>
          rcases ht with ⟨ys, h', _⟩ | ⟨gs, h', hne⟩
          · cases h'
          · injection h' with h''; exact hne h''.symm
        | objMem hm _ => exact List.not_mem_nil _ hm
      | cons a as => simp [inertVal] at h
  · intro xs x ho hne hp hx
    exfalso
    cases v with
    | null => cases ho
    | bool b => cases ho
    | num n => cases ho
    | str s => cases ho
    | arr ys =>
      cases ys with
      | nil =>
        cases ho with
        | refl => exact hne rfl
        | arrMem hm _ => exact List.not_mem_nil _ hm
      | cons a as => simp [inertVal] at h
    | obj gs =>
      cases gs with
      | nil =>
        cases ho with
        | objMem hm _ => exact List.not_mem_nil _ hm
      | cons a as => simp [inertVal] at h

theorem goodPVList_mem : ∀ {xs : List Json}, goodPVList xs = true →
    ∀ {x}, x ∈ xs → goodPV x = true
  | [], _, x, hx => absurd hx (List.not_mem_nil x)
  | a :: xs, h, x, hx => by
    rw [goodPVList, Bool.and_eq_true] at h
    rcases List.mem_cons.mp hx with rfl | hx'
    · exact h.1
    · exact goodPVList_mem h.2 hx'

theorem goodPVFields_mem : ∀ {fs : List (String × Json)}, goodPVFields fs = true →
    ∀ {k v}, (k, v) ∈ fs → goodPV v = true
      ∧ ((k = "Packages" ∨ k = "Vulnerabilities") → pvOK v = true)
  | [], _, k, v, hm => absurd hm (List.not_mem_nil _)
  | (k', v') :: fs, h, k, v, hm => by
    rw [goodPVFields, Bool.and_eq_true, Bool.and_eq_true] at h
    rcases List.mem_cons.mp hm with h' | h'
    · injection h' with h1 h2
      subst h1; subst h2
      refine ⟨h.1.2, fun hk => ?_⟩
      have := h.1.1
      rw [if_pos hk] at this
      exact this
    · exact goodPVFields_mem h.2 h'

theorem wfKeysList_mem : ∀ {xs : List Json}, wfKeysList xs = true →
    ∀ {x}, x ∈ xs → wfKeys x = true
  | [], _, x, hx => absurd hx (List.not_mem_nil x)
  | a :: xs, h, x, hx => by
    rw [wfKeysList, Bool.and_eq_true] at h
    rcases List.mem_cons.mp hx with rfl | hx'
    · exact h.1
    · exact wfKeysList_mem h.2 hx'

theorem wfKeysFields_mem : ∀ {fs : List (String × Json)}, wfKeysFields fs = true →
    ∀ {k v}, (k, v) ∈ fs → wfKeys v = true
  | [], _, k, v, hm => absurd hm (List.not_mem_nil _)
  | (k', v') :: fs, h, k, v, hm => by
    rw [wfKeysFields, Bool.and_eq_true] at h
    rcases List.mem_cons.mp hm with h' | h'
    · injection h' with h1 h2
      subst h2
      exact h.1
    · exact wfKeysFields_mem h.2 h'

theorem wfKeys_obj_nodup {fs : List (String × Json)}
    (h : wfKeys (.obj fs) = true) : (fs.map Prod.fst).Nodup := by
  rw [wfKeys, Bool.and_eq_true, decide_eq_true_eq] at h
  exact h.1

theorem wfKeys_obj_fields {fs : List (String × Json)}
    (h : wfKeys (.obj fs) = true) : wfKeysFields fs = true := by
  rw [wfKeys, Bool.and_eq_true] at h
  exact h.2

theorem lookup_eq_of_mem : ∀ {fs : List (String × Json)} {k : String} {v : Json},
    (k, v) ∈ fs → (fs.map Prod.fst).Nodup → fs.lookup k = some v
  | [], k, v, hm, _ => absurd hm (List.not_mem_nil _)
  | (k', v') :: fs, k, v, hm, hn => by
    rw [List.map_cons, List.nodup_cons] at hn
    rcases List.mem_cons.mp hm with h' | h'
    · injection h' with h1 h2
      subst h1; subst h2
      simp [List.lookup]
    · have hk : k ≠ k' := by
        rintro rfl
        exact hn.1 (List.mem_map.mpr ⟨(k, v), h', rfl⟩)
      rw [List.lookup, show (k == k') = false from beq_eq_false_iff_ne.mpr hk]
      exact lookup_eq_of_mem h' hn.2

theorem lookup_mem : ∀ {fs : List (String × Json)} {k : String} {v : Json},
    fs.lookup k = some v → (k, v) ∈ fs
  | [], k, v, h => by simp [List.lookup] at h
  | (k', v') :: fs, k, v, h => by
    rw [List.lookup] at h
    by_cases hk : k = k'
    · rw [show (k == k') = true from beq_iff_eq.mpr hk] at h
      injection h with h'
      subst h'; subst hk
      exact List.mem_cons_self _ _
    · rw [show (k == k') = false from beq_eq_false_iff_ne.mpr hk] at h
      exact List.mem_cons_of_mem _ (lookup_mem h)

theorem jweight_pos : ∀ (v : Json), 1 ≤ jweight v
  | .null => le_refl 1
  | .bool _ => le_refl 1
  | .num _ => le_refl 1
  | .str _ => le_refl 1
  | .arr xs => by rw [jweight]; omega
  | .obj fs => by rw [jweight]; omega

theorem jweightList_pos (xs : List Json) : 1 ≤ jweightList xs := by
  cases xs <;> rw [jweightList] <;> omega

theorem jweightFields_pos (fs : List (String × Json)) : 1 ≤ jweightFields fs := by
  cases fs with
  | nil => rw [jweightFields]
  | cons p fs => rw [show jweightFields (p :: fs)
      = 1 + jweight p.2 + jweightFields fs from by cases p; rfl]; omega

theorem jweightList_mem : ∀ {xs : List Json} {x : Json}, x ∈ xs →
    jweight x + 2 ≤ jweightList xs
  | [], x, hx => absurd hx (List.not_mem_nil x)
  | a :: xs, x, hx => by
    rw [jweightList]
    rcases List.mem_cons.mp hx with rfl | hx'
    · have := jweightList_pos xs
      omega
    · have := jweightList_mem hx'
      have := jweight_pos a
      omega

theorem jweightFields_mem : ∀ {fs : List (String × Json)} {k : String} {v : Json},
    (k, v) ∈ fs → jweight v + 2 ≤ jweightFields fs
  | [], k, v, hm => absurd hm (List.not_mem_nil _)
  | (k', v') :: fs, k, v, hm => by
    rw [jweightFields]
    rcases List.mem_cons.mp hm with h' | h'
    · injection h' with h1 h2
      subst h2
      have := jweightFields_pos fs
      omega
    · have := jweightFields_mem h'
      have := jweight_pos v'
      omega

/-- Weight of an optional cell: an absent cell weighs one. -/
def jweightO : Option Json → Nat
  | none => 1
  | some v => jweight v

theorem grid_rows_len (xs : List Json) (E : List String) :
    (getTableStructure (.arr xs) E).rows.length = xs.length := by
  rw [getTableStructure]
  by_cases h0 : xs.length = 0
  · rw [if_pos h0]
    exact h0.symm
  · rw [if_neg h0]
    by_cases hall : xs.all isStrictObj = true
    · rw [if_pos hall]
      simp
    · rw [if_neg hall]
      simp

theorem grid_obj_nil (fs : List (String × Json)) :
    getTableStructure (.obj fs) []
      = ⟨["Key", "Value"], fs.map (fun p => [some (.str p.1), some p.2])⟩ := by
  rw [getTableStructure]
  congr 1
  have : (fs.filter fun p => !([] : List String).contains p.1) = fs := by
    simp
  rw [this]

theorem grid_arr_cell_bound {xs : List Json} {E : List String} {item : Json}
    {row : List (Option Json)}
    (hmem : (item, row) ∈ xs.zip (getTableStructure (.arr xs) E).rows) :
    item ∈ xs ∧ ∀ c ∈ row, jweightO c + 2 ≤ jweightList xs := by
  have hx : item ∈ xs := (List.of_mem_zip hmem).1
  have hwitem : jweight item + 2 ≤ jweightList xs := jweightList_mem hx
  refine ⟨hx, ?_⟩
  intro c hc
  rw [getTableStructure] at hmem
  by_cases h0 : xs.length = 0
  · rw [if_pos h0] at hmem
    simp at hmem
  · rw [if_neg h0] at hmem
    by_cases hall : xs.all isStrictObj = true
    · rw [if_pos hall] at hmem
      have hrow := zip_map_eq _ hmem
      subst hrow
      obtain ⟨hh, _, rfl⟩ := List.mem_map.mp hc
      cases item with
      | obj fields =>
        show jweightO (fields.lookup hh) + 2 ≤ _
        cases hl : fields.lookup hh with
        | none =>
          have := jweight_pos (.obj fields)
          simp only [jweightO]
          omega
        | some w =>
          have h1 := jweightFields_mem (lookup_mem hl)
          have h2 : jweight (.obj fields) = 1 + jweightFields fields := rfl
          simp only [jweightO]
          omega
      | null => exact absurd (List.all_eq_true.mp hall _ hx) (by simp [isStrictObj])
      | bool b => exact absurd (List.all_eq_true.mp hall _ hx) (by simp [isStrictObj])
      | num n => exact absurd (List.all_eq_true.mp hall _ hx) (by simp [isStrictObj])
      | str s => exact absurd (List.all_eq_true.mp hall _ hx) (by simp [isStrictObj])
      | arr ys => exact absurd (List.all_eq_true.mp hall _ hx) (by simp [isStrictObj])
    · rw [if_neg hall] at hmem
      rw [show List.enum xs = List.enumFrom 0 xs from rfl] at hmem
      obtain ⟨i, rfl⟩ := zip_enumFrom_map_eq _ hmem
      have hpos := jweight_pos item
      rcases List.mem_cons.mp hc with rfl | hc'
      · simp only [jweightO, jweight]
        omega
      · rcases List.mem_cons.mp hc' with rfl | hc''
        · simp only [jweightO]
          omega
        · exact absurd hc'' (List.not_mem_nil c)

theorem renderCellValue_prim_isSome {fuel : Nat} {v : Json} {pk : Option String}
    (hf : 1 ≤ fuel) (hp : isPrim v = true) :
    (renderCellValue fuel v pk).isSome = true := by
  cases fuel with
  | zero => omega
  | succ f => cases v <;> first
    | rfl
    | simp [isPrim] at hp


theorem optionBind_some {α β : Type} (a : α) (f : α → Option β) :
    Option.bind (some a) f = f a := rfl

theorem pvLookup_mem {item : Json} {key : String} {w : Json}
    (h : pvLookup item key = some w) :
    ∃ fs, item = .obj fs ∧ (key, w) ∈ fs := by
  cases item with
  | obj fs => exact ⟨fs, rfl, lookup_mem h⟩
  | null => simp [pvLookup] at h
  | bool b => simp [pvLookup] at h
  | num n => simp [pvLookup] at h
  | str s => simp [pvLookup] at h
  | arr xs => simp [pvLookup] at h

mutual

theorem renderTop_isSome : ∀ (fuel : Nat) (v : Json),
    3 * jweight v + 6 ≤ fuel → (renderTop fuel v).isSome = true
  | 0, v, h => by have := jweight_pos v; omega
  | fuel + 1, v, h => by
    cases v with
    | obj fs =>
      rw [renderTop, if_pos (show canDisplayAsTable (Json.obj fs) = true from rfl)]
      have hw : jweight (Json.obj fs) = 1 + jweightFields fs := rfl
      by_cases hn : fs.any (fun p => isNestedStructure p.2) = true
      · rw [if_pos hn]
        have hall : ∀ p ∈ fs, (renderTopEntry fuel p).isSome = true := by
          intro p hp
          exact renderTopEntry_isSome fuel p
            (by have := jweightFields_mem (show (p.1, p.2) ∈ fs from hp); omega)
        obtain ⟨sections, hs⟩ := Option.isSome_iff_exists.mp (mapO_isSome hall)
        rw [hs]
        rfl
      · rw [if_neg hn]
        have hall : ∀ row ∈ (getTableStructure (.obj fs) []).rows,
            (renderCollRow fuel (getTableStructure (.obj fs) []).headers
              (synthRow (getTableStructure (.obj fs) []).headers row) row).isSome
              = true := by
          intro row hrow
          rw [grid_obj_nil] at hrow
          obtain ⟨p, hp, rfl⟩ := List.mem_map.mp hrow
          apply renderCollRow_isSome fuel _ _ _ (by omega)
          intro c hc
          rcases List.mem_cons.mp hc with rfl | hc'
          · simp only [jweightO, jweight]
            omega
          · rcases List.mem_cons.mp hc' with rfl | hc''
            · have := jweightFields_mem (show (p.1, p.2) ∈ fs from hp)
              simp only [jweightO]
              omega
            · exact absurd hc'' (List.not_mem_nil c)
        obtain ⟨rows, hr⟩ := Option.isSome_iff_exists.mp (mapO_isSome hall)
        rw [hr]
        rfl
    | arr xs =>
      rw [renderTop, if_pos (show canDisplayAsTable (Json.arr xs) = true from rfl)]
      have hw : jweight (Json.arr xs) = 1 + jweightList xs := rfl
      have hall : ∀ p ∈ xs.zip (getTableStructure (.arr xs) []).rows,
          (renderCollRow fuel (getTableStructure (.arr xs) []).headers
            p.1 p.2).isSome = true := by
        intro p hp
        obtain ⟨hx, hcell⟩ := grid_arr_cell_bound
          (show (p.1, p.2) ∈ xs.zip (getTableStructure (.arr xs) []).rows from hp)
        apply renderCollRow_isSome fuel _ _ _ (by omega)
        intro c hc
        have := hcell c hc
        omega
      obtain ⟨rows, hr⟩ := Option.isSome_iff_exists.mp (mapO_isSome hall)
      rw [hr]
      rfl
    | null =>
      rw [renderTop]
      all_goals first
      | (intro a ha; exact Json.noConfusion ha)
      | (rw [if_neg (by simp [canDisplayAsTable])]; rfl)
    | bool b =>
      rw [renderTop]
      all_goals first
      | (intro a ha; exact Json.noConfusion ha)
      | (rw [if_neg (by simp [canDisplayAsTable])]; rfl)
    | num n =>
      rw [renderTop]
      all_goals first
      | (intro a ha; exact Json.noConfusion ha)
      | (rw [if_neg (by simp [canDisplayAsTable])]; rfl)
    | str s =>
      rw [renderTop]
      all_goals first
      | (intro a ha; exact Json.noConfusion ha)
      | (rw [if_neg (by simp [canDisplayAsTable])]; rfl)

theorem renderTopEntry_isSome : ∀ (fuel : Nat) (p : String × Json),
    3 * jweight p.2 + 5 ≤ fuel → (renderTopEntry fuel p).isSome = true
  | 0, p, h => by have := jweight_pos p.2; omega
  | fuel + 1, (k, v), h => by
    have hv : 3 * jweight v + 5 ≤ fuel + 1 := h
    cases v with
    | obj gs =>
      rw [renderTopEntry]
      by_cases hn : isNestedStructure (Json.obj gs) = true
      · rw [if_pos hn]
        obtain ⟨t, ht⟩ := Option.isSome_iff_exists.mp
          (renderNestedTable_isSome fuel k (.obj gs) (by omega))
        rw [ht]
        try simp only [Option.some_bind, optionBind_some]
        cases t with
        | some node => rfl
        | none =>
          have hw : jweight (Json.obj gs) = 1 + jweightFields gs := rfl
          have hall : ∀ row ∈ (getTableStructure (.obj gs) []).rows,
              (renderCollRow fuel (getTableStructure (.obj gs) []).headers
                (synthRow (getTableStructure (.obj gs) []).headers row) row).isSome
                = true := by
            intro row hrow
            rw [grid_obj_nil] at hrow
            obtain ⟨p, hp, rfl⟩ := List.mem_map.mp hrow
            apply renderCollRow_isSome fuel _ _ _ (by omega)
            intro c hc
            rcases List.mem_cons.mp hc with rfl | hc'
            · simp only [jweightO, jweight]
              omega
            · rcases List.mem_cons.mp hc' with rfl | hc''
              · have := jweightFields_mem (show (p.1, p.2) ∈ gs from hp)
                simp only [jweightO]
                omega
              · exact absurd hc'' (List.not_mem_nil c)
          obtain ⟨rows, hr⟩ := Option.isSome_iff_exists.mp (mapO_isSome hall)
          rw [hr]
          rfl
      · rw [if_neg hn, Option.isSome_map]
        exact renderCell_isSome fuel _ _ (by omega)
    | arr ys =>
      rw [renderTopEntry]
      on_goal 2 => intro a ha; exact Json.noConfusion ha
      by_cases hn : isNestedStructure (Json.arr ys) = true
      · rw [if_pos hn]
        obtain ⟨t, ht⟩ := Option.isSome_iff_exists.mp
          (renderNestedTable_isSome fuel k (.arr ys) (by omega))
        rw [ht]
        try simp only [Option.some_bind, optionBind_some]
        cases t with
        | some node => rfl
        | none =>
          show (RenderNode.labeled k <$>
            renderCell fuel (Json.arr ys) (some k)).isSome = true
          rw [Option.isSome_map]
          exact renderCell_isSome fuel _ _ (by omega)
      · rw [if_neg hn, Option.isSome_map]
        exact renderCell_isSome fuel _ _ (by omega)
    | null =>
      rw [renderTopEntry]
      on_goal 2 => intro a ha; exact Json.noConfusion ha
      rw [if_neg (by simp [isNestedStructure]), Option.isSome_map]
      exact renderCell_isSome fuel _ _ (by omega)
    | bool b =>
      rw [renderTopEntry]
      on_goal 2 => intro a ha; exact Json.noConfusion ha
      rw [if_neg (by simp [isNestedStructure]), Option.isSome_map]
      exact renderCell_isSome fuel _ _ (by omega)
    | num n =>
      rw [renderTopEntry]
      on_goal 2 => intro a ha; exact Json.noConfusion ha
      rw [if_neg (by simp [isNestedStructure]), Option.isSome_map]
      exact renderCell_isSome fuel _ _ (by omega)
    | str s =>
      rw [renderTopEntry]
      on_goal 2 => intro a ha; exact Json.noConfusion ha
      rw [if_neg (by simp [isNestedStructure]), Option.isSome_map]
      exact renderCell_isSome fuel _ _ (by omega)

theorem renderNestedTable_isSome : ∀ (fuel : Nat) (key : String) (v : Json),
    3 * jweight v + 1 ≤ fuel → (renderNestedTable fuel key v).isSome = true
  | 0, _, v, h => by have := jweight_pos v; omega
  | fuel + 1, key, v, h => by
    cases v with
    | arr xs =>
      rw [renderNestedTable]
      have hw : jweight (Json.arr xs) = 1 + jweightList xs := rfl
      by_cases hq : (!xs.isEmpty && xs.all isObjLike) = true
      · rw [if_pos hq]
        have hall : ∀ p ∈ xs.zip
            (getTableStructure (.arr xs) (renderNestedExcludeKeys key)).rows,
            (renderTableRow fuel
              (getTableStructure (.arr xs) (renderNestedExcludeKeys key)).headers
              p.1 p.2).isSome = true := by
          intro p hp
          obtain ⟨hx, hcell⟩ := grid_arr_cell_bound
            (show (p.1, p.2) ∈ xs.zip
              (getTableStructure (.arr xs) (renderNestedExcludeKeys key)).rows from hp)
          have hitem := jweightList_mem hx
          apply renderTableRow_isSome fuel _ _ _ (by omega) (by omega)
          intro c hc
          have := hcell c hc
          omega
        obtain ⟨rows, hr⟩ := Option.isSome_iff_exists.mp (mapO_isSome hall)
        rw [hr]
        rfl
      · rw [if_neg hq]
        rfl
    | null => rfl
    | bool b => rfl
    | num n => rfl
    | str s => rfl
    | obj fs => rfl

theorem renderTableRow_isSome : ∀ (fuel : Nat) (headers : List String)
    (item : Json) (row : List (Option Json)),
    1 ≤ fuel → 3 * jweight item + 2 ≤ fuel →
    (∀ c ∈ row, 3 * jweightO c + 5 ≤ fuel) →
    (renderTableRow fuel headers item row).isSome = true
  | 0, _, _, _, hf, _, _ => by omega
  | fuel + 1, headers, item, row, _, hitem, hrow => by
    rw [renderTableRow]
    have hall : ∀ p ∈ headers.zip row,
        (renderCellValueOpt fuel p.2 (some p.1)).isSome = true := by
      intro p hp
      have hmem : p.2 ∈ row := (List.of_mem_zip hp).2
      exact renderCellValueOpt_isSome fuel _ _ (by have := hrow _ hmem; omega)
    obtain ⟨cells, hc⟩ := Option.isSome_iff_exists.mp (mapO_isSome hall)
    rw [hc]
    try simp only [Option.some_bind, optionBind_some]
    obtain ⟨extras, he⟩ := Option.isSome_iff_exists.mp
      (pvExtras_isSome fuel item (by omega))
    rw [he]
    rfl

theorem pvExtras_isSome : ∀ (fuel : Nat) (item : Json),
    3 * jweight item + 1 ≤ fuel → (pvExtras fuel item).isSome = true
  | 0, item, h => by have := jweight_pos item; omega
  | fuel + 1, item, h => by
    rw [pvExtras]
    obtain ⟨e1, he1⟩ := Option.isSome_iff_exists.mp
      (pvCollapsible_isSome fuel "Vulnerabilities" 1 (pvLookup item "Vulnerabilities")
        (by have := jweight_pos item; omega) (fun vs hvs => by
          obtain ⟨fs, rfl, hm⟩ := pvLookup_mem hvs
          have h1 := jweightFields_mem hm
          have h2 : jweight (Json.arr vs) = 1 + jweightList vs := rfl
          have h3 : jweight (Json.obj fs) = 1 + jweightFields fs := rfl
          omega))
    rw [he1]
    try simp only [Option.some_bind, optionBind_some]
    obtain ⟨e2, he2⟩ := Option.isSome_iff_exists.mp
      (pvCollapsible_isSome fuel "Packages" 2 (pvLookup item "Packages")
        (by have := jweight_pos item; omega) (fun vs hvs => by
          obtain ⟨fs, rfl, hm⟩ := pvLookup_mem hvs
          have h1 := jweightFields_mem hm
          have h2 : jweight (Json.arr vs) = 1 + jweightList vs := rfl
          have h3 : jweight (Json.obj fs) = 1 + jweightFields fs := rfl
          omega))
    rw [he2]
    rfl

theorem pvCollapsible_isSome : ∀ (fuel : Nat) (key : String) (idx : Nat)
    (c : Option Json), 1 ≤ fuel →
    (∀ vs, c = some (.arr vs) → 3 * jweightList vs + 3 ≤ fuel) →
    (pvCollapsible fuel key idx c).isSome = true
  | 0, _, _, _, hf, _ => by omega
  | fuel + 1, key, idx, c, _, hvs => by
    cases c with
    | none => rfl
    | some w =>
      cases w with
      | arr vs =>
        rw [pvCollapsible]
        by_cases hne : (!vs.isEmpty) = true
        · rw [if_pos hne, Option.isSome_map]
          exact renderCollapsibleTable_isSome fuel _ _ _
            (by have := hvs vs rfl; omega)
        · rw [if_neg hne]
          rfl
      | null => rfl
      | bool b => rfl
      | num n => rfl
      | str s => rfl
      | obj gs => rfl

theorem renderCollapsibleTable_isSome : ∀ (fuel : Nat) (key : String)
    (idx : Nat) (xs : List Json),
    3 * jweightList xs + 2 ≤ fuel →
    (renderCollapsibleTable fuel key idx xs).isSome = true
  | 0, _, _, xs, h => by have := jweightList_pos xs; omega
  | fuel + 1, key, idx, xs, h => by
    rw [renderCollapsibleTable]
    have hall : ∀ p ∈ xs.zip (getTableStructure (.arr xs) []).rows,
        (renderCollRow fuel (getTableStructure (.arr xs) []).headers
          p.1 p.2).isSome = true := by
      intro p hp
      obtain ⟨hx, hcell⟩ := grid_arr_cell_bound
        (show (p.1, p.2) ∈ xs.zip (getTableStructure (.arr xs) []).rows from hp)
      apply renderCollRow_isSome fuel _ _ _ (by omega)
      intro c hc
      have := hcell c hc
      omega
    obtain ⟨rows, hr⟩ := Option.isSome_iff_exists.mp (mapO_isSome hall)
    rw [hr]
    rfl

theorem renderCollRow_isSome : ∀ (fuel : Nat) (headers : List String)
    (item : Json) (row : List (Option Json)),
    1 ≤ fuel → (∀ c ∈ row, 3 * jweightO c + 4 ≤ fuel) →
    (renderCollRow fuel headers item row).isSome = true
  | 0, _, _, _, hf, _ => by omega
  | fuel + 1, headers, item, row, _, hrow => by
    rw [renderCollRow]
    have hall : ∀ p ∈ headers.zip row,
        (renderCellOpt fuel p.2 (some p.1)).isSome = true := by
      intro p hp
      have hmem : p.2 ∈ row := (List.of_mem_zip hp).2
      exact renderCellOpt_isSome fuel _ _ (by have := hrow _ hmem; omega)
    obtain ⟨cells, hc⟩ := Option.isSome_iff_exists.mp (mapO_isSome hall)
    rw [hc]
    rfl

theorem renderCell_isSome : ∀ (fuel : Nat) (v : Json) (pk : Option String),
    3 * jweight v + 2 ≤ fuel → (renderCell fuel v pk).isSome = true
  | 0, v, _, h => by have := jweight_pos v; omega
  | fuel + 1, v, pk, h => by
    cases v with
    | arr xs =>
      rw [renderCell]
      have hw : jweight (Json.arr xs) = 1 + jweightList xs := rfl
      by_cases hq : (!xs.isEmpty && xs.all isObjLike) = true
      · rw [if_pos hq]
        by_cases hp1 : pk = some "Packages"
        · rw [if_pos hp1]
          exact renderCollapsibleTable_isSome fuel _ _ _ (by omega)
        · rw [if_neg hp1]
          by_cases hp2 : pk = some "Vulnerabilities"
          · rw [if_pos hp2]
            exact renderCollapsibleTable_isSome fuel _ _ _ (by omega)
          · rw [if_neg hp2]
            obtain ⟨t, ht⟩ := Option.isSome_iff_exists.mp
              (renderNestedTable_isSome fuel (keyOrArray pk) (.arr xs) (by omega))
            rw [ht]
            rfl
      · rw [if_neg hq]
        by_cases hne : (!xs.isEmpty) = true
        · rw [if_pos hne]
          have hall : ∀ x ∈ xs, (renderCellValue fuel x pk).isSome = true := by
            intro x hx
            exact renderCellValue_isSome fuel x pk
              (by have := jweightList_mem hx; omega)
          obtain ⟨items, hi⟩ := Option.isSome_iff_exists.mp (mapO_isSome hall)
          rw [hi]
          rfl
        · rw [if_neg hne]
          rfl
    | obj fs =>
      rw [renderCell]
      have hw : jweight (Json.obj fs) = 1 + jweightFields fs := rfl
      by_cases hq : fs.any (fun p => isQualArray p.2) = true
      · rw [if_pos hq]
        by_cases hpv :
            fs.any (fun p => p.1 == "Packages" || p.1 == "Vulnerabilities") = true
        · rw [if_pos hpv]
          have hall1 : ∀ p ∈ fs.filter
              (fun p => !(p.1 == "Packages") && !(p.1 == "Vulnerabilities")),
              (renderOtherEntry fuel p).isSome = true := by
            intro p hp
            exact renderOtherEntry_isSome fuel p (by
              have := jweightFields_mem
                (show (p.1, p.2) ∈ fs from (List.mem_filter.mp hp).1)
              omega)
          obtain ⟨others, ho⟩ := Option.isSome_iff_exists.mp (mapO_isSome hall1)
          rw [ho]
          try simp only [Option.some_bind, optionBind_some]
          have hall2 : ∀ p ∈ sortPV (fs.filter
              (fun p => (p.1 == "Packages" || p.1 == "Vulnerabilities")
                && isQualArray p.2)),
              (renderPVEntry fuel p).isSome = true := by
            intro p hp
            refine renderPVEntry_isSome fuel p ?_
            have hmem : (p.1, p.2) ∈ fs := by
              rcases List.mem_append.mp hp with h' | h' <;>
                exact (List.mem_filter.mp (List.mem_filter.mp h').1).1
            have := jweightFields_mem hmem
            omega
          obtain ⟨tables, htb⟩ := Option.isSome_iff_exists.mp (mapO_isSome hall2)
          rw [htb]
          rfl
        · rw [if_neg hpv]
          have hall : ∀ p ∈ fs, (renderGenEntry fuel p).isSome = true := by
            intro p hp
            exact renderGenEntry_isSome fuel p (by
              have := jweightFields_mem (show (p.1, p.2) ∈ fs from hp)
              omega)
          obtain ⟨children, hc⟩ := Option.isSome_iff_exists.mp (mapO_isSome hall)
          rw [hc]
          rfl
      · rw [if_neg hq]
        have hall : ∀ p ∈ fs, (renderSimpleEntry fuel p).isSome = true := by
          intro p hp
          exact renderSimpleEntry_isSome fuel p (by
            have := jweightFields_mem (show (p.1, p.2) ∈ fs from hp)
            omega)
        obtain ⟨children, hc⟩ := Option.isSome_iff_exists.mp (mapO_isSome hall)
        rw [hc]
        rfl
    | null =>
      rw [renderCell]
      on_goal 2 => intro a ha; exact Json.noConfusion ha
      on_goal 2 => intro a ha; exact Json.noConfusion ha
      exact renderCellValue_prim_isSome (by omega) rfl
    | bool b =>
      rw [renderCell]
      on_goal 2 => intro a ha; exact Json.noConfusion ha
      on_goal 2 => intro a ha; exact Json.noConfusion ha
      exact renderCellValue_prim_isSome (by omega) rfl
    | num n =>
      rw [renderCell]
      on_goal 2 => intro a ha; exact Json.noConfusion ha
      on_goal 2 => intro a ha; exact Json.noConfusion ha
      exact renderCellValue_prim_isSome (by omega) rfl
    | str s =>
      rw [renderCell]
      on_goal 2 => intro a ha; exact Json.noConfusion ha
      on_goal 2 => intro a ha; exact Json.noConfusion ha
      exact renderCellValue_prim_isSome (by omega) rfl

theorem renderPVEntry_isSome : ∀ (fuel : Nat) (p : String × Json),
    3 * jweight p.2 + 5 ≤ fuel → (renderPVEntry fuel p).isSome = true
  | 0, p, h => by have := jweight_pos p.2; omega
  | fuel + 1, (k, v), h => by
    have hv : 3 * jweight v + 5 ≤ fuel + 1 := h
    have hp := jweight_pos v
    cases v with
    | arr ys =>
      rw [renderPVEntry]
      apply renderCollapsibleTable_isSome fuel
      have hw : jweight (Json.arr ys) = 1 + jweightList ys := rfl
      omega
    | null =>
      rw [renderPVEntry]
      on_goal 2 => intro a ha; exact Json.noConfusion ha
      exact renderCollapsibleTable_isSome fuel _ _ _
        (by have h1 : jweightList ([] : List Json) = 1 := rfl; omega)
    | bool b =>
      rw [renderPVEntry]
      on_goal 2 => intro a ha; exact Json.noConfusion ha
      exact renderCollapsibleTable_isSome fuel _ _ _
        (by have h1 : jweightList ([] : List Json) = 1 := rfl; omega)
    | num n =>
      rw [renderPVEntry]
      on_goal 2 => intro a ha; exact Json.noConfusion ha
      exact renderCollapsibleTable_isSome fuel _ _ _
        (by have h1 : jweightList ([] : List Json) = 1 := rfl; omega)
    | str s =>
      rw [renderPVEntry]
      on_goal 2 => intro a ha; exact Json.noConfusion ha
      exact renderCollapsibleTable_isSome fuel _ _ _
        (by have h1 : jweightList ([] : List Json) = 1 := rfl; omega)
    | obj gs =>
      rw [renderPVEntry]
      on_goal 2 => intro a ha; exact Json.noConfusion ha
      exact renderCollapsibleTable_isSome fuel _ _ _
        (by have h1 : jweightList ([] : List Json) = 1 := rfl; omega)

theorem renderOtherEntry_isSome : ∀ (fuel : Nat) (p : String × Json),
    3 * jweight p.2 + 4 ≤ fuel → (renderOtherEntry fuel p).isSome = true
  | 0, p, h => by have := jweight_pos p.2; omega
  | fuel + 1, (k, v), h => by
    have hv : 3 * jweight v + 4 ≤ fuel + 1 := h
    cases v with
    | obj gs =>
      rw [renderOtherEntry, if_neg (by simp [isQualArray]), Option.isSome_map]
      all_goals try (intro a ha; exact Json.noConfusion ha)
      exact renderCell_isSome fuel _ _ (by omega)
    | arr ys =>
      rw [renderOtherEntry]
      all_goals try (intro a ha; exact Json.noConfusion ha)
      by_cases hq : isQualArray (.arr ys) = true
      · rw [if_pos hq]
        obtain ⟨t, ht⟩ := Option.isSome_iff_exists.mp
          (renderNestedTable_isSome fuel k (.arr ys) (by omega))
        rw [ht]
        rfl
      · rw [if_neg hq, Option.isSome_map]
        exact renderCellValue_isSome fuel _ _ (by omega)
    | null =>
      rw [renderOtherEntry, if_neg (by simp [isQualArray]), Option.isSome_map]
      all_goals try (intro a ha; exact Json.noConfusion ha)
      exact renderCellValue_isSome fuel _ _ (by omega)
    | bool b =>
      rw [renderOtherEntry, if_neg (by simp [isQualArray]), Option.isSome_map]
      all_goals try (intro a ha; exact Json.noConfusion ha)
      exact renderCellValue_isSome fuel _ _ (by omega)
    | num n =>
      rw [renderOtherEntry, if_neg (by simp [isQualArray]), Option.isSome_map]
      all_goals try (intro a ha; exact Json.noConfusion ha)
      exact renderCellValue_isSome fuel _ _ (by omega)
    | str s =>
      rw [renderOtherEntry, if_neg (by simp [isQualArray]), Option.isSome_map]
      all_goals try (intro a ha; exact Json.noConfusion ha)
      exact renderCellValue_isSome fuel _ _ (by omega)

theorem renderGenEntry_isSome : ∀ (fuel : Nat) (p : String × Json),
    3 * jweight p.2 + 4 ≤ fuel → (renderGenEntry fuel p).isSome = true
  | 0, p, h => by have := jweight_pos p.2; omega
  | fuel + 1, (k, v), h => by
    have hv : 3 * jweight v + 4 ≤ fuel + 1 := h
    cases v with
    | arr ys =>
      rw [renderGenEntry]
      all_goals try (intro a ha; exact Json.noConfusion ha)
      have hw : jweight (Json.arr ys) = 1 + jweightList ys := rfl
      by_cases hq : isQualArray (.arr ys) = true
      · rw [if_pos hq]
        obtain ⟨t, ht⟩ := Option.isSome_iff_exists.mp
          (renderNestedTable_isSome fuel k (.arr ys) (by omega))
        rw [ht]
        rfl
      · rw [if_neg hq]
        by_cases hne : (!ys.isEmpty) = true
        · rw [if_pos hne]
          have hall : ∀ x ∈ ys, (renderCellValue fuel x (some k)).isSome = true := by
            intro x hx
            exact renderCellValue_isSome fuel x _
              (by have := jweightList_mem hx; omega)
          obtain ⟨items, hi⟩ := Option.isSome_iff_exists.mp (mapO_isSome hall)
          rw [hi]
          rfl
        · rw [if_neg hne]
          rfl
    | obj gs =>
      rw [renderGenEntry, Option.isSome_map]
      all_goals try (intro a ha; exact Json.noConfusion ha)
      exact renderCell_isSome fuel _ _ (by omega)
    | null =>
      rw [renderGenEntry, Option.isSome_map]
      all_goals try (intro a ha; exact Json.noConfusion ha)
      exact renderCellValue_isSome fuel _ _ (by omega)
    | bool b =>
      rw [renderGenEntry, Option.isSome_map]
      all_goals try (intro a ha; exact Json.noConfusion ha)
      exact renderCellValue_isSome fuel _ _ (by omega)
    | num n =>
      rw [renderGenEntry, Option.isSome_map]
      all_goals try (intro a ha; exact Json.noConfusion ha)
      exact renderCellValue_isSome fuel _ _ (by omega)
    | str s =>
      rw [renderGenEntry, Option.isSome_map]
      all_goals try (intro a ha; exact Json.noConfusion ha)
      exact renderCellValue_isSome fuel _ _ (by omega)

theorem renderSimpleEntry_isSome : ∀ (fuel : Nat) (p : String × Json),
    3 * jweight p.2 + 4 ≤ fuel → (renderSimpleEntry fuel p).isSome = true
  | 0, p, h => by have := jweight_pos p.2; omega
  | fuel + 1, (k, v), h => by
    have hv : 3 * jweight v + 4 ≤ fuel + 1 := h
    cases v with
    | obj gs =>
      rw [renderSimpleEntry]
      all_goals try (intro a ha; exact Json.noConfusion ha)
      have hw : jweight (Json.obj gs) = 1 + jweightFields gs := rfl
      have hwf := jweightFields_pos gs
      by_cases hge : gs.isEmpty = true
      · rw [if_pos hge, Option.isSome_map]
        exact renderCellValue_isSome fuel _ _ (by omega)
      · rw [if_neg hge, Option.isSome_map]
        exact renderCell_isSome fuel _ _ (by omega)
    | arr ys =>
      rw [renderSimpleEntry]
      all_goals try (intro a ha; exact Json.noConfusion ha)
      have hw : jweight (Json.arr ys) = 1 + jweightList ys := rfl
      have hwl := jweightList_pos ys
      by_cases hq : isQualArray (.arr ys) = true
      · rw [if_pos hq]
        obtain ⟨t, ht⟩ := Option.isSome_iff_exists.mp
          (renderNestedTable_isSome fuel k (.arr ys) (by omega))
        rw [ht]
        rfl
      · rw [if_neg hq]
        by_cases hne : (!ys.isEmpty) = true
        · rw [if_pos hne]
          have hall : ∀ x ∈ ys, (renderCellValue fuel x (some k)).isSome = true := by
            intro x hx
            exact renderCellValue_isSome fuel x _
              (by have := jweightList_mem hx; omega)
          obtain ⟨items, hi⟩ := Option.isSome_iff_exists.mp (mapO_isSome hall)
          rw [hi]
          rfl
        · rw [if_neg hne, Option.isSome_map]
          exact renderCellValue_isSome fuel _ _ (by omega)
    | null =>
      rw [renderSimpleEntry, Option.isSome_map]
      all_goals try (intro a ha; exact Json.noConfusion ha)
      exact renderCellValue_isSome fuel _ _ (by omega)
    | bool b =>
      rw [renderSimpleEntry, Option.isSome_map]
      all_goals try (intro a ha; exact Json.noConfusion ha)
      exact renderCellValue_isSome fuel _ _ (by omega)
    | num n =>
      rw [renderSimpleEntry, Option.isSome_map]
      all_goals try (intro a ha; exact Json.noConfusion ha)
      exact renderCellValue_isSome fuel _ _ (by omega)
    | str s =>
      rw [renderSimpleEntry, Option.isSome_map]
      all_goals try (intro a ha; exact Json.noConfusion ha)
      exact renderCellValue_isSome fuel _ _ (by omega)

theorem renderCellOpt_isSome : ∀ (fuel : Nat) (c : Option Json)
    (pk : Option String),
    3 * jweightO c + 3 ≤ fuel → (renderCellOpt fuel c pk).isSome = true
  | 0, none, _, h => by simp [jweightO] at h
  | 0, some v, _, h => by have := jweight_pos v; simp [jweightO] at h
  | fuel + 1, none, _, _ => rfl
  | fuel + 1, some v, pk, h => by
    rw [renderCellOpt]
    exact renderCell_isSome fuel v pk (by simp [jweightO] at h; omega)

theorem renderCellValueOpt_isSome : ∀ (fuel : Nat) (c : Option Json)
    (pk : Option String),
    3 * jweightO c + 4 ≤ fuel → (renderCellValueOpt fuel c pk).isSome = true
  | 0, none, _, h => by simp [jweightO] at h
  | 0, some v, _, h => by have := jweight_pos v; simp [jweightO] at h
  | fuel + 1, none, _, _ => rfl
  | fuel + 1, some v, pk, h => by
    rw [renderCellValueOpt]
    exact renderCellValue_isSome fuel v pk (by simp [jweightO] at h; omega)

theorem renderCellValue_isSome : ∀ (fuel : Nat) (v : Json) (pk : Option String),
    3 * jweight v + 3 ≤ fuel → (renderCellValue fuel v pk).isSome = true
  | 0, v, _, h => by have := jweight_pos v; omega
  | fuel + 1, v, pk, h => by
    cases v with
    | null => rfl
    | bool b => rfl
    | num n => rfl
    | str s => rfl
    | arr xs =>
      rw [renderCellValue]
      exact renderCell_isSome fuel _ _ (by omega)
    | obj fs =>
      rw [renderCellValue]
      exact renderCell_isSome fuel _ _ (by omega)

end

/-- **C9.** For every JSON value `v` — including deeply nested, mixed-type
and empty collections — the fueled page renderer succeeds (returns `some`)
when run with fuel `viewFuel v`, so `buildViewModel v` is the render tree it
produces and no case of the recursion falls through without a result: the
render pipeline is total on parsed values. -/
theorem buildViewModel_total (v : Json) :
    renderTop (viewFuel v) v = some (buildViewModel v) := by
  obtain ⟨r, hr⟩ := Option.isSome_iff_exists.mp
    (renderTop_isSome (viewFuel v) v (by rw [viewFuel]))
  rw [buildViewModel, hr]
  rfl

theorem covers_arr {r : RenderNode} {xs : List Json}
    (hself : TargetAOO (.arr xs) → Shows r (.arr xs))
    (helem : ∀ x ∈ xs, Covers r x)
    (hprim : xs ≠ [] → xs.all isPrim = true → ∀ x ∈ xs, Shows r x) :
    Covers r (.arr xs) := by
  constructor
  · intro w ho ht
    cases ho with
    | refl =>
      rcases ht with h | ⟨fs, hfs, _⟩
      · exact hself h
      · exact Json.noConfusion hfs
    | arrMem hm hocc => exact (helem _ hm).1 w hocc ht
  · intro ys x ho hne hp hx
    cases ho with
    | refl => exact hprim hne hp x hx
    | arrMem hm hocc => exact (helem _ hm).2 ys x hocc hne hp hx

theorem covers_obj {r : RenderNode} {fs : List (String × Json)}
    (hself : fs ≠ [] → Shows r (.obj fs))
    (hfield : ∀ k v, (k, v) ∈ fs → Covers r v) :
    Covers r (.obj fs) := by
  constructor
  · intro w ho ht
    cases ho with
    | refl =>
      rcases ht with ⟨ys, hys, _⟩ | ⟨gs, hgs, hgne⟩
      · exact Json.noConfusion hys
      · injection hgs with h2
        subst h2
        exact hself hgne
    | objMem hm hocc => exact (hfield _ _ hm).1 w hocc ht
  · intro ys x ho hne hp hx
    cases ho with
    | objMem hm hocc => exact (hfield _ _ hm).2 ys x hocc hne hp hx

theorem covers_prim {r : RenderNode} {v : Json} (h : isPrim v = true) :
    Covers r v := by
  apply inert_covers
  cases v <;> first | rfl | simp [isPrim] at h

theorem strictObj_shape {x : Json} (h : isStrictObj x = true) :
    ∃ gfs, x = Json.obj gfs := by
  cases x <;> first | exact ⟨_, rfl⟩ | simp [isStrictObj] at h

theorem isObjLike_of_isStrictObj {x : Json} (h : isStrictObj x = true) :
    isObjLike x = true := by
  cases x <;> first | rfl | simp [isStrictObj] at h

theorem targetAOO_isQual {xs : List Json} (h : TargetAOO (.arr xs)) :
    isQualArray (.arr xs) = true := by
  obtain ⟨ys, hys, hne, hall⟩ := h
  injection hys with h2
  subst h2
  rw [isQualArray, Bool.and_eq_true]
  constructor
  · cases xs with
    | nil => exact absurd rfl hne
    | cons a as => rfl
  · rw [List.all_eq_true] at hall ⊢
    exact fun x hx => isObjLike_of_isStrictObj (hall x hx)

theorem isQual_shape {y : Json} (h : isQualArray y = true) :
    ∃ vs, y = Json.arr vs ∧ vs ≠ [] ∧ vs.all isObjLike = true := by
  cases y with
  | arr vs =>
    rw [isQualArray, Bool.and_eq_true] at h
    refine ⟨vs, rfl, ?_, h.2⟩
    cases vs with
    | nil => simp at h
    | cons a as => exact List.cons_ne_nil a as
  | null => simp [isQualArray] at h
  | bool b => simp [isQualArray] at h
  | num n => simp [isQualArray] at h
  | str s => simp [isQualArray] at h
  | obj fs => simp [isQualArray] at h

theorem zip_map_self_mem {α β : Type} (f : α → β) : ∀ {l : List α} {a : α},
    a ∈ l → (a, f a) ∈ l.zip (l.map f)
  | [], a, ha => absurd ha (List.not_mem_nil a)
  | b :: l, a, ha => by
    rw [List.map_cons, List.zip_cons_cons]
    rcases List.mem_cons.mp ha with rfl | ha2
    · exact List.mem_cons_self _ _
    · exact List.mem_cons_of_mem _ (zip_map_self_mem f ha2)

theorem mem_sortPV {l : List (String × Json)} {p : String × Json} (hm : p ∈ l)
    (hk : p.1 = "Packages" ∨ p.1 = "Vulnerabilities") : p ∈ sortPV l := by
  rw [sortPV, List.mem_append]
  rcases hk with h | h
  · exact Or.inr (List.mem_filter.mpr ⟨hm, by rw [h]; rfl⟩)
  · exact Or.inl (List.mem_filter.mpr ⟨hm, by rw [h]; rfl⟩)

theorem renderCellValue_prim_eq : ∀ {fuel : Nat} {x : Json} {pk : Option String}
    {rx : RenderNode}, renderCellValue fuel x pk = some rx → isPrim x = true →
    rx = RenderNode.scalar x
  | 0, x, pk, rx, h, _ => Option.noConfusion h
  | fuel + 1, .null, _, rx, h, _ => by
    have h2 : some (RenderNode.scalar .null) = some rx := h
    injection h2 with h3
    exact h3.symm
  | fuel + 1, .bool b, _, rx, h, _ => by
    have h2 : some (RenderNode.scalar (.bool b)) = some rx := h
    injection h2 with h3
    exact h3.symm
  | fuel + 1, .num n, _, rx, h, _ => by
    have h2 : some (RenderNode.scalar (.num n)) = some rx := h
    injection h2 with h3
    exact h3.symm
  | fuel + 1, .str s, _, rx, h, _ => by
    have h2 : some (RenderNode.scalar (.str s)) = some rx := h
    injection h2 with h3
    exact h3.symm
  | fuel + 1, .arr xs, _, rx, h, hp => by simp [isPrim] at hp
  | fuel + 1, .obj fs, _, rx, h, hp => by simp [isPrim] at hp

theorem covers_elem_objrow {r : RenderNode} {gfs : List (String × Json)}
    {headers E : List String} {row : List (Option Json)}
    (hgood : goodPV (.obj gfs) = true) (hwf : wfKeys (.obj gfs) = true)
    (hsrc : r.srcOf = some (.obj gfs))
    (hrow : ∀ k2 ∈ headers, (k2, gfs.lookup k2) ∈ headers.zip row)
    (hhdr : ∀ k2, k2 ∈ gfs.map Prod.fst → k2 ∉ E → k2 ∈ headers)
    (hE : ∀ k2 ∈ E, k2 = "Packages" ∨ k2 = "Vulnerabilities")
    (hcells : ∀ p ∈ headers.zip row, ∀ w, p.2 = some w →
        goodPV w = true → wfKeys w = true → Covers r w)
    (hexc : ∀ k2 y, (k2, y) ∈ gfs → k2 ∈ E → isQualArray y = true → Covers r y) :
    Covers r (.obj gfs) := by
  apply covers_obj
  · intro _
    exact shows_self hsrc
  · intro k y hm
    have hgy : goodPV y = true := (goodPVFields_mem hgood hm).1
    have hwy : wfKeys y = true := wfKeysFields_mem (wfKeys_obj_fields hwf) hm
    by_cases hkE : k ∈ E
    · have hpv : pvOK y = true := (goodPVFields_mem hgood hm).2 (hE k hkE)
      rw [pvOK, Bool.or_eq_true] at hpv
      rcases hpv with hq | hin
      · exact hexc k y hm hkE hq
      · exact inert_covers r y hin
    · have hk2 : k ∈ headers := hhdr k (List.mem_map.mpr ⟨(k, y), hm, rfl⟩) hkE
      have hlk : gfs.lookup k = some y := lookup_eq_of_mem hm (wfKeys_obj_nodup hwf)
      have hzip := hrow k hk2
      rw [hlk] at hzip
      exact hcells (k, some y) hzip y rfl hgy hwy

theorem covers_arr_table {r : RenderNode} {xs : List Json} {E : List String}
    (hE : ∀ k ∈ E, k = "Packages" ∨ k = "Vulnerabilities")
    (hsrc : r.srcOf = some (.arr xs))
    (hg : goodPV (.arr xs) = true) (hw : wfKeys (.arr xs) = true)
    (hchild : ∀ x row, (x, row) ∈ xs.zip (getTableStructure (.arr xs) E).rows →
        ∃ rn ∈ r.children, rn.srcOf = some x
          ∧ (∀ p ∈ (getTableStructure (.arr xs) E).headers.zip row, ∀ w,
              p.2 = some w → goodPV w = true → wfKeys w = true → Covers rn w)
          ∧ (∀ k2 y, pvLookup x k2 = some y → k2 ∈ E → isQualArray y = true →
              Covers rn y)) :
    Covers r (.arr xs) := by
  apply covers_arr
  · intro _
    exact shows_self hsrc
  · intro x hx
    have hne : xs ≠ [] := List.ne_nil_of_mem hx
    obtain ⟨row, hmem⟩ := zip_mem_left (grid_rows_len xs E) hx
    obtain ⟨rn, hrn, hsrcx, hcellsx, hexcx⟩ := hchild x row hmem
    have hgx : goodPV x = true := goodPVList_mem hg hx
    have hwx : wfKeys x = true := wfKeysList_mem hw hx
    by_cases hall : xs.all isStrictObj = true
    · obtain ⟨gfs, rfl⟩ := strictObj_shape (List.all_eq_true.mp hall x hx)
      rw [getTableStructure_objArray hne hall] at hmem hcellsx
      have hrow := zip_map_eq _ hmem
      subst hrow
      apply covers_of_child hrn
      refine covers_elem_objrow hgx hwx hsrcx ?_ ?_ hE hcellsx ?_
      · intro k2 hk2
        exact zip_map_self_mem _ hk2
      · intro k2 hk2 hkE
        show k2 ∈ sortKeys (collectKeys E [] xs)
        rw [mem_sortKeys, mem_collectKeys]
        exact Or.inr ⟨gfs, hx, hk2, hkE⟩
      · intro k2 y hm2 hkE hq
        exact hexcx k2 y (lookup_eq_of_mem hm2 (wfKeys_obj_nodup hwx)) hkE hq
    · rw [getTableStructure] at hmem hcellsx
      rw [if_neg (by simpa using hne), if_neg hall] at hmem hcellsx
      rw [show List.enum xs = List.enumFrom 0 xs from rfl] at hmem
      obtain ⟨i, hrow⟩ := zip_enumFrom_map_eq _ hmem
      subst hrow
      apply covers_of_child hrn
      exact hcellsx ("Value", some x)
        (List.mem_cons_of_mem _ (List.mem_cons_self _ _)) x rfl hgx hwx
  · intro hne hp x hx
    obtain ⟨row, hmem⟩ := zip_mem_left (grid_rows_len xs E) hx
    obtain ⟨rn, hrn, hsrcx, _, _⟩ := hchild x row hmem
    exact shows_of_child hrn (shows_self hsrcx)

theorem bindSome_dest {α β : Type} {e : Option α} {f : α → Option β} {b : β}
    (h : e >>= f = some b) : ∃ a, e = some a ∧ f a = some b := by
  cases e with
  | none => exact Option.noConfusion h
  | some a => exact ⟨a, rfl, h⟩

theorem mapSome_dest {α β : Type} {e : Option α} {f : α → β} {b : β}
    (h : f <$> e = some b) : ∃ a, e = some a ∧ f a = b := by
  cases e with
  | none => exact Option.noConfusion h
  | some a =>
    refine ⟨a, rfl, ?_⟩
    have h2 : some (f a) = some b := h
    injection h2

theorem renderNestedTable_obj_none : ∀ {fuel : Nat} {k : String}
    {gs : List (String × Json)} {t : Option RenderNode},
    renderNestedTable fuel k (.obj gs) = some t → t = none
  | 0, _, _, _, h => Option.noConfusion h
  | fuel + 1, k, gs, t, h => by
    have h2 : some (none : Option RenderNode) = some t := h
    injection h2 with h3
    exact h3.symm

theorem covers_kvgrid {r : RenderNode} {fs : List (String × Json)}
    (hsrc : r.srcOf = some (.obj fs))
    (hg : goodPV (.obj fs) = true) (hw : wfKeys (.obj fs) = true)
    (hchild : ∀ k y, (k, y) ∈ fs → ∃ rn ∈ r.children,
        ∀ p ∈ (getTableStructure (.obj fs) []).headers.zip
          [some (Json.str k), some y],
          ∀ w, p.2 = some w → goodPV w = true → wfKeys w = true → Covers rn w) :
    Covers r (.obj fs) := by
  apply covers_obj
  · intro _
    exact shows_self hsrc
  · intro k y hm
    obtain ⟨rn, hrn, hc⟩ := hchild k y hm
    apply covers_of_child hrn
    exact hc ("Value", some y) (List.mem_cons_of_mem _ (List.mem_cons_self _ _)) y rfl
      ((goodPVFields_mem hg hm).1) (wfKeysFields_mem (wfKeys_obj_fields hw) hm)

mutual

theorem renderTop_covers : ∀ (fuel : Nat) (v : Json) (r : RenderNode),
    renderTop fuel v = some r → goodPV v = true → wfKeys v = true → Covers r v
  | 0, v, r, h, _, _ => Option.noConfusion h
  | fuel + 1, v, r, h, hg, hw => by
    cases v with
    | null => exact covers_prim rfl
    | bool b => exact covers_prim rfl
    | num n => exact covers_prim rfl
    | str s => exact covers_prim rfl
    | arr xs =>
      rw [renderTop, if_pos (show canDisplayAsTable (Json.arr xs) = true from rfl)] at h
      obtain ⟨rows, hrows, h2⟩ := bindSome_dest h
      have h3 : some (RenderNode.table "Table" (.arr xs)
          (getTableStructure (.arr xs) []).headers rows) = some r := h2
      injection h3 with h4
      subst h4
      refine covers_arr_table (fun k hk => absurd hk (List.not_mem_nil k)) rfl hg hw ?_
      intro x row hmem
      obtain ⟨rn, hrn, hre⟩ := mapO_mem hrows (x, row) hmem
      obtain ⟨hsrcx, hcellsx⟩ := renderCollRow_covers fuel _ _ _ _ hre
      exact ⟨rn, hrn, hsrcx, hcellsx, fun k2 y _ hkE _ => absurd hkE (List.not_mem_nil k2)⟩
    | obj fs =>
      rw [renderTop, if_pos (show canDisplayAsTable (Json.obj fs) = true from rfl)] at h
      by_cases hn : fs.any (fun p => isNestedStructure p.2) = true
      · rw [if_pos hn] at h
        obtain ⟨sections, hs, h2⟩ := bindSome_dest h
        have h3 : some (RenderNode.section (.obj fs) sections) = some r := h2
        injection h3 with h4
        subst h4
        apply covers_obj
        · intro _
          exact shows_self rfl
        · intro k y hm
          obtain ⟨sn, hsn, hse⟩ := mapO_mem hs (k, y) hm
          apply covers_of_child (show sn ∈ sections from hsn)
          exact renderTopEntry_covers fuel (k, y) sn hse
            ((goodPVFields_mem hg hm).1) (wfKeysFields_mem (wfKeys_obj_fields hw) hm)
      · rw [if_neg hn] at h
        obtain ⟨rows, hrows, h2⟩ := bindSome_dest h
        have h3 : some (RenderNode.kvGrid "Table" (.obj fs)
            (getTableStructure (.obj fs) []).headers rows) = some r := h2
        injection h3 with h4
        subst h4
        refine covers_kvgrid rfl hg hw ?_
        intro k y hm
        have hrmem : [some (Json.str k), some y]
            ∈ (getTableStructure (.obj fs) []).rows := by
          rw [grid_obj_nil]
          exact List.mem_map.mpr ⟨(k, y), hm, rfl⟩
        obtain ⟨rn, hrn, hre⟩ := mapO_mem hrows _ hrmem
        exact ⟨rn, hrn, (renderCollRow_covers fuel _ _ _ _ hre).2⟩

theorem renderTopEntry_covers : ∀ (fuel : Nat) (p : String × Json) (r : RenderNode),
    renderTopEntry fuel p = some r → goodPV p.2 = true → wfKeys p.2 = true →
    Covers r p.2
  | 0, _, r, h, _, _ => Option.noConfusion h
  | fuel + 1, (k, v), r, h, hg, hw => by
    cases v with
    | null => exact covers_prim rfl
    | bool b => exact covers_prim rfl
    | num n => exact covers_prim rfl
    | str s => exact covers_prim rfl
    | arr ys =>
      rw [renderTopEntry] at h
      all_goals try (intro a ha; exact Json.noConfusion ha)
      by_cases hn : isNestedStructure (Json.arr ys) = true
      · rw [if_pos hn] at h
        obtain ⟨t, ht, h2⟩ := bindSome_dest h
        have hq : isQualArray (.arr ys) = true := by
          rw [isNestedStructure, Bool.and_eq_true] at hn
          rw [isQualArray, Bool.and_eq_true]
          refine ⟨?_, hn.2⟩
          cases ys with
          | nil => simp at hn
          | cons a as => rfl
        obtain ⟨node, rfl, hcov, _⟩ := renderNestedTable_covers fuel _ _ _ ht hq hg hw
        have h3 : some node = some r := h2
        injection h3 with h4
        subst h4
        exact hcov
      · rw [if_neg hn] at h
        obtain ⟨c, hc, h2⟩ := mapSome_dest h
        subst h2
        exact covers_of_child (List.mem_cons_self _ _)
          (renderCell_covers fuel _ _ _ hc hg hw)
    | obj gs =>
      rw [renderTopEntry] at h
      all_goals try (intro a ha; exact Json.noConfusion ha)
      by_cases hn : isNestedStructure (Json.obj gs) = true
      · rw [if_pos hn] at h
        obtain ⟨t, ht, h2⟩ := bindSome_dest h
        have ht0 : t = none := renderNestedTable_obj_none ht
        subst ht0
        obtain ⟨rows, hrows, h3⟩ := bindSome_dest h2
        have h4 : some (RenderNode.kvGrid k (.obj gs)
            (getTableStructure (.obj gs) []).headers rows) = some r := h3
        injection h4 with h5
        subst h5
        refine covers_kvgrid rfl hg hw ?_
        intro k2 y hm
        have hrmem : [some (Json.str k2), some y]
            ∈ (getTableStructure (.obj gs) []).rows := by
          rw [grid_obj_nil]
          exact List.mem_map.mpr ⟨(k2, y), hm, rfl⟩
        obtain ⟨rn, hrn, hre⟩ := mapO_mem hrows _ hrmem
        exact ⟨rn, hrn, (renderCollRow_covers fuel _ _ _ _ hre).2⟩
      · rw [if_neg hn] at h
        obtain ⟨c, hc, h2⟩ := mapSome_dest h
        subst h2
        exact covers_of_child (List.mem_cons_self _ _)
          (renderCell_covers fuel _ _ _ hc hg hw)

theorem renderNestedTable_covers : ∀ (fuel : Nat) (key : String) (xs : List Json)
    (t : Option RenderNode), renderNestedTable fuel key (.arr xs) = some t →
    isQualArray (.arr xs) = true → goodPV (.arr xs) = true →
    wfKeys (.arr xs) = true →
    ∃ node, t = some node ∧ Covers node (.arr xs)
      ∧ RenderNode.srcOf node = some (.arr xs)
  | 0, _, _, _, h, _, _, _ => Option.noConfusion h
  | fuel + 1, key, xs, t, h, hq, hg, hw => by
    rw [renderNestedTable] at h
    all_goals try (intro a ha; exact Json.noConfusion ha)
    rw [if_pos (show (!xs.isEmpty && xs.all isObjLike) = true from hq)] at h
    obtain ⟨rows, hrows, h2⟩ := bindSome_dest h
    have h3 : some (some (RenderNode.table key (.arr xs)
        (getTableStructure (.arr xs) (renderNestedExcludeKeys key)).headers rows))
        = some t := h2
    injection h3 with h4
    subst h4
    refine ⟨_, rfl, ?_, rfl⟩
    have hEkey : ∀ k2 ∈ renderNestedExcludeKeys key,
        k2 = "Packages" ∨ k2 = "Vulnerabilities" := by
      intro k2 hk2
      rw [renderNestedExcludeKeys] at hk2
      by_cases hres : key = "Results"
      · rw [if_pos hres] at hk2
        rcases List.mem_cons.mp hk2 with rfl | hk3
        · exact Or.inl rfl
        · rcases List.mem_cons.mp hk3 with rfl | hk4
          · exact Or.inr rfl
          · exact absurd hk4 (List.not_mem_nil k2)
      · rw [if_neg hres] at hk2
        exact absurd hk2 (List.not_mem_nil k2)
    refine covers_arr_table hEkey rfl hg hw ?_
    intro x row hmem
    obtain ⟨rn, hrn, hre⟩ := mapO_mem hrows (x, row) hmem
    obtain ⟨hsrcx, hcellsx, hpv⟩ := renderTableRow_covers fuel _ _ _ _ hre
    refine ⟨rn, hrn, hsrcx, hcellsx, ?_⟩
    intro k2 y hlk hkE hq2
    have hx : x ∈ xs := (List.of_mem_zip hmem).1
    have hgx : goodPV x = true := goodPVList_mem hg hx
    have hwx : wfKeys x = true := wfKeysList_mem hw hx
    obtain ⟨gfs2, rfl, hm2⟩ := pvLookup_mem hlk
    have hgy : goodPV y = true := (goodPVFields_mem hgx hm2).1
    have hwy : wfKeys y = true := wfKeysFields_mem (wfKeys_obj_fields hwx) hm2
    obtain ⟨vs, rfl, hvne, _⟩ := isQual_shape hq2
    have hkor : k2 = "Vulnerabilities" ∨ k2 = "Packages" := by
      rw [renderNestedExcludeKeys] at hkE
      by_cases hres : key = "Results"
      · rw [if_pos hres] at hkE
        rcases List.mem_cons.mp hkE with rfl | hk3
        · exact Or.inr rfl
        · rcases List.mem_cons.mp hk3 with rfl | hk4
          · exact Or.inl rfl
          · exact absurd hk4 (List.not_mem_nil k2)
      · rw [if_neg hres] at hkE
        exact absurd hkE (List.not_mem_nil k2)
    exact hpv k2 vs hkor hlk hvne hgy hwy

theorem renderTableRow_covers : ∀ (fuel : Nat) (headers : List String) (item : Json)
    (rowCells : List (Option Json)) (r : RenderNode),
    renderTableRow fuel headers item rowCells = some r →
    r.srcOf = some item
    ∧ (∀ p ∈ headers.zip rowCells, ∀ w, p.2 = some w →
        goodPV w = true → wfKeys w = true → Covers r w)
    ∧ (∀ k2 vs, (k2 = "Vulnerabilities" ∨ k2 = "Packages") →
        pvLookup item k2 = some (.arr vs) → vs ≠ [] → goodPV (.arr vs) = true →
        wfKeys (.arr vs) = true → Covers r (.arr vs))
  | 0, _, _, _, _, h => Option.noConfusion h
  | fuel + 1, headers, item, rowCells, r, h => by
    rw [renderTableRow] at h
    obtain ⟨cells, hcells, h2⟩ := bindSome_dest h
    obtain ⟨extras, hex, h3⟩ := bindSome_dest h2
    have h4 : some (RenderNode.row item cells extras) = some r := h3
    injection h4 with h5
    subst h5
    refine ⟨rfl, ?_, ?_⟩
    · intro p hp w hpw hgw hww
      obtain ⟨c, hc, hce⟩ := mapO_mem hcells p hp
      apply covers_of_child (show c ∈ cells ++ extras from List.mem_append_left _ hc)
      exact renderCellValueOpt_covers fuel p.2 (some p.1) c hce w hpw hgw hww
    · intro k2 vs hkor hlk hvne hgv hwv
      obtain ⟨n, hn, hcov⟩ := pvExtras_covers fuel item extras hex k2 vs hkor hlk hvne hgv hwv
      exact covers_of_child
        (show n ∈ cells ++ extras from List.mem_append_right _ hn) hcov

theorem pvExtras_covers : ∀ (fuel : Nat) (item : Json) (es : List RenderNode),
    pvExtras fuel item = some es →
    ∀ k2 vs, (k2 = "Vulnerabilities" ∨ k2 = "Packages") →
      pvLookup item k2 = some (.arr vs) → vs ≠ [] → goodPV (.arr vs) = true →
      wfKeys (.arr vs) = true → ∃ n ∈ es, Covers n (.arr vs)
  | 0, _, _, h => Option.noConfusion h
  | fuel + 1, item, es, h => by
    rw [pvExtras] at h
    obtain ⟨e1, he1, h2⟩ := bindSome_dest h
    obtain ⟨e2, he2, h3⟩ := bindSome_dest h2
    have h4 : some (e1 ++ e2) = some es := h3
    injection h4 with h5
    subst h5
    intro k2 vs hkor hlk hvne hgv hwv
    rcases hkor with rfl | rfl
    · obtain ⟨n, hn, hcov⟩ := pvCollapsible_covers fuel _ _ _ _ he1 vs hlk hvne hgv hwv
      exact ⟨n, List.mem_append_left _ hn, hcov⟩
    · obtain ⟨n, hn, hcov⟩ := pvCollapsible_covers fuel _ _ _ _ he2 vs hlk hvne hgv hwv
      exact ⟨n, List.mem_append_right _ hn, hcov⟩

theorem pvCollapsible_covers : ∀ (fuel : Nat) (key : String) (idx : Nat)
    (c : Option Json) (ns : List RenderNode),
    pvCollapsible fuel key idx c = some ns →
    ∀ vs, c = some (.arr vs) → vs ≠ [] → goodPV (.arr vs) = true →
      wfKeys (.arr vs) = true → ∃ n ∈ ns, Covers n (.arr vs)
  | 0, _, _, _, _, h => Option.noConfusion h
  | fuel + 1, key, idx, c, ns, h => by
    intro vs hc hvne hgv hwv
    subst hc
    rw [pvCollapsible] at h
    all_goals try (intro a ha; exact Json.noConfusion ha)
    have hne2 : (!vs.isEmpty) = true := by
      cases vs with
      | nil => exact absurd rfl hvne
      | cons a as => rfl
    rw [if_pos hne2] at h
    obtain ⟨node, hnode, h2⟩ := mapSome_dest h
    subst h2
    obtain ⟨hcov, _⟩ := renderCollapsibleTable_covers fuel key idx vs node hnode hgv hwv
    exact ⟨node, List.mem_cons_self _ _, hcov⟩

theorem renderCollapsibleTable_covers : ∀ (fuel : Nat) (key : String) (idx : Nat)
    (xs : List Json) (r : RenderNode),
    renderCollapsibleTable fuel key idx xs = some r →
    goodPV (.arr xs) = true → wfKeys (.arr xs) = true →
    Covers r (.arr xs) ∧ r.srcOf = some (.arr xs)
  | 0, _, _, _, _, h, _, _ => Option.noConfusion h
  | fuel + 1, key, idx, xs, r, h, hg, hw => by
    rw [renderCollapsibleTable] at h
    obtain ⟨rows, hrows, h2⟩ := bindSome_dest h
    have h3 : some (RenderNode.collapsibleTable key idx xs
        (getTableStructure (.arr xs) []).headers rows) = some r := h2
    injection h3 with h4
    subst h4
    refine ⟨?_, rfl⟩
    refine covers_arr_table (fun k hk => absurd hk (List.not_mem_nil k)) rfl hg hw ?_
    intro x row hmem
    obtain ⟨rn, hrn, hre⟩ := mapO_mem hrows (x, row) hmem
    obtain ⟨hsrcx, hcellsx⟩ := renderCollRow_covers fuel _ _ _ _ hre
    exact ⟨rn, hrn, hsrcx, hcellsx, fun k2 y _ hkE _ => absurd hkE (List.not_mem_nil k2)⟩

theorem renderCollRow_covers : ∀ (fuel : Nat) (headers : List String) (item : Json)
    (rowCells : List (Option Json)) (r : RenderNode),
    renderCollRow fuel headers item rowCells = some r →
    r.srcOf = some item
    ∧ (∀ p ∈ headers.zip rowCells, ∀ w, p.2 = some w →
        goodPV w = true → wfKeys w = true → Covers r w)
  | 0, _, _, _, _, h => Option.noConfusion h
  | fuel + 1, headers, item, rowCells, r, h => by
    rw [renderCollRow] at h
    obtain ⟨cells, hcells, h2⟩ := bindSome_dest h
    have h3 : some (RenderNode.row item cells []) = some r := h2
    injection h3 with h4
    subst h4
    refine ⟨rfl, ?_⟩
    intro p hp w hpw hgw hww
    obtain ⟨c, hc, hce⟩ := mapO_mem hcells p hp
    apply covers_of_child (show c ∈ cells ++ [] from List.mem_append_left _ hc)
    exact renderCellOpt_covers fuel p.2 (some p.1) c hce w hpw hgw hww

theorem renderCell_covers : ∀ (fuel : Nat) (v : Json) (pk : Option String)
    (r : RenderNode), renderCell fuel v pk = some r →
    goodPV v = true → wfKeys v = true → Covers r v
  | 0, _, _, _, h, _, _ => Option.noConfusion h
  | fuel + 1, v, pk, r, h, hg, hw => by
    cases v with
    | null => exact covers_prim rfl
    | bool b => exact covers_prim rfl
    | num n => exact covers_prim rfl
    | str s => exact covers_prim rfl
    | arr xs =>
      rw [renderCell] at h
      all_goals try (intro a ha; exact Json.noConfusion ha)
      by_cases hq : (!xs.isEmpty && xs.all isObjLike) = true
      · rw [if_pos hq] at h
        by_cases hp1 : pk = some "Packages"
        · rw [if_pos hp1] at h
          exact (renderCollapsibleTable_covers fuel _ _ _ _ h hg hw).1
        · rw [if_neg hp1] at h
          by_cases hp2 : pk = some "Vulnerabilities"
          · rw [if_pos hp2] at h
            exact (renderCollapsibleTable_covers fuel _ _ _ _ h hg hw).1
          · rw [if_neg hp2] at h
            obtain ⟨t, ht, h2⟩ := bindSome_dest h
            obtain ⟨node, rfl, hcov, _⟩ := renderNestedTable_covers fuel _ _ _ ht hq hg hw
            have h3 : some node = some r := h2
            injection h3 with h4
            subst h4
            exact hcov
      · rw [if_neg hq] at h
        by_cases hne : (!xs.isEmpty) = true
        · rw [if_pos hne] at h
          obtain ⟨items, hitems, h2⟩ := bindSome_dest h
          have h3 : some (RenderNode.badges items) = some r := h2
          injection h3 with h4
          subst h4
          apply covers_arr
          · intro hT
            exact absurd (targetAOO_isQual hT) hq
          · intro x hx
            obtain ⟨rx, hrx, hre⟩ := mapO_mem hitems x hx
            apply covers_of_child (show rx ∈ items from hrx)
            exact renderCellValue_covers fuel x pk rx hre
              (goodPVList_mem hg hx) (wfKeysList_mem hw hx)
          · intro _ hprim x hx
            obtain ⟨rx, hrx, hre⟩ := mapO_mem hitems x hx
            have hsc := renderCellValue_prim_eq hre (List.all_eq_true.mp hprim x hx)
            subst hsc
            exact shows_of_child (show RenderNode.scalar x ∈ items from hrx)
              (shows_self rfl)
        · rw [if_neg hne] at h
          have hxs : xs = [] := by
            cases xs with
            | nil => rfl
            | cons a as => simp at hne
          subst hxs
          exact inert_covers r (.arr []) rfl
    | obj fs =>
      rw [renderCell] at h
      all_goals try (intro a ha; exact Json.noConfusion ha)
      by_cases hqa : fs.any (fun p => isQualArray p.2) = true
      · rw [if_pos hqa] at h
        by_cases hpv : fs.any (fun p => p.1 == "Packages" || p.1 == "Vulnerabilities") = true
        · rw [if_pos hpv] at h
          obtain ⟨others, hoth, h2⟩ := bindSome_dest h
          obtain ⟨tables, htab, h3⟩ := bindSome_dest h2
          have h4 : some (RenderNode.panel (.obj fs) (others ++ tables)) = some r := h3
          injection h4 with h5
          subst h5
          apply covers_obj
          · intro _
            exact shows_self rfl
          · intro k y hm
            have hgy : goodPV y = true := (goodPVFields_mem hg hm).1
            have hwy : wfKeys y = true := wfKeysFields_mem (wfKeys_obj_fields hw) hm
            by_cases hk : (k = "Packages" ∨ k = "Vulnerabilities")
            · have hpvy : pvOK y = true := (goodPVFields_mem hg hm).2 hk
              rw [pvOK, Bool.or_eq_true] at hpvy
              rcases hpvy with hqy | hiy
              · obtain ⟨vs, rfl, hvne, _⟩ := isQual_shape hqy
                have hmf : (k, Json.arr vs) ∈ fs.filter
                    (fun p => (p.1 == "Packages" || p.1 == "Vulnerabilities")
                      && isQualArray p.2) :=
                  List.mem_filter.mpr ⟨hm, by rcases hk with rfl | rfl <;> simp [hqy]⟩
                have hms := mem_sortPV hmf hk
                obtain ⟨tn, htn, hte⟩ := mapO_mem htab _ hms
                apply covers_of_child
                  (show tn ∈ others ++ tables from List.mem_append_right _ htn)
                exact renderPVEntry_covers fuel k vs tn hte hgy hwy
              · exact inert_covers _ y hiy
            · have hmf : (k, y) ∈ fs.filter
                  (fun p => !(p.1 == "Packages") && !(p.1 == "Vulnerabilities")) := by
                refine List.mem_filter.mpr ⟨hm, ?_⟩
                push_neg at hk
                rw [Bool.and_eq_true, Bool.not_eq_true', Bool.not_eq_true']
                exact ⟨beq_eq_false_iff_ne.mpr hk.1, beq_eq_false_iff_ne.mpr hk.2⟩
              obtain ⟨onode, hon, hoe⟩ := mapO_mem hoth _ hmf
              apply covers_of_child
                (show onode ∈ others ++ tables from List.mem_append_left _ hon)
              exact renderOtherEntry_covers fuel (k, y) onode hoe hgy hwy
        · rw [if_neg hpv] at h
          obtain ⟨children, hch, h2⟩ := bindSome_dest h
          have h3 : some (RenderNode.panel (.obj fs) children) = some r := h2
          injection h3 with h4
          subst h4
          apply covers_obj
          · intro _
            exact shows_self rfl
          · intro k y hm
            obtain ⟨cn, hcn, hce⟩ := mapO_mem hch _ hm
            apply covers_of_child (show cn ∈ children from hcn)
            exact renderGenEntry_covers fuel (k, y) cn hce
              ((goodPVFields_mem hg hm).1) (wfKeysFields_mem (wfKeys_obj_fields hw) hm)
      · rw [if_neg hqa] at h
        obtain ⟨children, hch, h2⟩ := bindSome_dest h
        have h3 : some (RenderNode.panel (.obj fs) children) = some r := h2
        injection h3 with h4
        subst h4
        apply covers_obj
        · intro _
          exact shows_self rfl
        · intro k y hm
          obtain ⟨cn, hcn, hce⟩ := mapO_mem hch _ hm
          apply covers_of_child (show cn ∈ children from hcn)
          exact renderSimpleEntry_covers fuel (k, y) cn hce
            ((goodPVFields_mem hg hm).1) (wfKeysFields_mem (wfKeys_obj_fields hw) hm)

theorem renderPVEntry_covers : ∀ (fuel : Nat) (k : String) (ys : List Json)
    (r : RenderNode), renderPVEntry fuel (k, .arr ys) = some r →
    goodPV (.arr ys) = true → wfKeys (.arr ys) = true → Covers r (.arr ys)
  | 0, _, _, _, h, _, _ => Option.noConfusion h
  | fuel + 1, k, ys, r, h, hg, hw => by
    rw [renderPVEntry] at h
    all_goals try (intro a ha; exact Json.noConfusion ha)
    exact (renderCollapsibleTable_covers fuel _ _ _ _ h hg hw).1

theorem renderOtherEntry_covers : ∀ (fuel : Nat) (p : String × Json) (r : RenderNode),
    renderOtherEntry fuel p = some r → goodPV p.2 = true → wfKeys p.2 = true →
    Covers r p.2
  | 0, _, _, h, _, _ => Option.noConfusion h
  | fuel + 1, (k, v), r, h, hg, hw => by
    by_cases hq : isQualArray v = true
    · obtain ⟨vs, rfl, _, _⟩ := isQual_shape hq
      rw [renderOtherEntry] at h
      all_goals try (intro a ha; exact Json.noConfusion ha)
      rw [if_pos hq] at h
      obtain ⟨t, ht, h2⟩ := bindSome_dest h
      obtain ⟨node, rfl, hcov, _⟩ := renderNestedTable_covers fuel _ _ _ ht hq hg hw
      have h3 : some node = some r := h2
      injection h3 with h4
      subst h4
      exact hcov
    · cases v with
      | null => exact covers_prim rfl
      | bool b => exact covers_prim rfl
      | num n => exact covers_prim rfl
      | str s => exact covers_prim rfl
      | arr ys =>
        rw [renderOtherEntry] at h
        all_goals try (intro a ha; exact Json.noConfusion ha)
        rw [if_neg hq] at h
        obtain ⟨c, hc, h2⟩ := mapSome_dest h
        subst h2
        exact covers_of_child (List.mem_cons_self _ _)
          (renderCellValue_covers fuel _ _ _ hc hg hw)
      | obj gs =>
        rw [renderOtherEntry] at h
        all_goals try (intro a ha; exact Json.noConfusion ha)
        rw [if_neg hq] at h
        obtain ⟨c, hc, h2⟩ := mapSome_dest h
        subst h2
        exact covers_of_child (List.mem_cons_self _ _)
          (renderCell_covers fuel _ _ _ hc hg hw)

theorem renderGenEntry_covers : ∀ (fuel : Nat) (p : String × Json) (r : RenderNode),
    renderGenEntry fuel p = some r → goodPV p.2 = true → wfKeys p.2 = true →
    Covers r p.2
  | 0, _, _, h, _, _ => Option.noConfusion h
  | fuel + 1, (k, v), r, h, hg, hw => by
    cases v with
    | null => exact covers_prim rfl
    | bool b => exact covers_prim rfl
    | num n => exact covers_prim rfl
    | str s => exact covers_prim rfl
    | arr ys =>
      rw [renderGenEntry] at h
      all_goals try (intro a ha; exact Json.noConfusion ha)
      by_cases hq : isQualArray (.arr ys) = true
      · rw [if_pos hq] at h
        obtain ⟨t, ht, h2⟩ := bindSome_dest h
        obtain ⟨node, rfl, hcov, _⟩ := renderNestedTable_covers fuel _ _ _ ht hq hg hw
        have h3 : some node = some r := h2
        injection h3 with h4
        subst h4
        exact hcov
      · rw [if_neg hq] at h
        by_cases hne : (!ys.isEmpty) = true
        · rw [if_pos hne] at h
          obtain ⟨items, hitems, h2⟩ := bindSome_dest h
          have h3 : some (RenderNode.bulleted k items) = some r := h2
          injection h3 with h4
          subst h4
          apply covers_arr
          · intro hT
            exact absurd (targetAOO_isQual hT) hq
          · intro x hx
            obtain ⟨rx, hrx, hre⟩ := mapO_mem hitems x hx
            apply covers_of_child (show rx ∈ items from hrx)
            exact renderCellValue_covers fuel x _ rx hre
              (goodPVList_mem hg hx) (wfKeysList_mem hw hx)
          · intro _ hprim x hx
            obtain ⟨rx, hrx, hre⟩ := mapO_mem hitems x hx
            have hsc := renderCellValue_prim_eq hre (List.all_eq_true.mp hprim x hx)
            subst hsc
            exact shows_of_child (show RenderNode.scalar x ∈ items from hrx)
              (shows_self rfl)
        · rw [if_neg hne] at h
          have hxs : ys = [] := by
            cases ys with
            | nil => rfl
            | cons a as => simp at hne
          subst hxs
          exact inert_covers r (.arr []) rfl
    | obj gs =>
      rw [renderGenEntry] at h
      all_goals try (intro a ha; exact Json.noConfusion ha)
      obtain ⟨c, hc, h2⟩ := mapSome_dest h
      subst h2
      exact covers_of_child (List.mem_cons_self _ _)
        (renderCell_covers fuel _ _ _ hc hg hw)

theorem renderSimpleEntry_covers : ∀ (fuel : Nat) (p : String × Json) (r : RenderNode),
    renderSimpleEntry fuel p = some r → goodPV p.2 = true → wfKeys p.2 = true →
    Covers r p.2
  | 0, _, _, h, _, _ => Option.noConfusion h
  | fuel + 1, (k, v), r, h, hg, hw => by
    cases v with
    | null => exact covers_prim rfl
    | bool b => exact covers_prim rfl
    | num n => exact covers_prim rfl
    | str s => exact covers_prim rfl
    | arr ys =>
      rw [renderSimpleEntry] at h
      all_goals try (intro a ha; exact Json.noConfusion ha)
      by_cases hq : isQualArray (.arr ys) = true
      · rw [if_pos hq] at h
        obtain ⟨t, ht, h2⟩ := bindSome_dest h
        obtain ⟨node, rfl, hcov, _⟩ := renderNestedTable_covers fuel _ _ _ ht hq hg hw
        have h3 : some node = some r := h2
        injection h3 with h4
        subst h4
        exact hcov
      · rw [if_neg hq] at h
        by_cases hne : (!ys.isEmpty) = true
        · rw [if_pos hne] at h
          obtain ⟨items, hitems, h2⟩ := bindSome_dest h
          have h3 : some (RenderNode.bulleted k items) = some r := h2
          injection h3 with h4
          subst h4
          apply covers_arr
          · intro hT
            exact absurd (targetAOO_isQual hT) hq
          · intro x hx
            obtain ⟨rx, hrx, hre⟩ := mapO_mem hitems x hx
            apply covers_of_child (show rx ∈ items from hrx)
            exact renderCellValue_covers fuel x _ rx hre
              (goodPVList_mem hg hx) (wfKeysList_mem hw hx)
          · intro _ hprim x hx
            obtain ⟨rx, hrx, hre⟩ := mapO_mem hitems x hx
            have hsc := renderCellValue_prim_eq hre (List.all_eq_true.mp hprim x hx)
            subst hsc
            exact shows_of_child (show RenderNode.scalar x ∈ items from hrx)
              (shows_self rfl)
        · rw [if_neg hne] at h
          have hxs : ys = [] := by
            cases ys with
            | nil => rfl
            | cons a as => simp at hne
          subst hxs
          exact inert_covers r (.arr []) rfl
    | obj gs =>
      rw [renderSimpleEntry] at h
      all_goals try (intro a ha; exact Json.noConfusion ha)
      by_cases hge : gs.isEmpty = true
      · have hxs : gs = [] := by
          cases gs with
          | nil => rfl
          | cons a as => simp [List.isEmpty] at hge
        subst hxs
        exact inert_covers r (.obj []) rfl
      · rw [if_neg hge] at h
        obtain ⟨c, hc, h2⟩ := mapSome_dest h
        subst h2
        exact covers_of_child (List.mem_cons_self _ _)
          (renderCell_covers fuel _ _ _ hc hg hw)

theorem renderCellOpt_covers : ∀ (fuel : Nat) (c : Option Json) (pk : Option String)
    (rn : RenderNode), renderCellOpt fuel c pk = some rn →
    ∀ w, c = some w → goodPV w = true → wfKeys w = true → Covers rn w
  | 0, _, _, _, h => Option.noConfusion h
  | fuel + 1, none, pk, rn, h => by
    intro w hw
    exact Option.noConfusion hw
  | fuel + 1, some v, pk, rn, h => by
    intro w hw hgw hww
    injection hw with hw2
    subst hw2
    exact renderCell_covers fuel v pk rn h hgw hww

theorem renderCellValueOpt_covers : ∀ (fuel : Nat) (c : Option Json)
    (pk : Option String) (rn : RenderNode), renderCellValueOpt fuel c pk = some rn →
    ∀ w, c = some w → goodPV w = true → wfKeys w = true → Covers rn w
  | 0, _, _, _, h => Option.noConfusion h
  | fuel + 1, none, pk, rn, h => by
    intro w hw
    exact Option.noConfusion hw
  | fuel + 1, some v, pk, rn, h => by
    intro w hw hgw hww
    injection hw with hw2
    subst hw2
    exact renderCellValue_covers fuel v pk rn h hgw hww

theorem renderCellValue_covers : ∀ (fuel : Nat) (v : Json) (pk : Option String)
    (r : RenderNode), renderCellValue fuel v pk = some r →
    goodPV v = true → wfKeys v = true → Covers r v
  | 0, _, _, _, h, _, _ => Option.noConfusion h
  | fuel + 1, .null, _, r, _, _, _ => covers_prim rfl
  | fuel + 1, .bool b, _, r, _, _, _ => covers_prim rfl
  | fuel + 1, .num n, _, r, _, _, _ => covers_prim rfl
  | fuel + 1, .str s, _, r, _, _, _ => covers_prim rfl
  | fuel + 1, .arr xs, pk, r, h, hg, hw => renderCell_covers fuel (.arr xs) pk r h hg hw
  | fuel + 1, .obj fs, pk, r, h, hg, hw => renderCell_covers fuel (.obj fs) pk r h hg hw

end

/-- **C8** (amended: the input must give every reachable `Packages` and
`Vulnerabilities` field a qualifying array-of-objects or an inert value, and
object keys must be unique as `JSON.parse` guarantees; the source drops other
`Packages`/`Vulnerabilities` values, see `no_hide_counterexample`).  Under
those conditions the view model hides nothing: every reachable nested
array-of-objects and every reachable non-empty object is shown by some node
built from it, and every element of a reachable non-empty all-primitive array
is shown. -/
theorem no_hide (v : Json) (hg : goodPV v = true) (hw : wfKeys v = true) :
    Covers (buildViewModel v) v := by
  obtain ⟨r, hr⟩ := Option.isSome_iff_exists.mp
    (renderTop_isSome (viewFuel v) v (by rw [viewFuel]))
  have hb : buildViewModel v = r := by
    rw [buildViewModel, hr]
    rfl
  rw [hb]
  exact renderTop_covers (viewFuel v) v r hr hg hw

/-- C8 counterexample: in `{Results: [{Packages: {a: 1}}]}` the non-empty
object `{a: 1}` is a reachable subtree, yet no node of the view model is
built from it — the `Results` table excludes the `Packages` column and the
per-row extras only accept array values, so the object is silently dropped. -/
theorem no_hide_counterexample :
    Occurs hiddenObj badInput ∧ TargetObj hiddenObj
      ∧ ¬ Shows (buildViewModel badInput) hiddenObj := by
  refine ⟨?_, ⟨[("a", .num 1)], rfl, List.cons_ne_nil _ _⟩, ?_⟩
  · exact .objMem (List.mem_cons_self _ _)
      (.arrMem (List.mem_cons_self _ _)
        (.objMem (List.mem_cons_self _ _) (.refl _)))
  · decide

/-- C8 witness: a well-formed report satisfies the hypotheses of `no_hide`,
so its view model covers it. -/
theorem no_hide_witness :
    goodPV okInput = true ∧ wfKeys okInput = true
      ∧ Covers (buildViewModel okInput) okInput :=
  ⟨by decide, by decide, no_hide okInput (by decide) (by decide)⟩

theorem skipWs_ws {c : Char} (hc : isWs c = true) (s : List Char) :
    skipWs (c :: s) = skipWs s := by
  rw [skipWs, if_pos hc]

theorem skipWs_nonws {c : Char} (hc : isWs c = false) (s : List Char) :
    skipWs (c :: s) = c :: s := by
  rw [skipWs, if_neg (by simp [hc])]

theorem digitChar_spec {k : Nat} (hk : k ≤ 9) :
    (digitChar k).toNat = 48 + k ∧ isWs (digitChar k) = false
      ∧ isDigitChar (digitChar k) = true := by
  interval_cases k <;> exact ⟨rfl, rfl, rfl⟩

theorem digitChar_notBranch {k : Nat} (hk : k ≤ 9) :
    digitChar k ≠ 'n' ∧ digitChar k ≠ 't' ∧ digitChar k ≠ 'f' ∧ digitChar k ≠ '"'
      ∧ digitChar k ≠ '[' ∧ digitChar k ≠ '\x7b' ∧ digitChar k ≠ '-'
      ∧ digitChar k ≠ ']' ∧ digitChar k ≠ '\x7d' ∧ digitChar k ≠ ',' := by
  interval_cases k <;> decide

theorem natDigitsAux_mem : ∀ {fuel n : Nat} {c : Char}, c ∈ natDigitsAux fuel n →
    ∃ k, k ≤ 9 ∧ c = digitChar k
  | fuel, 0, c, h => by rw [natDigitsAux] at h; exact absurd h (List.not_mem_nil c)
  | 0, n + 1, c, h => by rw [natDigitsAux] at h; exact absurd h (List.not_mem_nil c)
  | fuel + 1, n + 1, c, h => by
    rw [natDigitsAux] at h
    rcases List.mem_cons.mp h with rfl | h2
    · exact ⟨(n + 1) % 10, by omega, rfl⟩
    · exact natDigitsAux_mem h2

theorem digitsVal_append_single (ds : List Char) (c : Char) :
    digitsVal (ds ++ [c]) = digitsVal ds * 10 + (c.toNat - 48) := by
  rw [digitsVal, digitsVal, List.foldl_append]
  rfl

theorem natDigitsAux_val : ∀ (fuel n : Nat), n ≤ fuel →
    digitsVal (natDigitsAux fuel n).reverse = n
  | fuel, 0, _ => by rw [natDigitsAux]; rfl
  | 0, n + 1, h => by omega
  | fuel + 1, n + 1, h => by
    rw [natDigitsAux, List.reverse_cons, digitsVal_append_single]
    have hdiv : (n + 1) / 10 ≤ fuel := by
      have h1 : (n + 1) / 10 < n + 1 := Nat.div_lt_self (Nat.succ_pos n) (by omega)
      omega
    rw [natDigitsAux_val fuel ((n + 1) / 10) hdiv]
    have hk : (n + 1) % 10 ≤ 9 := by omega
    rw [(digitChar_spec hk).1]
    omega

theorem natDigitsAux_ne_nil : ∀ (fuel n : Nat), 1 ≤ n → n ≤ fuel →
    natDigitsAux fuel n ≠ []
  | 0, n, h1, h2 => by omega
  | fuel + 1, 0, h1, _ => by omega
  | fuel + 1, n + 1, _, _ => by rw [natDigitsAux]; exact List.cons_ne_nil _ _

theorem takeDigits_stop : ∀ (rest : List Char), numSafe rest = true →
    takeDigits rest = ([], rest)
  | [], _ => rfl
  | c :: cs, hr => by
    rw [numSafe, Bool.not_eq_true'] at hr
    rw [takeDigits, if_neg (by simp [hr])]

theorem takeDigits_spec : ∀ (ds rest : List Char),
    (∀ c ∈ ds, isDigitChar c = true) → numSafe rest = true →
    takeDigits (ds ++ rest) = (ds, rest)
  | [], rest, _, hr => by rw [List.nil_append]; exact takeDigits_stop rest hr
  | d :: ds, rest, hd, hr => by
    rw [List.cons_append, takeDigits, if_pos (hd d (List.mem_cons_self _ _)),
      takeDigits_spec ds rest (fun c hc => hd c (List.mem_cons_of_mem _ hc)) hr]

theorem natRepr_chars {n : Nat} {c : Char} (h : c ∈ (natRepr n).data) :
    ∃ k, k ≤ 9 ∧ c = digitChar k := by
  rw [natRepr] at h
  by_cases h0 : n = 0
  · rw [if_pos h0] at h
    have hc : c = '0' := by simpa using h
    exact ⟨0, by omega, by rw [hc]; decide⟩
  · rw [if_neg h0] at h
    have h2 : c ∈ (natDigitsAux n n).reverse := h
    rw [List.mem_reverse] at h2
    exact natDigitsAux_mem h2

theorem natRepr_ne_nil (n : Nat) : (natRepr n).data ≠ [] := by
  rw [natRepr]
  by_cases h0 : n = 0
  · rw [if_pos h0]
    decide
  · rw [if_neg h0]
    have h1 := natDigitsAux_ne_nil n n (by omega) (le_refl n)
    show (natDigitsAux n n).reverse ≠ []
    simpa using h1

theorem digitsVal_natRepr (n : Nat) : digitsVal (natRepr n).data = n := by
  rw [natRepr]
  by_cases h0 : n = 0
  · rw [if_pos h0, h0]
    decide
  · rw [if_neg h0]
    exact natDigitsAux_val n n (le_refl n)

theorem hexVal_hexDigit {k : Nat} (hk : k < 16) : hexVal (hexDigit k) = some k := by
  interval_cases k <;> decide

theorem hexQuad_00 (m : Nat) (hm : m < 256) :
    hexQuad '0' '0' (hexDigit (m / 16)) (hexDigit (m % 16)) = some m := by
  have e3 := hexVal_hexDigit (show m / 16 < 16 by omega)
  have e4 := hexVal_hexDigit (show m % 16 < 16 by omega)
  rw [hexQuad, show hexVal '0' = some 0 from rfl, e3, e4]
  show some (((0 * 16 + 0) * 16 + m / 16) * 16 + m % 16) = some m
  exact congrArg some (by omega)

theorem parseStrBody_plain {c : Char} (h1 : c ≠ '"') (h2 : c ≠ '\\')
    (cs : List Char) :
    parseStrBody (c :: cs) = (fun p => (c :: p.1, p.2)) <$> parseStrBody cs := by
  rw [parseStrBody, if_neg h1, if_neg h2]

theorem parseStrBody_escape : ∀ (cs rest : List Char),
    parseStrBody (escapeJsonString cs ++ '"' :: rest) = some (cs, rest)
  | [], rest => by
    rw [escapeJsonString, List.nil_append, parseStrBody, if_pos rfl]
  | c :: cs, rest => by
    have IH := parseStrBody_escape cs rest
    rw [escapeJsonString]
    by_cases h1 : c = '"'
    · rw [if_pos h1, h1]
      show parseEsc ('"' :: (escapeJsonString cs ++ '"' :: rest))
        = some ('"' :: cs, rest)
      rw [parseEsc, if_pos rfl, IH]
      rfl
    rw [if_neg h1]
    by_cases h2 : c = '\\'
    · rw [if_pos h2, h2]
      show parseEsc ('\\' :: (escapeJsonString cs ++ '"' :: rest))
        = some ('\\' :: cs, rest)
      rw [parseEsc, if_neg (by decide), if_pos rfl, IH]
      rfl
    rw [if_neg h2]
    by_cases h3 : c = '\n'
    · rw [if_pos h3, h3]
      show parseEsc ('n' :: (escapeJsonString cs ++ '"' :: rest))
        = some ('\n' :: cs, rest)
      rw [parseEsc, if_neg (by decide), if_neg (by decide), if_pos rfl, IH]
      rfl
    rw [if_neg h3]
    by_cases h4 : c = '\r'
    · rw [if_pos h4, h4]
      show parseEsc ('r' :: (escapeJsonString cs ++ '"' :: rest))
        = some ('\r' :: cs, rest)
      rw [parseEsc, if_neg (by decide), if_neg (by decide), if_neg (by decide),
        if_pos rfl, IH]
      rfl
    rw [if_neg h4]
    by_cases h5 : c = '\t'
    · rw [if_pos h5, h5]
      show parseEsc ('t' :: (escapeJsonString cs ++ '"' :: rest))
        = some ('\t' :: cs, rest)
      rw [parseEsc, if_neg (by decide), if_neg (by decide), if_neg (by decide),
        if_neg (by decide), if_pos rfl, IH]
      rfl
    rw [if_neg h5]
    by_cases h6 : c.toNat = 8
    · rw [if_pos h6]
      have hc : c = '\x08' := char_eq_of_toNat_eq (by rw [h6]; decide)
      rw [hc]
      show parseEsc ('b' :: (escapeJsonString cs ++ '"' :: rest))
        = some ('\x08' :: cs, rest)
      rw [parseEsc, if_neg (by decide), if_neg (by decide), if_neg (by decide),
        if_neg (by decide), if_neg (by decide), if_pos rfl, IH]
      rfl
    rw [if_neg h6]
    by_cases h7 : c.toNat = 12
    · rw [if_pos h7]
      have hc : c = '\x0c' := char_eq_of_toNat_eq (by rw [h7]; decide)
      rw [hc]
      show parseEsc ('f' :: (escapeJsonString cs ++ '"' :: rest))
        = some ('\x0c' :: cs, rest)
      rw [parseEsc, if_neg (by decide), if_neg (by decide), if_neg (by decide),
        if_neg (by decide), if_neg (by decide), if_neg (by decide), if_pos rfl, IH]
      rfl
    rw [if_neg h7]
    by_cases h8 : c.toNat < 32
    · rw [if_pos h8]
      show parseEsc ('u' :: '0' :: '0' :: hexDigit (c.toNat / 16)
          :: hexDigit (c.toNat % 16) :: (escapeJsonString cs ++ '"' :: rest))
        = some (c :: cs, rest)
      rw [parseEsc, if_neg (by decide), if_neg (by decide), if_neg (by decide),
        if_neg (by decide), if_neg (by decide), if_neg (by decide),
        if_neg (by decide), if_pos rfl]
      rw [parseHex4, hexQuad_00 c.toNat (by omega), optionBind_some]
      show ((fun p => (Char.ofNat c.toNat :: p.1, p.2))
          <$> parseStrBody (escapeJsonString cs ++ '"' :: rest)) = some (c :: cs, rest)
      rw [IH, Char.ofNat_toNat]
      rfl
    · rw [if_neg h8]
      show parseStrBody (c :: (escapeJsonString cs ++ '"' :: rest))
        = some (c :: cs, rest)
      rw [parseStrBody_plain h1 h2, IH]
      rfl

theorem parseValue_skip (fuel : Nat) {c : Char} (hc : isWs c = true) (s : List Char) :
    parseValue fuel (c :: s) = parseValue fuel s := by
  cases fuel with
  | zero => rfl
  | succ f => rw [parseValue, parseValue, skipWs_ws hc]

theorem parseValue_skipRep (fuel n : Nat) (s : List Char) :
    parseValue fuel (List.replicate n ' ' ++ s) = parseValue fuel s := by
  induction n with
  | zero => rfl
  | succ m ih =>
    rw [List.replicate_succ, List.cons_append, parseValue_skip fuel (by decide), ih]

theorem parseArr_skip (fuel : Nat) {c : Char} (hc : isWs c = true) (s : List Char) :
    parseArr fuel (c :: s) = parseArr fuel s := by
  cases fuel with
  | zero => rfl
  | succ f => rw [parseArr, parseArr, skipWs_ws hc]

theorem parseArr_skipRep (fuel n : Nat) (s : List Char) :
    parseArr fuel (List.replicate n ' ' ++ s) = parseArr fuel s := by
  induction n with
  | zero => rfl
  | succ m ih =>
    rw [List.replicate_succ, List.cons_append, parseArr_skip fuel (by decide), ih]

theorem parseObj_skip (fuel : Nat) {c : Char} (hc : isWs c = true) (s : List Char) :
    parseObj fuel (c :: s) = parseObj fuel s := by
  cases fuel with
  | zero => rfl
  | succ f => rw [parseObj, parseObj, skipWs_ws hc]

theorem parseObj_skipRep (fuel n : Nat) (s : List Char) :
    parseObj fuel (List.replicate n ' ' ++ s) = parseObj fuel s := by
  induction n with
  | zero => rfl
  | succ m ih =>
    rw [List.replicate_succ, List.cons_append, parseObj_skip fuel (by decide), ih]

theorem parseItems_skip (fuel : Nat) {c : Char} (hc : isWs c = true) (s : List Char) :
    parseItems fuel (c :: s) = parseItems fuel s := by
  cases fuel with
  | zero => rfl
  | succ f => rw [parseItems, parseItems, skipWs_ws hc]

theorem parseItems_skipRep (fuel n : Nat) (s : List Char) :
    parseItems fuel (List.replicate n ' ' ++ s) = parseItems fuel s := by
  induction n with
  | zero => rfl
  | succ m ih =>
    rw [List.replicate_succ, List.cons_append, parseItems_skip fuel (by decide), ih]

theorem parseField_skip (fuel : Nat) {c : Char} (hc : isWs c = true) (s : List Char) :
    parseField fuel (c :: s) = parseField fuel s := by
  cases fuel with
  | zero => rfl
  | succ f => rw [parseField, parseField, skipWs_ws hc]

theorem parseField_skipRep (fuel n : Nat) (s : List Char) :
    parseField fuel (List.replicate n ' ' ++ s) = parseField fuel s := by
  induction n with
  | zero => rfl
  | succ m ih =>
    rw [List.replicate_succ, List.cons_append, parseField_skip fuel (by decide), ih]

theorem parseFields_skip (fuel : Nat) {c : Char} (hc : isWs c = true) (s : List Char) :
    parseFields fuel (c :: s) = parseFields fuel s := by
  cases fuel with
  | zero => rfl
  | succ f => rw [parseFields, parseFields, skipWs_ws hc]

theorem parseFields_skipRep (fuel n : Nat) (s : List Char) :
    parseFields fuel (List.replicate n ' ' ++ s) = parseFields fuel s := by
  induction n with
  | zero => rfl
  | succ m ih =>
    rw [List.replicate_succ, List.cons_append, parseFields_skip fuel (by decide), ih]

theorem parseArr_cons (fuel : Nat) {c : Char} (hc : isWs c = false) (cs : List Char) :
    parseArr (fuel + 1) (c :: cs) =
      (if c = ']' then some (.arr [], cs)
       else do
         let p1 ← parseValue fuel (c :: cs)
         let p2 ← parseItems fuel p1.2
         pure (.arr (p1.1 :: p2.1), p2.2)) := by
  rw [parseArr, skipWs_nonws hc]

theorem parseValue_cons (fuel : Nat) {c : Char} (hc : isWs c = false) (cs : List Char) :
    parseValue (fuel + 1) (c :: cs) =
      (if c = 'n' then
        match cs with
        | 'u' :: 'l' :: 'l' :: rest => some (.null, rest)
        | _ => none
      else if c = 't' then
        match cs with
        | 'r' :: 'u' :: 'e' :: rest => some (.bool true, rest)
        | _ => none
      else if c = 'f' then
        match cs with
        | 'a' :: 'l' :: 's' :: 'e' :: rest => some (.bool false, rest)
        | _ => none
      else if c = '"' then
        (fun p => (Json.str (String.mk p.1), p.2)) <$> parseStrBody cs
      else if c = '[' then parseArr fuel cs
      else if c = '\x7b' then parseObj fuel cs
      else if c = '-' then
        if (takeDigits cs).1 = [] then none
        else some (.num (-(Int.ofNat (digitsVal (takeDigits cs).1))), (takeDigits cs).2)
      else if isDigitChar c then
        if (takeDigits (c :: cs)).1 = [] then none
        else some (.num (Int.ofNat (digitsVal (takeDigits (c :: cs)).1)),
          (takeDigits (c :: cs)).2)
      else none) := by
  rw [parseValue, skipWs_nonws hc]

theorem intRepr_negSucc_data (m : Nat) :
    (intRepr (Int.negSucc m)).data = '-' :: (natRepr (m + 1)).data := by
  show ("-" ++ natRepr (m + 1)).data = _
  rw [String.data_append]
  rfl

theorem ppJson_head (d : Nat) (r : Json) : ∃ c t, ppJson d r = c :: t
    ∧ isWs c = false ∧ c ≠ ']' ∧ c ≠ '\x7d' := by
  cases r with
  | null => exact ⟨'n', _, rfl, by decide, by decide, by decide⟩
  | bool b =>
    cases b with
    | false => exact ⟨'f', _, rfl, by decide, by decide, by decide⟩
    | true => exact ⟨'t', _, rfl, by decide, by decide, by decide⟩
  | num n =>
    cases n with
    | ofNat m =>
      cases heq : (natRepr m).data with
      | nil => exact absurd heq (natRepr_ne_nil m)
      | cons d1 ds =>
        obtain ⟨k, hk, hd1⟩ := natRepr_chars (heq ▸ List.mem_cons_self d1 ds)
        refine ⟨d1, ds, ?_, ?_, ?_, ?_⟩
        · show (natRepr m).data = d1 :: ds
          exact heq
        · rw [hd1]
          exact (digitChar_spec hk).2.1
        · rw [hd1]
          exact (digitChar_notBranch hk).2.2.2.2.2.2.2.1
        · rw [hd1]
          exact (digitChar_notBranch hk).2.2.2.2.2.2.2.2.1
    | negSucc m =>
      refine ⟨'-', (natRepr (m + 1)).data, ?_, by decide, by decide, by decide⟩
      show (intRepr (Int.negSucc m)).data = _
      exact intRepr_negSucc_data m
  | str s => exact ⟨'"', _, rfl, by decide, by decide, by decide⟩
  | arr xs =>
    cases xs with
    | nil => exact ⟨'[', _, rfl, by decide, by decide, by decide⟩
    | cons x xs => exact ⟨'[', _, rfl, by decide, by decide, by decide⟩
  | obj fs =>
    cases fs with
    | nil => exact ⟨'\x7b', _, rfl, by decide, by decide, by decide⟩
    | cons f fs => exact ⟨'\x7b', _, rfl, by decide, by decide, by decide⟩

theorem numSafe_ppList (d : Nat) (ys : List Json) (z : List Char) :
    numSafe (ppList d ys ++ '\n' :: z) = true := by
  cases ys with
  | nil => rfl
  | cons y ys => rfl

theorem numSafe_ppFields (d : Nat) (fs : List (String × Json)) (z : List Char) :
    numSafe (ppFields d fs ++ '\n' :: z) = true := by
  cases fs with
  | nil => rfl
  | cons f fs => rfl

mutual

theorem ppJson_len : ∀ (d : Nat) (r : Json), jweight r ≤ (ppJson d r).length
  | d, .null => by
    show (1 : Nat) ≤ 4
    omega
  | d, .bool b => by
    cases b with
    | false =>
      show (1 : Nat) ≤ 5
      omega
    | true =>
      show (1 : Nat) ≤ 4
      omega
  | d, .num n => by
    show 1 ≤ (intRepr n).data.length
    have hne : (intRepr n).data ≠ [] := by
      cases n with
      | ofNat m => exact natRepr_ne_nil m
      | negSucc m =>
        rw [intRepr_negSucc_data]
        exact List.cons_ne_nil _ _
    exact List.length_pos.mpr hne
  | d, .str s => by
    show 1 ≤ ('"' :: escapeJsonString s.data ++ ['"']).length
    simp
  | d, .arr [] => by
    show (2 : Nat) ≤ 2
    omega
  | d, .arr (x :: xs) => by
    have h1 := ppJson_len (d + 1) x
    have h2 := ppList_len (d + 1) xs
    have hw : jweight (.arr (x :: xs)) = 1 + (1 + jweight x + jweightList xs) := rfl
    rw [ppJson]
    simp only [List.length_cons, List.length_append, List.length_replicate]
    omega
  | d, .obj [] => by
    show (2 : Nat) ≤ 2
    omega
  | d, .obj (f :: fs) => by
    have h1 := ppField_len (d + 1) f
    have h2 := ppFields_len (d + 1) fs
    have hw : jweight (.obj (f :: fs)) = 1 + (1 + jweight f.2 + jweightFields fs) := by
      cases f
      rfl
    rw [ppJson]
    simp only [List.length_cons, List.length_append, List.length_replicate]
    omega

theorem ppList_len : ∀ (d : Nat) (xs : List Json),
    jweightList xs ≤ (ppList d xs).length + 1
  | d, [] => by
    show (1 : Nat) ≤ 0 + 1
    omega
  | d, x :: xs => by
    have h1 := ppJson_len d x
    have h2 := ppList_len d xs
    have hw : jweightList (x :: xs) = 1 + jweight x + jweightList xs := rfl
    rw [ppList]
    simp only [List.length_cons, List.length_append, List.length_replicate]
    omega

theorem ppField_len : ∀ (d : Nat) (f : String × Json),
    jweight f.2 + 1 ≤ (ppField d f).length
  | d, (k, v) => by
    have h1 := ppJson_len d v
    rw [ppField]
    simp only [List.length_cons, List.length_append]
    omega

theorem ppFields_len : ∀ (d : Nat) (fs : List (String × Json)),
    jweightFields fs ≤ (ppFields d fs).length + 1
  | d, [] => by
    show (1 : Nat) ≤ 0 + 1
    omega
  | d, f :: fs => by
    have h1 := ppField_len d f
    have h2 := ppFields_len d fs
    have hw : jweightFields (f :: fs) = 1 + jweight f.2 + jweightFields fs := by
      cases f
      rfl
    rw [ppFields]
    simp only [List.length_cons, List.length_append, List.length_replicate]
    omega

end

theorem parseField_cons (fuel : Nat) {c : Char} (hc : isWs c = false) (cs : List Char) :
    parseField (fuel + 1) (c :: cs) =
      (if c = '"' then do
        let pk ← parseStrBody cs
        match skipWs pk.2 with
        | [] => none
        | c2 :: cs2 =>
          if c2 = ':' then do
            let pv ← parseValue fuel cs2
            pure ((String.mk pk.1, pv.1), pv.2)
          else none
      else none) := by
  rw [parseField, skipWs_nonws hc]

mutual

theorem parseValue_pp : ∀ (fuel d : Nat) (r : Json) (rest : List Char),
    jweight r ≤ fuel → numSafe rest = true →
    parseValue fuel (ppJson d r ++ rest) = some (r, rest)
  | 0, _, r, _, h, _ => by have := jweight_pos r; omega
  | fuel + 1, d, .null, rest, _, _ => rfl
  | fuel + 1, d, .bool true, rest, _, _ => rfl
  | fuel + 1, d, .bool false, rest, _, _ => rfl
  | fuel + 1, d, .str s, rest, _, _ => by
    simp only [ppJson, List.cons_append, List.append_assoc, List.nil_append]
    show ((fun p => (Json.str (String.mk p.1), p.2))
        <$> parseStrBody (escapeJsonString s.data ++ '"' :: rest)) = some (.str s, rest)
    rw [parseStrBody_escape]
    rfl
  | fuel + 1, d, .num (Int.ofNat m), rest, h, hrest => by
    show parseValue (fuel + 1) ((natRepr m).data ++ rest) = some (.num (Int.ofNat m), rest)
    cases heq : (natRepr m).data with
    | nil => exact absurd heq (natRepr_ne_nil m)
    | cons d1 ds =>
      have hdig : ∀ c ∈ d1 :: ds, isDigitChar c = true := by
        intro c hc
        obtain ⟨k, hk, rfl⟩ := natRepr_chars (heq ▸ hc)
        exact (digitChar_spec hk).2.2
      obtain ⟨k, hk, hd1⟩ := natRepr_chars (heq ▸ List.mem_cons_self d1 ds)
      have ht : takeDigits ((d1 :: ds) ++ rest) = (d1 :: ds, rest) :=
        takeDigits_spec _ _ hdig hrest
      obtain ⟨hn1, hn2, hn3, hn4, hn5, hn6, hn7, _, _, _⟩ := digitChar_notBranch hk
      rw [List.cons_append,
        parseValue_cons fuel (by rw [hd1]; exact (digitChar_spec hk).2.1),
        if_neg (by rw [hd1]; exact hn1), if_neg (by rw [hd1]; exact hn2),
        if_neg (by rw [hd1]; exact hn3), if_neg (by rw [hd1]; exact hn4),
        if_neg (by rw [hd1]; exact hn5), if_neg (by rw [hd1]; exact hn6),
        if_neg (by rw [hd1]; exact hn7),
        if_pos (by rw [hd1]; exact (digitChar_spec hk).2.2)]
      have ht2 : takeDigits (d1 :: (ds ++ rest)) = (d1 :: ds, rest) := by
        rw [← List.cons_append]
        exact ht
      rw [ht2, if_neg (by simp)]
      have hv : digitsVal (d1 :: ds) = m := by
        have h3 := digitsVal_natRepr m
        rw [heq] at h3
        exact h3
      show some (Json.num (Int.ofNat (digitsVal (d1 :: ds))), rest)
        = some (Json.num (Int.ofNat m), rest)
      rw [hv]
  | fuel + 1, d, .num (Int.negSucc m), rest, h, hrest => by
    show parseValue (fuel + 1) ('-' :: ((natRepr (m + 1)).data ++ rest))
      = some (.num (Int.negSucc m), rest)
    have hdig : ∀ c ∈ (natRepr (m + 1)).data, isDigitChar c = true := by
      intro c hc
      obtain ⟨k, hk, rfl⟩ := natRepr_chars hc
      exact (digitChar_spec hk).2.2
    have ht : takeDigits ((natRepr (m + 1)).data ++ rest) = ((natRepr (m + 1)).data, rest) :=
      takeDigits_spec _ _ hdig hrest
    rw [parseValue_cons fuel (by decide), if_neg (by decide), if_neg (by decide),
      if_neg (by decide), if_neg (by decide), if_neg (by decide), if_neg (by decide),
      if_pos rfl, ht, if_neg (natRepr_ne_nil (m + 1))]
    show some (Json.num (-(Int.ofNat (digitsVal (natRepr (m + 1)).data))), rest)
      = some (Json.num (Int.negSucc m), rest)
    rw [digitsVal_natRepr]
    have hneg : -(Int.ofNat (m + 1)) = Int.negSucc m := by
      rw [Int.negSucc_eq, Int.ofNat_eq_coe]
      push_cast
      ring
    rw [hneg]
  | fuel + 1, d, .arr [], rest, h, _ => by
    have hw : jweight (Json.arr []) = 2 := rfl
    cases fuel with
    | zero => omega
    | succ f =>
      show parseValue (f + 2) ('[' :: ']' :: rest) = some (.arr [], rest)
      rfl
  | fuel + 1, d, .arr (x :: xs), rest, h, hrest => by
    have hw : jweight (Json.arr (x :: xs)) = 1 + jweightList (x :: xs) := rfl
    simp only [ppJson, List.cons_append, List.append_assoc, List.nil_append]
    show parseArr fuel ('\n' :: (List.replicate (2 * (d + 1)) ' '
        ++ (ppJson (d + 1) x ++ (ppList (d + 1) xs
          ++ '\n' :: (List.replicate (2 * d) ' ' ++ ']' :: rest)))))
      = some (.arr (x :: xs), rest)
    exact parseArr_pp fuel d x xs rest (by omega) hrest
  | fuel + 1, d, .obj [], rest, h, _ => by
    have hw : jweight (Json.obj []) = 2 := rfl
    cases fuel with
    | zero => omega
    | succ f =>
      show parseValue (f + 2) ('\x7b' :: '\x7d' :: rest) = some (.obj [], rest)
      rfl
  | fuel + 1, d, .obj (f :: fs), rest, h, hrest => by
    have hw : jweight (Json.obj (f :: fs)) = 1 + jweightFields (f :: fs) := rfl
    simp only [ppJson, List.cons_append, List.append_assoc, List.nil_append]
    show parseObj fuel ('\n' :: (List.replicate (2 * (d + 1)) ' '
        ++ (ppField (d + 1) f ++ (ppFields (d + 1) fs
          ++ '\n' :: (List.replicate (2 * d) ' ' ++ '\x7d' :: rest)))))
      = some (.obj (f :: fs), rest)
    exact parseObj_pp fuel d f fs rest (by omega) hrest

theorem parseArr_pp : ∀ (fuel d : Nat) (x : Json) (xs : List Json) (rest : List Char),
    jweightList (x :: xs) ≤ fuel → numSafe rest = true →
    parseArr fuel ('\n' :: (List.replicate (2 * (d + 1)) ' '
      ++ (ppJson (d + 1) x ++ (ppList (d + 1) xs
        ++ '\n' :: (List.replicate (2 * d) ' ' ++ ']' :: rest)))))
      = some (.arr (x :: xs), rest)
  | 0, _, x, xs, _, h, _ => by
    have h1 := jweight_pos x
    have h2 := jweightList_pos xs
    have hw : jweightList (x :: xs) = 1 + jweight x + jweightList xs := rfl
    omega
  | fuel + 1, d, x, xs, rest, h, hrest => by
    have h1 := jweight_pos x
    have h2 := jweightList_pos xs
    have hw : jweightList (x :: xs) = 1 + jweight x + jweightList xs := rfl
    rw [parseArr_skip (fuel + 1) (show isWs '\n' = true from rfl), parseArr_skipRep]
    obtain ⟨c, t, hpp, hws, hbr, _⟩ := ppJson_head (d + 1) x
    rw [hpp, List.cons_append, parseArr_cons fuel hws, if_neg hbr]
    have hre : c :: (t ++ (ppList (d + 1) xs
        ++ '\n' :: (List.replicate (2 * d) ' ' ++ ']' :: rest)))
        = ppJson (d + 1) x ++ (ppList (d + 1) xs
          ++ '\n' :: (List.replicate (2 * d) ' ' ++ ']' :: rest)) := by
      rw [hpp, List.cons_append]
    rw [hre, parseValue_pp fuel (d + 1) x _ (by omega) (numSafe_ppList _ _ _)]
    show (do
      let p2 ← parseItems fuel (ppList (d + 1) xs
        ++ '\n' :: (List.replicate (2 * d) ' ' ++ ']' :: rest))
      pure (Json.arr (x :: p2.1), p2.2)) = some (Json.arr (x :: xs), rest)
    rw [parseItems_pp fuel (d + 1) (2 * d) xs rest (by omega) hrest]
    rfl

theorem parseObj_pp : ∀ (fuel d : Nat) (f : String × Json)
    (fs : List (String × Json)) (rest : List Char),
    jweightFields (f :: fs) ≤ fuel → numSafe rest = true →
    parseObj fuel ('\n' :: (List.replicate (2 * (d + 1)) ' '
      ++ (ppField (d + 1) f ++ (ppFields (d + 1) fs
        ++ '\n' :: (List.replicate (2 * d) ' ' ++ '\x7d' :: rest)))))
      = some (.obj (f :: fs), rest)
  | 0, _, (k, v), fs, _, h, _ => by
    have h1 := jweight_pos v
    have h2 := jweightFields_pos fs
    have hw : jweightFields ((k, v) :: fs) = 1 + jweight v + jweightFields fs := rfl
    omega
  | fuel + 1, d, (k, v), fs, rest, h, hrest => by
    have h1 := jweight_pos v
    have h2 := jweightFields_pos fs
    have hw : jweightFields ((k, v) :: fs) = 1 + jweight v + jweightFields fs := rfl
    rw [parseObj_skip (fuel + 1) (show isWs '\n' = true from rfl), parseObj_skipRep]
    simp only [ppField, List.cons_append, List.append_assoc]
    show (do
      let p1 ← parseField fuel ('"' :: (escapeJsonString k.data
        ++ '"' :: ':' :: ' ' :: (ppJson (d + 1) v
          ++ (ppFields (d + 1) fs
            ++ '\n' :: (List.replicate (2 * d) ' ' ++ '\x7d' :: rest)))))
      let p2 ← parseFields fuel p1.2
      pure (Json.obj (p1.1 :: p2.1), p2.2)) = some (Json.obj ((k, v) :: fs), rest)
    rw [parseField_pp fuel (d + 1) k v _ (by omega) (numSafe_ppFields _ _ _)]
    show (do
      let p2 ← parseFields fuel (ppFields (d + 1) fs
        ++ '\n' :: (List.replicate (2 * d) ' ' ++ '\x7d' :: rest))
      pure (Json.obj ((k, v) :: p2.1), p2.2)) = some (Json.obj ((k, v) :: fs), rest)
    rw [parseFields_pp fuel (d + 1) (2 * d) fs rest (by omega) hrest]
    rfl

theorem parseItems_pp : ∀ (fuel d m : Nat) (ys : List Json) (rest : List Char),
    jweightList ys ≤ fuel → numSafe rest = true →
    parseItems fuel (ppList d ys ++ '\n' :: (List.replicate m ' ' ++ ']' :: rest))
      = some (ys, rest)
  | 0, _, _, ys, _, h, _ => by have := jweightList_pos ys; omega
  | fuel + 1, d, m, [], rest, _, _ => by
    simp only [ppList, List.nil_append]
    rw [parseItems_skip (fuel + 1) (show isWs '\n' = true from rfl), parseItems_skipRep]
    rfl
  | fuel + 1, d, m, y :: ys, rest, h, hrest => by
    have h1 := jweight_pos y
    have h2 := jweightList_pos ys
    have hw : jweightList (y :: ys) = 1 + jweight y + jweightList ys := rfl
    simp only [ppList, List.cons_append, List.append_assoc, List.nil_append]
    show (do
      let p1 ← parseValue fuel ('\n' :: (List.replicate (2 * d) ' '
        ++ (ppJson d y ++ (ppList d ys
          ++ '\n' :: (List.replicate m ' ' ++ ']' :: rest)))))
      let p2 ← parseItems fuel p1.2
      pure (p1.1 :: p2.1, p2.2)) = some (y :: ys, rest)
    rw [parseValue_skip fuel (show isWs '\n' = true from rfl), parseValue_skipRep,
      parseValue_pp fuel d y _ (by omega) (numSafe_ppList _ _ _)]
    show (do
      let p2 ← parseItems fuel (ppList d ys
        ++ '\n' :: (List.replicate m ' ' ++ ']' :: rest))
      pure (y :: p2.1, p2.2)) = some (y :: ys, rest)
    rw [parseItems_pp fuel d m ys rest (by omega) hrest]
    rfl

theorem parseField_pp : ∀ (fuel d : Nat) (k : String) (v : Json) (rest : List Char),
    jweight v + 1 ≤ fuel → numSafe rest = true →
    parseField fuel ('"' :: (escapeJsonString k.data
      ++ '"' :: ':' :: ' ' :: (ppJson d v ++ rest))) = some ((k, v), rest)
  | 0, _, _, v, _, h, _ => by have := jweight_pos v; omega
  | fuel + 1, d, k, v, rest, h, hrest => by
    rw [parseField_cons fuel (by decide), if_pos rfl,
      parseStrBody_escape k.data (':' :: ' ' :: (ppJson d v ++ rest))]
    show (do
      let pv ← parseValue fuel (' ' :: (ppJson d v ++ rest))
      pure ((String.mk k.data, pv.1), pv.2)) = some ((k, v), rest)
    rw [parseValue_skip fuel (show isWs ' ' = true from rfl),
      parseValue_pp fuel d v rest (by omega) hrest]
    rfl

theorem parseFields_pp : ∀ (fuel d m : Nat) (fs : List (String × Json))
    (rest : List Char),
    jweightFields fs ≤ fuel → numSafe rest = true →
    parseFields fuel (ppFields d fs
      ++ '\n' :: (List.replicate m ' ' ++ '\x7d' :: rest)) = some (fs, rest)
  | 0, _, _, fs, _, h, _ => by have := jweightFields_pos fs; omega
  | fuel + 1, d, m, [], rest, _, _ => by
    simp only [ppFields, List.nil_append]
    rw [parseFields_skip (fuel + 1) (show isWs '\n' = true from rfl),
      parseFields_skipRep]
    rfl
  | fuel + 1, d, m, (k, v) :: fs, rest, h, hrest => by
    have h1 := jweight_pos v
    have h2 := jweightFields_pos fs
    have hw : jweightFields ((k, v) :: fs) = 1 + jweight v + jweightFields fs := rfl
    simp only [ppFields, ppField, List.cons_append, List.append_assoc, List.nil_append]
    show (do
      let p1 ← parseField fuel ('\n' :: (List.replicate (2 * d) ' '
        ++ ('"' :: (escapeJsonString k.data ++ '"' :: ':' :: ' ' :: (ppJson d v
          ++ (ppFields d fs ++ '\n' :: (List.replicate m ' ' ++ '\x7d' :: rest)))))))
      let p2 ← parseFields fuel p1.2
      pure (p1.1 :: p2.1, p2.2)) = some ((k, v) :: fs, rest)
    rw [parseField_skip fuel (show isWs '\n' = true from rfl), parseField_skipRep,
      parseField_pp fuel d k v _ (by omega) (numSafe_ppFields _ _ _)]
    show (do
      let p2 ← parseFields fuel (ppFields d fs
        ++ '\n' :: (List.replicate m ' ' ++ '\x7d' :: rest))
      pure ((k, v) :: p2.1, p2.2)) = some ((k, v) :: fs, rest)
    rw [parseFields_pp fuel d m fs rest (by omega) hrest]
    rfl

end

/-- **C10.** For every record `r` (with unique keys inside every object, as any
value obtained from `JSON.parse` has), the clipboard payload of `copyRecord` —
`JSON.stringify(r, null, 2)`, the 2-space-indented pretty-printed JSON of
exactly `r` — parses back (with the `JSON.parse` model) to a value structurally
equal to `r`: the copy round-trips. -/
theorem copy_roundtrip (r : Json) (hw : wfKeys r = true) :
    parseJson (copyPayload r) = some r := by
  have hlen := ppJson_len 0 r
  have hp := parseValue_pp ((ppJson 0 r).length + 1) 0 r [] (by omega) rfl
  rw [List.append_nil] at hp
  have hp2 : parseValue ((copyPayload r).data.length + 1) (copyPayload r).data
      = some (r, []) := hp
  rw [parseJson, hp2]
  rfl

/-- C10 witness: the sample record — spaces and an escape in strings, a
negative number, a nested array, an empty object — round-trips. -/
theorem copy_roundtrip_witness :
    wfKeys sampleRec = true ∧ parseJson (copyPayload sampleRec) = some sampleRec :=
  ⟨by decide, copy_roundtrip sampleRec (by decide)⟩
